import Mathlib

/-!
# Yandex Disk Go client: request-execution substrate

A shallow embedding of the transport layer of the client library
(`transport.go`, `client.go`, `errors.go`, `query.go`, `options.go`,
`service_resources.go`), of its action envelope and chunked upload
(`action.go`, `service_uploads.go`, `types.go`) and of its operation worker
(`worker.go`, `service_operations.go`), together with the properties that the
specification states about them.

Conventions of the embedding

* Go `int`, `int64` and `time.Duration` are integers reduced into the signed
  64-bit range by `wrap64` wherever the source performs arithmetic on them.
* Go `string` values are Lean strings, i.e. well-formed UTF-8 text; `[]byte`
  values that are produced by decoding are lists of bytes.
* Slices are values, except where two slices of one array are live at the
  same time: `apiErrorFromResponse` stores the body in `RawBody` and decodes
  the body into the same struct, and the writes of the decoder into the array
  both share are represented (`unmarshalState`).
* Calls into the environment (the HTTP round trip, the context-aware timer, the
  floating-point jitter draw) are read from a `World` record, and the hooks a
  call invokes are recorded in a trace of `Event`s.
-/

namespace Yadisk

/-! ## Machine integers -/

/-- Two's complement reduction of an integer into the signed 64-bit range. -/
def wrap64 (x : Int) : Int := (x + 2 ^ 63) % 2 ^ 64 - 2 ^ 63

/-- Decimal rendering of an integer, as `strconv.Itoa`, `strconv.FormatInt(v, 10)`
and the `%d` verb of `fmt.Sprintf` produce it. -/
def itoa (n : Int) : String :=
  if n < 0 then "-" ++ Nat.repr n.natAbs else Nat.repr n.toNat

/-- The text `strconv.FormatBool` produces. -/
def formatBool (b : Bool) : String := if b then "true" else "false"

/-! ## Text helpers -/

/-- The predicate `unicode.IsSpace`: the Unicode White_Space property. -/
def isSpace (c : Char) : Bool :=
  let n := c.toNat
  (9 ≤ n && n ≤ 13) || n == 32 || n == 0x85 || n == 0xA0 || n == 0x1680 ||
    (0x2000 ≤ n && n ≤ 0x200A) || n == 0x2028 || n == 0x2029 || n == 0x202F ||
    n == 0x205F || n == 0x3000

/-- Drop the leading white space of a character list. -/
def trimLeft : List Char → List Char
  | [] => []
  | c :: cs => if isSpace c then trimLeft cs else c :: cs

/-- The function `strings.TrimSpace`: remove leading and trailing white space. -/
def TrimSpace (s : String) : String :=
  String.mk (trimLeft (trimLeft s.data).reverse).reverse

/-- Lexicographic comparison of two strings by code point, which is the byte
order Go uses for `<` on well-formed UTF-8 strings. -/
def strLt : List Char → List Char → Bool
  | [], [] => false
  | [], _ :: _ => true
  | _ :: _, [] => false
  | a :: as, b :: bs => if a.toNat < b.toNat then true else if b.toNat < a.toNat then false else strLt as bs

/-- The UTF-8 encoding of a code point, as a list of byte values. -/
def utf8Bytes (c : Char) : List Nat :=
  let n := c.toNat
  if n < 0x80 then [n]
  else if n < 0x800 then [0xC0 + n / 64, 0x80 + n % 64]
  else if n < 0x10000 then [0xE0 + n / 4096, 0x80 + n / 64 % 64, 0x80 + n % 64]
  else [0xF0 + n / 262144, 0x80 + n / 4096 % 64, 0x80 + n / 64 % 64, 0x80 + n % 64]

/-- Decode a byte sequence as UTF-8; a byte that starts no well-formed sequence
becomes U+FFFD. Every step consumes a byte, so fuel equal to the length is
enough. -/
def utf8DecodeFuel : Nat → List Nat → List Char
  | 0, _ => []
  | _ + 1, [] => []
  | fuel + 1, b0 :: rest =>
    if b0 < 0x80 then Char.ofNat b0 :: utf8DecodeFuel fuel rest
    else
      match rest with
      | b1 :: rest1 =>
        if 0xC2 ≤ b0 ∧ b0 ≤ 0xDF ∧ 0x80 ≤ b1 ∧ b1 ≤ 0xBF then
          Char.ofNat ((b0 - 0xC0) * 64 + (b1 - 0x80)) :: utf8DecodeFuel fuel rest1
        else
          match rest1 with
          | b2 :: rest2 =>
            if 0xE0 ≤ b0 ∧ b0 ≤ 0xEF ∧ 0x80 ≤ b1 ∧ b1 ≤ 0xBF ∧ 0x80 ≤ b2 ∧ b2 ≤ 0xBF ∧
                (b0 = 0xE0 → 0xA0 ≤ b1) ∧ (b0 = 0xED → b1 ≤ 0x9F) then
              Char.ofNat ((b0 - 0xE0) * 4096 + (b1 - 0x80) * 64 + (b2 - 0x80))
                :: utf8DecodeFuel fuel rest2
            else
              match rest2 with
              | b3 :: rest3 =>
                if 0xF0 ≤ b0 ∧ b0 ≤ 0xF4 ∧ 0x80 ≤ b1 ∧ b1 ≤ 0xBF ∧ 0x80 ≤ b2 ∧ b2 ≤ 0xBF ∧
                    0x80 ≤ b3 ∧ b3 ≤ 0xBF ∧ (b0 = 0xF0 → 0x90 ≤ b1) ∧ (b0 = 0xF4 → b1 ≤ 0x8F) then
                  Char.ofNat ((b0 - 0xF0) * 262144 + (b1 - 0x80) * 4096 + (b2 - 0x80) * 64
                    + (b3 - 0x80)) :: utf8DecodeFuel fuel rest3
                else Char.ofNat 0xFFFD :: utf8DecodeFuel fuel rest
              | [] => Char.ofNat 0xFFFD :: utf8DecodeFuel fuel rest
          | [] => Char.ofNat 0xFFFD :: utf8DecodeFuel fuel rest
      | [] => [Char.ofNat 0xFFFD]

/-- Decode a byte sequence as UTF-8. -/
def utf8Decode (bs : List Nat) : List Char := utf8DecodeFuel bs.length bs

/-! ## The error model (`errors.go`) -/

/-- The struct `APIError`. -/
structure APIError where
  HTTPStatus : Int
  Code : String
  Message : String
  Description : String
  RequestID : String
  RawBody : List Nat
deriving DecidableEq, Repr

/-- The method `(*APIError).Error`; `none` is the nil receiver. -/
def APIError.Error : Option APIError → String
  | none => "<nil>"
  | some e =>
    if e.Code ≠ "" ∧ e.Message ≠ "" then
      "yadisk api error " ++ itoa e.HTTPStatus ++ " " ++ e.Code ++ ": " ++ e.Message
    else if e.Code ≠ "" then
      "yadisk api error " ++ itoa e.HTTPStatus ++ " " ++ e.Code
    else if e.Message ≠ "" then
      "yadisk api error " ++ itoa e.HTTPStatus ++ ": " ++ e.Message
    else
      "yadisk api error " ++ itoa e.HTTPStatus

/-- Values of the Go interface `error` that the transport produces or forwards. -/
inductive GoError where
  /-- A `*APIError`. -/
  | api (e : APIError)
  /-- Any error of another dynamic type: transport failures, context errors,
  body read and close failures, JSON errors. -/
  | other (msg : String)
  /-- The result of `errors.Join` on two errors. -/
  | join (a b : GoError)
deriving DecidableEq, Repr

/-- Whether the dynamic type of an error is `*APIError`. -/
def GoError.isAPIError : GoError → Bool
  | .api _ => true
  | _ => false

/-! ## A model of `encoding/json` decoding into `*APIError`

The standard library is not part of the repository; the part of
`json.Unmarshal` that `apiErrorFromResponse` relies on is modelled here: the
JSON grammar of RFC 8259 as the Go scanner accepts it, and the rules by which
the decoder stores the members of an object into the fields of a struct. -/

/-- A parsed JSON value; a number keeps its literal text. -/
inductive JValue where
  | null
  | bool (b : Bool)
  | num (lit : List Char)
  | str (s : String)
  | arr (elems : List JValue)
  | obj (members : List (String × JValue))
deriving Repr

/-- Skip JSON white space (space, tab, carriage return, line feed). -/
def skipWS : List Char → List Char
  | [] => []
  | c :: cs => if c = ' ' ∨ c = '\t' ∨ c = '\r' ∨ c = '\n' then skipWS cs else c :: cs

/-- The value of a hexadecimal digit. -/
def hexVal (c : Char) : Option Nat :=
  let n := c.toNat
  if 48 ≤ n ∧ n ≤ 57 then some (n - 48)
  else if 97 ≤ n ∧ n ≤ 102 then some (n - 87)
  else if 65 ≤ n ∧ n ≤ 70 then some (n - 55)
  else none

/-- The value of four hexadecimal digits (the helper `getu4` after the `\u`). -/
def hex4 (a b c d : Char) : Option Nat :=
  match hexVal a, hexVal b, hexVal c, hexVal d with
  | some x, some y, some z, some w => some (x * 4096 + y * 256 + z * 16 + w)
  | _, _, _, _ => none

/-- The code point a `\uXXXX` escape with value `r` stands for, given the text
after it: a high surrogate followed by an escaped low surrogate combines with
it, any other surrogate becomes U+FFFD. The second component tells whether the
following escape was consumed. -/
def escapedRune (r : Nat) (rest : List Char) : Char × Bool :=
  if 0xD800 ≤ r ∧ r < 0xE000 then
    match rest with
    | '\\' :: 'u' :: a :: b :: c :: d :: _ =>
      match hex4 a b c d with
      | some r2 =>
        if r < 0xDC00 ∧ 0xDC00 ≤ r2 ∧ r2 < 0xE000 then
          (Char.ofNat ((r - 0xD800) * 1024 + (r2 - 0xDC00) + 0x10000), true)
        else (Char.ofNat 0xFFFD, false)
      | none => (Char.ofNat 0xFFFD, false)
    | _ => (Char.ofNat 0xFFFD, false)
  else (Char.ofNat r, false)

/-- Scan and unquote a JSON string after its opening quote; `acc` holds the
decoded characters in reverse. Returns the string and the text after the
closing quote. -/
def parseString : Nat → List Char → List Char → Option (String × List Char)
  | 0, _, _ => none
  | _ + 1, [], _ => none
  | fuel + 1, c :: cs, acc =>
    if c = '"' then some (String.mk acc.reverse, cs)
    else if c = '\\' then
      match cs with
      | 'u' :: a :: b :: x :: d :: rest =>
        match hex4 a b x d with
        | none => none
        | some r =>
          match escapedRune r rest with
          | (ch, false) => parseString fuel rest (ch :: acc)
          | (ch, true) => parseString fuel (rest.drop 6) (ch :: acc)
      | e :: rest =>
        if e = '"' ∨ e = '\\' ∨ e = '/' then parseString fuel rest (e :: acc)
        else if e = 'b' then parseString fuel rest (Char.ofNat 8 :: acc)
        else if e = 'f' then parseString fuel rest (Char.ofNat 12 :: acc)
        else if e = 'n' then parseString fuel rest ('\n' :: acc)
        else if e = 'r' then parseString fuel rest ('\r' :: acc)
        else if e = 't' then parseString fuel rest ('\t' :: acc)
        else none
      | [] => none
    else if c.toNat < 0x20 then none
    else parseString fuel cs (c :: acc)

/-- Split off the longest prefix of decimal digits. -/
def spanDigits : List Char → List Char × List Char
  | [] => ([], [])
  | c :: cs =>
    if c.isDigit then ((spanDigits cs).1 |> (c :: ·), (spanDigits cs).2) else ([], c :: cs)

/-- Scan a JSON number literal: `-? (0 | [1-9][0-9]*) (. [0-9]+)? ([eE] [+-]? [0-9]+)?`.
Returns the literal and the text after it. -/
def parseNumber (cs : List Char) : Option (List Char × List Char) :=
  let (sign, cs1) := match cs with
    | '-' :: r => (['-'], r)
    | r => ([], r)
  let intPart : Option (List Char × List Char) := match cs1 with
    | '0' :: r => some (['0'], r)
    | c :: r => if c.isDigit then some (c :: (spanDigits r).1, (spanDigits r).2) else none
    | [] => none
  match intPart with
  | none => none
  | some (ip, cs2) =>
    let frac : Option (List Char × List Char) := match cs2 with
      | '.' :: r =>
        match spanDigits r with
        | ([], _) => none
        | (ds, r2) => some ('.' :: ds, r2)
      | r => some ([], r)
    match frac with
    | none => none
    | some (fp, cs3) =>
      let expo : Option (List Char × List Char) := match cs3 with
        | e :: r =>
          if e = 'e' ∨ e = 'E' then
            let (sg, r1) := match r with
              | '+' :: r1 => (['+'], r1)
              | '-' :: r1 => (['-'], r1)
              | r1 => ([], r1)
            match spanDigits r1 with
            | ([], _) => none
            | (ds, r2) => some (e :: sg ++ ds, r2)
          else some ([], e :: r)
        | [] => some ([], [])
      match expo with
      | none => none
      | some (ep, cs4) => some (sign ++ ip ++ fp ++ ep, cs4)

/-- The constant `maxNestingDepth` of the scanner of `encoding/json`: a document
with more arrays and objects open at one point is a syntax error. -/
def maxNestingDepth : Nat := 10000

mutual
/-- Parse one JSON value, skipping the white space before it; `depth` is the
number of arrays and objects that are open around it. -/
def parseValue : Nat → Nat → List Char → Option (JValue × List Char)
  | 0, _, _ => none
  | fuel + 1, depth, cs =>
    match skipWS cs with
    | '{' :: rest =>
      if depth + 1 > maxNestingDepth then none
      else
        match skipWS rest with
        | '}' :: rest1 => some (.obj [], rest1)
        | rest1 => parseMembers fuel (depth + 1) rest1 []
    | '[' :: rest =>
      if depth + 1 > maxNestingDepth then none
      else
        match skipWS rest with
        | ']' :: rest1 => some (.arr [], rest1)
        | rest1 => parseElems fuel (depth + 1) rest1 []
    | '"' :: rest =>
      match parseString (rest.length + 1) rest [] with
      | some (s, rest1) => some (.str s, rest1)
      | none => none
    | 't' :: 'r' :: 'u' :: 'e' :: rest => some (.bool true, rest)
    | 'f' :: 'a' :: 'l' :: 's' :: 'e' :: rest => some (.bool false, rest)
    | 'n' :: 'u' :: 'l' :: 'l' :: rest => some (.null, rest)
    | cs1 =>
      match parseNumber cs1 with
      | some (lit, rest) => some (.num lit, rest)
      | none => none
/-- Parse the elements of a non-empty array up to and including `]`; `depth`
counts the array itself. -/
def parseElems : Nat → Nat → List Char → List JValue → Option (JValue × List Char)
  | 0, _, _, _ => none
  | fuel + 1, depth, cs, acc =>
    match parseValue fuel depth cs with
    | none => none
    | some (v, rest) =>
      match skipWS rest with
      | ',' :: rest1 => parseElems fuel depth rest1 (v :: acc)
      | ']' :: rest1 => some (.arr (v :: acc).reverse, rest1)
      | _ => none
/-- Parse the members of a non-empty object up to and including `}`; `depth`
counts the object itself. -/
def parseMembers : Nat → Nat → List Char → List (String × JValue) → Option (JValue × List Char)
  | 0, _, _, _ => none
  | fuel + 1, depth, cs, acc =>
    match skipWS cs with
    | '"' :: rest =>
      match parseString (rest.length + 1) rest [] with
      | none => none
      | some (key, rest1) =>
        match skipWS rest1 with
        | ':' :: rest2 =>
          match parseValue fuel depth rest2 with
          | none => none
          | some (v, rest3) =>
            match skipWS rest3 with
            | ',' :: rest4 => parseMembers fuel depth rest4 ((key, v) :: acc)
            | '}' :: rest4 => some (.obj ((key, v) :: acc).reverse, rest4)
            | _ => none
        | _ => none
    | _ => none
end

/-- Parse a complete JSON text: one value surrounded by optional white space.
`none` stands for the syntax error `json.Unmarshal` reports before it stores
anything, nesting deeper than `maxNestingDepth` included. Every nested call
consumes input, so the fuel never runs out. -/
def parseJSON (body : String) : Option JValue :=
  match parseValue (body.data.length + 1) 0 body.data with
  | some (v, rest) => if skipWS rest = [] then some v else none
  | none => none


/-- Read a JSON number literal as a signed 64-bit integer, as
`strconv.ParseInt(lit, 10, 64)` does: digits only, value in range. -/
def parseInt64 (lit : List Char) : Option Int :=
  let (neg, ds) := match lit with
    | '-' :: r => (true, r)
    | r => (false, r)
  if ds ≠ [] ∧ ds.all Char.isDigit then
    let n : Nat := ds.foldl (fun a c => a * 10 + (c.toNat - 48)) 0
    let v : Int := if neg then -(n : Int) else (n : Int)
    if -(2 : Int) ^ 63 ≤ v ∧ v < (2 : Int) ^ 63 then some v else none
  else none

/-- Read a JSON number literal as a byte, as `strconv.ParseUint(lit, 10, 64)`
followed by the overflow check for `uint8` does. -/
def parseUint8 (lit : List Char) : Option Nat :=
  if lit ≠ [] ∧ lit.all Char.isDigit then
    let n : Nat := lit.foldl (fun a c => a * 10 + (c.toNat - 48)) 0
    if n < 256 then some n else none
  else none

/-- The value of a character of the standard base64 alphabet. -/
def b64Val (c : Char) : Option Nat :=
  let n := c.toNat
  if 65 ≤ n ∧ n ≤ 90 then some (n - 65)
  else if 97 ≤ n ∧ n ≤ 122 then some (n - 71)
  else if 48 ≤ n ∧ n ≤ 57 then some (n + 4)
  else if c = '+' then some 62
  else if c = '/' then some 63
  else none

/-- Decode padded base64 text from which line breaks have been removed. -/
def base64Quanta : List Char → Option (List Nat)
  | [] => some []
  | a :: b :: c :: d :: rest =>
    match b64Val a, b64Val b with
    | some x, some y =>
      if c = '=' then
        if d = '=' ∧ rest = [] then some [(x * 64 + y) / 16] else none
      else
        match b64Val c with
        | none => none
        | some z =>
          if d = '=' then
            if rest = [] then some [(x * 4096 + y * 64 + z) / 1024, (x * 4096 + y * 64 + z) / 4 % 256]
            else none
          else
            match b64Val d, base64Quanta rest with
            | some w, some tail =>
              let n := x * 262144 + y * 4096 + z * 64 + w
              some (n / 65536 :: n / 256 % 256 :: n % 256 :: tail)
            | _, _ => none
    | _, _ => none
  | _ => none

/-- The decoder `base64.StdEncoding.DecodeString`: carriage returns and line
feeds are ignored, padding is mandatory; `none` is a corrupt input. -/
def base64Decode (s : String) : Option (List Nat) :=
  base64Quanta (s.data.filter fun c => c ≠ '\r' ∧ c ≠ '\n')

/-- Case folding of a key character as the decoder applies it when it matches a
key against an ASCII field name: ASCII letters fold to upper case, and the two
non-ASCII letters whose fold orbit contains an ASCII letter fold to it. -/
def foldChar (c : Char) : Char :=
  let n := c.toNat
  if 97 ≤ n ∧ n ≤ 122 then Char.ofNat (n - 32)
  else if n = 0x17F then 'S'
  else if n = 0x212A then 'K'
  else c

/-- The fields of `APIError` as the decoder sees them. -/
inductive APIErrorField where
  | HTTPStatus | Code | Message | Description | RequestID | RawBody
deriving DecidableEq, Repr

/-- The JSON name of each field: the `json` tag where the struct declares one,
the Go field name otherwise (an exported field without a tag is decoded under
its own name). -/
def APIErrorField.jsonName : APIErrorField → String
  | .HTTPStatus => "HTTPStatus"
  | .Code => "error"
  | .Message => "message"
  | .Description => "description"
  | .RequestID => "RequestID"
  | .RawBody => "RawBody"

/-- The fields in declaration order. -/
def apiErrorFields : List APIErrorField :=
  [.HTTPStatus, .Code, .Message, .Description, .RequestID, .RawBody]

/-- The field an object key selects: an exact match of the JSON name first,
otherwise the first field whose name matches under case folding. -/
def fieldForKey (key : String) : Option APIErrorField :=
  match apiErrorFields.find? (fun f => f.jsonName = key) with
  | some f => some f
  | none => apiErrorFields.find? (fun f => f.jsonName.data.map foldChar = key.data.map foldChar)

/-- Write the elements of a JSON array into the array under a byte slice, slot by
slot from its start: an element that is a number in `0..255` replaces the byte
of its slot, any other element leaves the slot as it is, and a slot past the
end of the array is a new zero byte. Returns the array. -/
def writeByteElems : List JValue → List Nat → List Nat
  | [], arr => arr
  | v :: vs, arr =>
    let slot := arr.headD 0
    let b := match v with
      | .num lit => (parseUint8 lit).getD slot
      | _ => slot
    b :: writeByteElems vs arr.tail

/-- The state of `json.Unmarshal(body, apiErr)` while it stores the members of
the body. The field `RawBody` starts as the slice `body` itself, so the decoder
writes the elements of a JSON array for `RawBody` into the array under `body`,
behind the point up to which it has read the text. -/
structure unmarshalState where
  apiErr : APIError
  /-- The bytes of `body` once the decoder has written into its array; `none` as
  long as it has not. -/
  written : Option (List Nat)
  /-- The array under `RawBody` once it is no longer the array under `body`
  (after a `null`, a base64 string or an empty array); `none` while `RawBody`
  shares the array of `body`. Bytes past its end are zero. -/
  own : Option (List Nat)

/-- Store one object member into the struct. A value of the wrong JSON kind is
a type error that the decoder records while it leaves the field as it is;
`null` leaves scalars untouched and resets a slice to nil. For `RawBody`, a
base64 string is decoded into a new array, and the elements of an array are
written into the array the slice has, which is the array of `body` (its
bytes are `body0` at the start) unless the slice was replaced before. -/
def storeField (body0 : List Nat) (s : unmarshalState) (kv : String × JValue) :
    unmarshalState :=
  match fieldForKey kv.1 with
  | none => s
  | some .HTTPStatus =>
    match kv.2 with
    | .num lit =>
      match parseInt64 lit with
      | some n => { s with apiErr := { s.apiErr with HTTPStatus := n } }
      | none => s
    | _ => s
  | some .Code =>
    match kv.2 with
    | .str v => { s with apiErr := { s.apiErr with Code := v } }
    | _ => s
  | some .Message =>
    match kv.2 with
    | .str v => { s with apiErr := { s.apiErr with Message := v } }
    | _ => s
  | some .Description =>
    match kv.2 with
    | .str v => { s with apiErr := { s.apiErr with Description := v } }
    | _ => s
  | some .RequestID =>
    match kv.2 with
    | .str v => { s with apiErr := { s.apiErr with RequestID := v } }
    | _ => s
  | some .RawBody =>
    match kv.2 with
    | .null => { s with apiErr := { s.apiErr with RawBody := [] }, own := some [] }
    | .str v =>
      match base64Decode v with
      | some bs => { s with apiErr := { s.apiErr with RawBody := bs }, own := some bs }
      | none => s
    | .arr [] => { s with apiErr := { s.apiErr with RawBody := [] }, own := some [] }
    | .arr (v :: vs) =>
      match s.own with
      | some arr =>
        { s with
          apiErr := { s.apiErr with
            RawBody := (writeByteElems (v :: vs) arr).take (v :: vs).length }
          own := some (writeByteElems (v :: vs) arr) }
      | none =>
        { s with
          apiErr := { s.apiErr with
            RawBody := (writeByteElems (v :: vs) (s.written.getD body0)).take (v :: vs).length }
          written := some (writeByteElems (v :: vs) (s.written.getD body0)) }
    | _ => s

/-- The effect of `json.Unmarshal(body, apiErr)` on the struct `apiErr` points
to, whose `RawBody` is the slice `body`, and on the array under `body`. A body
that is not valid JSON, or whose top-level value is not an object, stores
nothing; the members of an object are stored in order. The error that
`Unmarshal` returns is discarded at the only call site and is not modelled. -/
def unmarshalBody (body : String) (e : APIError) : unmarshalState :=
  match parseJSON body with
  | some (.obj members) =>
    members.foldl (storeField (body.data.flatMap utf8Bytes)) ⟨e, none, none⟩
  | _ => ⟨e, none, none⟩

/-- The struct after `json.Unmarshal(body, apiErr)`. -/
def unmarshalAPIError (body : String) (e : APIError) : APIError :=
  (unmarshalBody body e).apiErr

/-- The conversion `string(body)` after `json.Unmarshal(body, apiErr)`: the text
of the body as it was received, unless the decoder has written into its array.
Strings are well-formed UTF-8 in this embedding, so bytes written that are not
are read back as U+FFFD. -/
def bodyTextAfter (body : String) (s : unmarshalState) : String :=
  match s.written with
  | none => body
  | some bytes => String.mk (utf8Decode bytes)

/-! ## Responses and error construction (`transport.go`) -/

/-- Whether a byte may appear in a header field name (an RFC 7230 token
character), the test `validHeaderFieldByte`. -/
def validHeaderFieldByte (c : Char) : Bool :=
  c.isAlphanum || "!#$%&'*+-.^_`|~".data.contains c

/-- Canonicalise the letters of a header name: upper case at the start and
after each hyphen, lower case elsewhere. -/
def canonicalLetters : Bool → List Char → List Char
  | _, [] => []
  | upper, c :: cs =>
    let c1 := if upper then (if c.isLower then Char.ofNat (c.toNat - 32) else c)
              else (if c.isUpper then Char.ofNat (c.toNat + 32) else c)
    c1 :: canonicalLetters (c = '-') cs

/-- The function `textproto.CanonicalMIMEHeaderKey`: a name with a character
that is not a token character is returned unchanged. -/
def canonicalMIMEHeaderKey (s : String) : String :=
  if s.data.all validHeaderFieldByte then String.mk (canonicalLetters true s.data) else s

/-- A received `*http.Response`, with what reading and closing its body
yields. `Header` maps a canonical header name to its values. -/
structure Response where
  StatusCode : Int
  Header : List (String × List String)
  /-- The bytes `io.ReadAll` returns when reading succeeds. -/
  Body : String
  /-- The error of reading the body to its end, if any. -/
  readErr : Option GoError
  /-- The error of `Body.Close`, if any. -/
  closeErr : Option GoError
deriving DecidableEq, Repr

/-- The method `http.Header.Get`: the first value stored under the canonical
form of the key, or the empty string. -/
def Header.Get (h : List (String × List String)) (key : String) : String :=
  match h.lookup (canonicalMIMEHeaderKey key) with
  | some (v :: _) => v
  | _ => ""

/-- The function `firstNonEmpty`: the first argument that is not blank. -/
def firstNonEmpty : List String → String
  | [] => ""
  | v :: vals => if TrimSpace v ≠ "" then v else firstNonEmpty vals

/-- The bytes of a body text. -/
def bodyBytes (body : String) : List Nat := body.data.flatMap utf8Bytes

/-- The struct literal `apiErrorFromResponse` starts from, before it decodes
the body. -/
def apiErrorLiteral (resp : Response) (body : String) : APIError :=
  { HTTPStatus := resp.StatusCode
    Code := ""
    Message := ""
    Description := ""
    RequestID := firstNonEmpty [Header.Get resp.Header "X-Request-Id", Header.Get resp.Header "X-YaRequestId"]
    RawBody := bodyBytes body }

/-- The method `apiErrorFromResponse`. The slice `body` is stored in `RawBody`
and then decoded into the same struct, so `string(body)` is read after the
decoder may have written into the array under it. -/
def apiErrorFromResponse (resp : Response) (body : String) : APIError :=
  let apiErr := apiErrorLiteral resp body
  let s := unmarshalBody body apiErr
  let apiErr := s.apiErr
  if apiErr.Code = "" ∧ apiErr.Message = "" then
    { apiErr with Message := TrimSpace (bodyTextAfter body s) }
  else apiErr

/-- The membership loop of `decodeResponse` over the expected status codes. -/
def statusExpected (status : Int) : List Int → Bool
  | [] => false
  | code :: rest => if status = code then true else statusExpected status rest

/-- The method `decodeResponse`. The sink `out` is `none` for a nil sink and
otherwise gives the outcome of `json.Unmarshal(body, out)`: `none` on success
or the message of the JSON error. Returns the error, `none` for nil. -/
def decodeResponse (resp : Response) (out : Option (String → Option String))
    (expected : List Int) : Option GoError :=
  match resp.readErr with
  | some err =>
    match resp.closeErr with
    | some closeErr => some (.join err closeErr)
    | none => some err
  | none =>
    match resp.closeErr with
    | some closeErr => some closeErr
    | none =>
      let body := resp.Body
      if (expected.length > 0 ∧ statusExpected resp.StatusCode expected = false) ∨
          (expected.length = 0 ∧ resp.StatusCode ≥ 400) then
        some (.api (apiErrorFromResponse resp body))
      else
        match out with
        | none => none
        | some unmarshal =>
          if body.length = 0 then none
          else
            match unmarshal body with
            | some msg => some (.other msg)
            | none => none


/-! ## Configuration (`options.go`, `hooks.go`, `client.go`) -/

/-- A value of the Go type `float64`, as far as the package looks at it: the
package stores such values and compares them with zero. `nan` is a NaN,
`inf b` an infinity (the negative one when `b`), `num q` a finite value; the
finite values of the type are rational numbers. -/
inductive Float64 where
  | nan
  | inf (negative : Bool)
  | num (q : ℚ)
deriving DecidableEq

/-- The comparison `a < b` of two `float64` values: false when either is a NaN. -/
def Float64.lt : Float64 → Float64 → Bool
  | .num a, .num b => a < b
  | .inf true, .num _ => true
  | .inf true, .inf false => true
  | .num _, .inf false => true
  | _, _ => false

/-- The comparison `a <= b` of two `float64` values: false when either is a NaN. -/
def Float64.le : Float64 → Float64 → Bool
  | .num a, .num b => a ≤ b
  | .inf true, .num _ => true
  | .inf true, .inf _ => true
  | .num _, .inf false => true
  | .inf false, .inf false => true
  | _, _ => false

instance : LT Float64 := ⟨fun a b => Float64.lt a b = true⟩

instance : LE Float64 := ⟨fun a b => Float64.le a b = true⟩

instance (a b : Float64) : Decidable (a < b) := inferInstanceAs (Decidable (Float64.lt a b = true))

instance (a b : Float64) : Decidable (a ≤ b) := inferInstanceAs (Decidable (Float64.le a b = true))

instance (n : Nat) : OfNat Float64 n := ⟨.num n⟩

/-- The struct `RetryPolicy`. -/
structure RetryPolicy where
  MaxRetries : Int
  BaseDelay : Int
  MaxDelay : Int
  Jitter : Float64
deriving DecidableEq

/-- The function `DefaultRetryPolicy`, durations in nanoseconds. -/
def DefaultRetryPolicy : RetryPolicy :=
  { MaxRetries := 3, BaseDelay := 100 * 1000000, MaxDelay := 2 * 1000000000, Jitter := .num (1 / 4) }

/-- The check of the option `WithRetryPolicy`: the error message, or `none`
when the policy is accepted. -/
def WithRetryPolicy (policy : RetryPolicy) : Option String :=
  if policy.BaseDelay ≤ 0 ∨ policy.MaxDelay ≤ 0 then some "retry delays must be positive"
  else if policy.MaxRetries < 0 then some "max retries must be non-negative"
  else if policy.Jitter < 0 then some "retry jitter must be >= 0"
  else none

/-- The struct `Hooks`: for each callback, whether it is set (non-nil). The
calls themselves are recorded as `Event`s. -/
structure Hooks where
  OnRequest : Bool
  OnResponse : Bool
  OnRetry : Bool
  OnOperationEvent : Bool
deriving DecidableEq, Repr

/-- The part of the struct `Client` that the transport reads. -/
structure Client where
  retry : RetryPolicy
  hooks : Hooks
deriving DecidableEq

/-- The method `Client.jitter`. The branch taken when the factor is not
`<= 0` (a positive factor, or a NaN) draws from the random source and computes
in `float64`; it is not modelled but passed in as `fl`, which maps the duration
to the result of that branch. -/
def Client.jitter (fl : Int → Int) (duration : Int) (jitter : Float64) : Int :=
  if jitter ≤ 0 then duration else fl duration

/-- The loop of `Client.backoff` with `k` iterations left, followed by the code
after the loop. -/
def Client.backoffLoop (c : Client) (fl : Int → Int) : Nat → Int → Int
  | 0, backoff =>
    let backoff := if backoff > c.retry.MaxDelay then c.retry.MaxDelay else backoff
    Client.jitter fl backoff c.retry.Jitter
  | k + 1, backoff =>
    let backoff := wrap64 (backoff * 2)
    if backoff ≥ c.retry.MaxDelay then Client.jitter fl c.retry.MaxDelay c.retry.Jitter
    else c.backoffLoop fl k backoff

/-- The method `Client.backoff`: the loop `for i := 1; i < attempt; i++` runs
`attempt - 1` times when `attempt` is at least one and not at all otherwise. -/
def Client.backoff (c : Client) (fl : Int → Int) (attempt : Int) : Int :=
  c.backoffLoop fl (attempt - 1).toNat c.retry.BaseDelay

/-! ## The retry engine (`transport.go`) -/

/-- The function `isIdempotentMethod`. -/
def isIdempotentMethod (method : String) : Bool :=
  method = "GET" ∨ method = "HEAD" ∨ method = "PUT" ∨ method = "DELETE" ∨ method = "OPTIONS"

/-- The function `retryableStatus`. -/
def retryableStatus (code : Int) : Bool :=
  code = 429 ∨ code ≥ 500

/-- The struct `RetryEvent`. -/
structure RetryEvent where
  Attempt : Int
  Method : String
  URL : String
  StatusCode : Int
  Err : Option GoError
  NextBackoff : Int
deriving DecidableEq, Repr

/-- What one call of `doJSON` does to the outside, in order. -/
inductive Event where
  /-- The hook `OnRequest` is called with a request for this URL. -/
  | onRequest (url : String)
  /-- The call `httpClient.Do` of the given attempt. -/
  | httpDo (attempt : Int)
  /-- The hook `OnResponse` is called with a response of this status. -/
  | onResponse (status : Int)
  /-- The hook `OnRetry` is called. -/
  | onRetry (ev : RetryEvent)
  /-- The call `sleepWithContext(ctx, d)`. -/
  | sleep (d : Int)
deriving DecidableEq, Repr

/-- The two shapes of what `httpClient.Do` returns: a non-nil error (with a
response or without), or a response and a nil error. -/
inductive DoResult where
  | fail (err : GoError) (resp : Option Response)
  | ok (resp : Response)
deriving DecidableEq, Repr

/-- The environment of one call of `doJSON`. -/
structure World where
  /-- The outcome of `c.newRequest`: the URL of the request, or the error of
  building it. -/
  newRequest : GoError ⊕ String
  /-- The outcome of `httpClient.Do` on the request of each attempt. -/
  httpDo : Int → DoResult
  /-- The outcome of the sleep after each attempt: the context error when the
  context is done before the timer fires, `none` otherwise. -/
  sleep : Int → Option GoError
  /-- The floating-point branch of `Client.jitter` at the draw made for each
  attempt. -/
  fl : Int → Int → Int

/-- What `doJSON` returns, with the trace of its effects. -/
structure DoJSONResult where
  resp : Option Response
  err : Option GoError
  trace : List Event
deriving DecidableEq, Repr

/-- The loop of `doJSON` from the test of its condition at `attempt` on,
followed by the code after the loop. `fuel` bounds the number of condition
tests; `none` means the bound was reached. -/
def doJSONLoop (c : Client) (w : World) (method : String) (out : Option (String → Option String))
    (expected : List Int) (attempts : Int) :
    Nat → Int → Option GoError → List Event → Option DoJSONResult
  | 0, _, _, _ => none
  | fuel + 1, attempt, lastErr, tr =>
    if attempt ≤ attempts then
      match w.newRequest with
      | .inl err => some ⟨none, some err, tr⟩
      | .inr url =>
        let tr := if c.hooks.OnRequest then tr ++ [.onRequest url] else tr
        let tr := tr ++ [.httpDo attempt]
        match w.httpDo attempt with
        | .fail err resp =>
          let tr := match resp with
            | some r => if c.hooks.OnResponse then tr ++ [.onResponse r.StatusCode] else tr
            | none => tr
          if attempt < attempts ∧ isIdempotentMethod method then
            let backoff := c.backoff (w.fl attempt) attempt
            let tr := if c.hooks.OnRetry then
                tr ++ [.onRetry ⟨attempt, method, url, 0, some err, backoff⟩]
              else tr
            let tr := tr ++ [.sleep backoff]
            match w.sleep attempt with
            | some ctxErr => some ⟨none, some ctxErr, tr⟩
            | none => doJSONLoop c w method out expected attempts fuel (wrap64 (attempt + 1)) (some err) tr
          else some ⟨none, some err, tr⟩
        | .ok resp =>
          let tr := if c.hooks.OnResponse then tr ++ [.onResponse resp.StatusCode] else tr
          if retryableStatus resp.StatusCode ∧ attempt < attempts ∧ isIdempotentMethod method then
            match resp.readErr with
            | some err =>
              match resp.closeErr with
              | some closeErr => some ⟨none, some (.join err closeErr), tr⟩
              | none => some ⟨none, some err, tr⟩
            | none =>
              match resp.closeErr with
              | some err => some ⟨none, some err, tr⟩
              | none =>
                let backoff := c.backoff (w.fl attempt) attempt
                let tr := if c.hooks.OnRetry then
                    tr ++ [.onRetry ⟨attempt, method, url, resp.StatusCode, none, backoff⟩]
                  else tr
                let tr := tr ++ [.sleep backoff]
                match w.sleep attempt with
                | some ctxErr => some ⟨none, some ctxErr, tr⟩
                | none => doJSONLoop c w method out expected attempts fuel (wrap64 (attempt + 1)) lastErr tr
          else
            match decodeResponse resp out expected with
            | some err => some ⟨some resp, some err, tr⟩
            | none => some ⟨some resp, none, tr⟩
    else
      match lastErr with
      | some err => some ⟨none, some err, tr⟩
      | none => some ⟨none, some (.other ("request failed after " ++ itoa attempts ++ " attempts")), tr⟩

/-- The method `doJSON`. The payload is `none` when it is nil and otherwise the
outcome of `json.Marshal` on it: the error, or the encoded bytes. The loop is
given one condition test more than `attempts`, which it never uses up. -/
def doJSON (c : Client) (w : World) (method : String) (payload : Option (GoError ⊕ String))
    (out : Option (String → Option String)) (expected : List Int) : Option DoJSONResult :=
  match payload with
  | some (.inl err) => some ⟨none, some err, []⟩
  | _ =>
    let attempts := wrap64 (c.retry.MaxRetries + 1)
    let attempts := if attempts < 1 then 1 else attempts
    doJSONLoop c w method out expected attempts (attempts.toNat + 1) 1 none []

/-- The number of calls of `httpClient.Do` in a trace. -/
def attemptCount : List Event → Nat
  | [] => 0
  | .httpDo _ :: tr => attemptCount tr + 1
  | _ :: tr => attemptCount tr

/-- The number of calls of the hook `OnRetry` in a trace. -/
def retryCount : List Event → Nat
  | [] => 0
  | .onRetry _ :: tr => retryCount tr + 1
  | _ :: tr => retryCount tr

/-- The number of calls of `sleepWithContext` in a trace. -/
def sleepCount : List Event → Nat
  | [] => 0
  | .sleep _ :: tr => sleepCount tr + 1
  | _ :: tr => sleepCount tr


/-! ## Query construction (`query.go`, `service_resources.go`) -/

/-- The type `url.Values`, a map from keys to value lists, as an association
list in which the first entry of a key is the one the map holds. -/
abbrev Values := List (String × List String)

/-- The method `url.Values.Set`: the key is bound to the single value. -/
def Values.Set (v : Values) (key value : String) : Values :=
  (key, [value]) :: v.filter (fun kv => kv.1 ≠ key)

/-- The value list a map holds for a key (`v[key]`), nil when absent. -/
def Values.lookupAll (v : Values) (key : String) : List String :=
  (v.lookup key).getD []

/-- The keys of the map, each once. -/
def Values.keys (v : Values) : List String :=
  (v.map Prod.fst).dedup

/-- Insert a key into a list sorted by `strLt`. -/
def insertKey (k : String) : List String → List String
  | [] => [k]
  | x :: xs => if strLt x.data k.data then x :: insertKey k xs else k :: x :: xs

/-- The call `slices.Sort(keys)`. -/
def sortKeys (keys : List String) : List String :=
  keys.foldr insertKey []

/-- An upper-case hexadecimal digit. -/
def upperHex (n : Nat) : Char :=
  if n < 10 then Char.ofNat (48 + n) else Char.ofNat (55 + n)

/-- Whether `url.QueryEscape` escapes a byte: everything but the unreserved
characters of RFC 3986 (letters, digits, `-`, `_`, `.`, `~`). -/
def shouldEscape (b : Nat) : Bool :=
  !((97 ≤ b && b ≤ 122) || (65 ≤ b && b ≤ 90) || (48 ≤ b && b ≤ 57) ||
    b == 45 || b == 95 || b == 46 || b == 126)

/-- The escaped form of one byte: `+` for a space, `%XX` for any other escaped
byte, the byte itself otherwise. -/
def escapeByte (b : Nat) : List Char :=
  if b = 32 then ['+']
  else if shouldEscape b then ['%', upperHex (b / 16), upperHex (b % 16)]
  else [Char.ofNat b]

/-- The function `url.QueryEscape`. -/
def QueryEscape (s : String) : String :=
  String.mk ((s.data.flatMap utf8Bytes).flatMap escapeByte)

/-- Join strings with a separator (`strings.Join`). -/
def joinWith (sep : String) : List String → String
  | [] => ""
  | [x] => x
  | x :: y :: rest => x ++ sep ++ joinWith sep (y :: rest)

/-- The `key=value` pairs `Encode` writes, in order. -/
def Values.pairs (v : Values) : List String :=
  (sortKeys v.keys).flatMap fun k =>
    (v.lookupAll k).map fun x => QueryEscape k ++ "=" ++ QueryEscape x

/-- The method `url.Values.Encode`: the pairs of all keys in sorted key order,
joined by `&`. -/
def Values.Encode (v : Values) : String :=
  joinWith "&" v.pairs

/-- The function `addString`. -/
def addString (values : Values) (key value : String) : Values :=
  if value ≠ "" then values.Set key value else values

/-- The function `addCSV`; the empty list stands for a nil and for a
zero-length slice. -/
def addCSV (values : Values) (key : String) (items : List String) : Values :=
  if items.length > 0 then values.Set key (joinWith "," items) else values

/-- The function `addInt`; `none` is the nil pointer. -/
def addInt (values : Values) (key : String) (v : Option Int) : Values :=
  match v with
  | some n => values.Set key (itoa n)
  | none => values

/-- The function `addInt64`. -/
def addInt64 (values : Values) (key : String) (v : Int) : Values :=
  if v ≠ 0 then values.Set key (itoa v) else values

/-- The function `addBool`; `none` is the nil pointer. -/
def addBool (values : Values) (key : String) (v : Option Bool) : Values :=
  match v with
  | some b => values.Set key (formatBool b)
  | none => values

/-- The struct `ResourceGetRequest`. -/
structure ResourceGetRequest where
  Path : String := ""
  Fields : List String := []
  Limit : Option Int := none
  Offset : Option Int := none
  PreviewCrop : Option Bool := none
  PreviewSize : String := ""
  /-- The field `Sort` (renamed: the word is reserved). -/
  Sort_ : String := ""
deriving DecidableEq, Repr

/-- The function `resourceQuery`. -/
def resourceQuery (req : ResourceGetRequest) : Values :=
  let q : Values := []
  let q := addString q "path" req.Path
  let q := addCSV q "fields" req.Fields
  let q := addInt q "limit" req.Limit
  let q := addInt q "offset" req.Offset
  let q := addBool q "preview_crop" req.PreviewCrop
  let q := addString q "preview_size" req.PreviewSize
  let q := addString q "sort" req.Sort_
  q



/-! ## Vocabulary of the statements about the retry loop -/

/-- The attempt `i` is answered by a response with a retryable status whose
body is drained and closed without error. -/
def cleanRetry (w : World) (i : Int) : Prop :=
  ∃ r, w.httpDo i = .ok r ∧ retryableStatus r.StatusCode = true ∧
    r.readErr = none ∧ r.closeErr = none

/-- The trace after an iteration of the loop of `doJSON` that receives a
response of the given status and goes on to retry. -/
def traceAfterRetry (c : Client) (url method : String) (attempt status backoff : Int)
    (tr : List Event) : List Event :=
  let tr := if c.hooks.OnRequest then tr ++ [.onRequest url] else tr
  let tr := tr ++ [.httpDo attempt]
  let tr := if c.hooks.OnResponse then tr ++ [.onResponse status] else tr
  let tr := if c.hooks.OnRetry then
      tr ++ [.onRetry ⟨attempt, method, url, status, none, backoff⟩]
    else tr
  tr ++ [.sleep backoff]

/-- The trace after an iteration of the loop of `doJSON` that receives a
response of the given status and decodes it. -/
def traceAfterResponse (c : Client) (url : String) (attempt status : Int)
    (tr : List Event) : List Event :=
  let tr := if c.hooks.OnRequest then tr ++ [.onRequest url] else tr
  let tr := tr ++ [.httpDo attempt]
  if c.hooks.OnResponse then tr ++ [.onResponse status] else tr

/-- The trace after an iteration of the loop of `doJSON` whose round trip fails
and is not retried. -/
def traceAfterFailure (c : Client) (url : String) (attempt : Int) (resp : Option Response)
    (tr : List Event) : List Event :=
  let tr := if c.hooks.OnRequest then tr ++ [.onRequest url] else tr
  let tr := tr ++ [.httpDo attempt]
  match resp with
  | some r => if c.hooks.OnResponse then tr ++ [.onResponse r.StatusCode] else tr
  | none => tr

/-- The scenario of the repository's test `TestRetryOnGet`: the server answers
the first two requests with `500` and every later one with `200` and the body
`{}`; no sleep is interrupted. -/
def retryOnGetWorld : World :=
  { newRequest := .inr "https://cloud-api.yandex.net/v1/disk"
    httpDo := fun n =>
      if n < 3 then .ok ⟨500, [], "\x7b\"error\":\"InternalError\"\x7d", none, none⟩
      else .ok ⟨200, [], "\x7b\x7d", none, none⟩
    sleep := fun _ => none
    fl := fun _ d => d }

/-- The client of `TestRetryOnGet`: four retries, base 1 ms, cap 5 ms, no
jitter, no hooks. -/
def retryOnGetClient : Client :=
  { retry := { MaxRetries := 4, BaseDelay := 1000000, MaxDelay := 5000000, Jitter := 0 }
    hooks := ⟨false, false, false, false⟩ }

/-- The scenario of the repository's test `TestNoRetryOnPost`: the server
answers every request with `500`. -/
def noRetryOnPostWorld : World :=
  { newRequest := .inr "https://cloud-api.yandex.net/v1/disk/resources/copy"
    httpDo := fun _ => .ok ⟨500, [], "\x7b\"error\":\"InternalError\"\x7d", none, none⟩
    sleep := fun _ => none
    fl := fun _ d => d }

/-- A server that answers every request with status `500` and the JSON body
`{"HTTPStatus":200}`. -/
def statusInBodyWorld : World :=
  { newRequest := .inr "https://cloud-api.yandex.net/v1/disk"
    httpDo := fun _ => .ok ⟨500, [], "\x7b\"HTTPStatus\":200\x7d", none, none⟩
    sleep := fun _ => none
    fl := fun _ d => d }

/-! ## Links, operations and action results (`types.go`) -/

/-- The struct `Link`. -/
structure Link where
  Href : String := ""
  Method : String := ""
  Templated : Bool := false
deriving DecidableEq, Repr

/-- The struct `ResourceUploadLink`, which embeds `Link`. -/
structure ResourceUploadLink extends Link where
  OperationID : String := ""
deriving DecidableEq, Repr

/-- The struct `OperationRef`. -/
structure OperationRef where
  ID : String := ""
  Href : String := ""
deriving DecidableEq, Repr

/-- The struct `ActionResult`; `none` is a nil pointer, and `{}` is its zero
value. -/
structure ActionResult where
  StatusCode : Int := 0
  Operation : Option OperationRef := none
  Link : Option Link := none
deriving DecidableEq, Repr

/-- The struct `OperationStatus`. -/
structure OperationStatus where
  Status : String
deriving DecidableEq, Repr

/-- The method `OperationStatus.IsTerminal`. -/
def OperationStatus.IsTerminal (s : OperationStatus) : Bool :=
  if s.Status = "success" ∨ s.Status = "failed" ∨ s.Status = "error" ∨ s.Status = "cancelled" then
    true
  else false

/-! ## A model of `net/url` and `path`

The standard library is not part of the repository; what `operationRefFromLink`
uses of it is modelled here: `url.Parse` as far as it decides between success
and failure and fills `Path` and `RawQuery`, `URL.Query().Get`, `path.Base`,
`strings.TrimSuffix` and `strings.TrimPrefix`. Percent-decoded bytes are read
back as UTF-8 text, an ill-formed sequence as U+FFFD. -/

/-- The modes of `url`'s escaping that parsing uses. -/
inductive EscapeMode where
  | path | host | zone | userPassword | queryComponent | fragment
deriving DecidableEq, Repr

/-- Whether a character is one that a host may contain unescaped, the cases
for which `shouldEscape` in host mode answers `false`. -/
def hostCharAllowed (c : Char) : Bool :=
  c.isAlphanum || "!$&'()*+,;=:[]<>\"-_.~".data.contains c

/-- Split a text at the first occurrence of a separator (`strings.Cut`); the
second component is `none` when the separator does not occur. -/
def cutAt (sep : Char) : List Char → List Char × Option (List Char)
  | [] => ([], none)
  | c :: cs =>
    if c = sep then ([], some cs)
    else ((cutAt sep cs).1 |> (c :: ·), (cutAt sep cs).2)

/-- Percent-decoding into bytes (`unescape`): `none` is an escape error or, in
host mode, an invalid host character. A `+` becomes a space in query mode. -/
def unescapeBytes (mode : EscapeMode) : List Char → Option (List Nat)
  | [] => some []
  | c :: cs =>
    if c = '%' then
      match cs with
      | a :: b :: rest =>
        match hexVal a, hexVal b with
        | some x, some y =>
          if mode = .host ∧ x < 8 ∧ ¬ (a = '2' ∧ b = '5') then none
          else if mode = .zone ∧ ¬ (a = '2' ∧ b = '5') ∧ x * 16 + y ≠ 32 ∧
              hostCharAllowed (Char.ofNat (x * 16 + y)) = false then none
          else (unescapeBytes mode rest).map (fun bs => (x * 16 + y) :: bs)
        | _, _ => none
      | _ => none
    else if c = '+' ∧ mode = .queryComponent then
      (unescapeBytes mode cs).map (fun bs => 32 :: bs)
    else if (mode = .host ∨ mode = .zone) ∧ c.toNat < 0x80 ∧ hostCharAllowed c = false then none
    else (unescapeBytes mode cs).map (fun bs => utf8Bytes c ++ bs)

/-- The function `unescape` of `net/url`. -/
def unescape (mode : EscapeMode) (s : List Char) : Option String :=
  (unescapeBytes mode s).map (fun bs => String.mk (utf8Decode bs))

/-- The part of a `url.URL` that `Parse` fills and the code reads. -/
structure URL where
  Scheme : String := ""
  Opaque : String := ""
  Host : String := ""
  Path : String := ""
  RawQuery : String := ""
  Fragment : String := ""
deriving DecidableEq, Repr

/-- The loop of `getScheme`: `acc` is the prefix read so far, reversed. `none`
is the error "missing protocol scheme". -/
def getSchemeLoop (raw : List Char) : List Char → List Char → Option (List Char × List Char)
  | [], _ => some ([], raw)
  | c :: cs, acc =>
    if c.isAlpha then getSchemeLoop raw cs (c :: acc)
    else if c.isDigit ∨ c = '+' ∨ c = '-' ∨ c = '.' then
      if acc = [] then some ([], raw) else getSchemeLoop raw cs (c :: acc)
    else if c = ':' then
      if acc = [] then none else some (acc.reverse, cs)
    else some ([], raw)

/-- The function `validOptionalPort`: empty, or a colon followed by digits. -/
def validOptionalPort : List Char → Bool
  | [] => true
  | c :: cs => c = ':' && cs.all Char.isDigit

/-- The text from the last occurrence of a character on, or `none` when it does
not occur (`s[strings.LastIndex(s, c):]`). -/
def fromLast (sep : Char) (s : List Char) : Option (List Char) :=
  if s.contains sep then some (sep :: (s.reverse.takeWhile (· ≠ sep)).reverse) else none

/-- The function `parseHost` for a host that is not an IP literal in brackets,
and, for one in brackets, the checks of the closing bracket and of the port. -/
def parseHost (host : List Char) : Option String :=
  if host.head? = some '[' then
    match fromLast ']' host with
    | none => none
    | some tail =>
      if validOptionalPort (tail.drop 1) then
        (unescapeBytes .zone host).map (fun bs => String.mk (utf8Decode bs))
      else none
  else
    match fromLast ':' host with
    | some colonPort => if validOptionalPort colonPort then unescape .host host else none
    | none => unescape .host host

/-- The function `validUserinfo`. -/
def validUserinfo (s : List Char) : Bool :=
  s.all fun c => c.isAlphanum || "-._:~!$&'()*+,;=%@".data.contains c

/-- The function `parseAuthority`, reduced to the host it returns: the user
information is checked and dropped. -/
def parseAuthority (authority : List Char) : Option String :=
  if authority.contains '@' then
    let hostPart := (authority.reverse.takeWhile (· ≠ '@')).reverse
    let userinfo := authority.take (authority.length - hostPart.length - 1)
    match parseHost hostPart with
    | none => none
    | some host =>
      if validUserinfo userinfo = false then none
      else
        match cutAt ':' userinfo with
        | (_, none) => (unescape .userPassword userinfo).map fun _ => host
        | (username, some password) =>
          match unescape .userPassword username, unescape .userPassword password with
          | some _, some _ => some host
          | _, _ => none
  else parseHost authority

/-- The function `parse` of `net/url` (with `viaRequest` false) on a text
without fragment. -/
def urlParseNoFragment (raw : List Char) : Option URL :=
  if raw.any (fun c => c.toNat < 0x20 ∨ c.toNat = 0x7F) then none
  else if raw = ['*'] then some { Path := "*" }
  else
    match getSchemeLoop raw raw [] with
    | none => none
    | some (scheme, rest0) =>
      let scheme := String.mk (scheme.map Char.toLower)
      let split : List Char × List Char :=
        if rest0.getLast? = some '?' ∧ rest0.count '?' = 1 then (rest0.dropLast, [])
        else ((cutAt '?' rest0).1, ((cutAt '?' rest0).2).getD [])
      let rest := split.1
      let rawQuery := String.mk split.2
      if rest.head? ≠ some '/' ∧ scheme ≠ "" then
        some { Scheme := scheme, Opaque := String.mk rest, RawQuery := rawQuery }
      else if rest.head? ≠ some '/' ∧ (cutAt '/' rest).1.contains ':' then none
      else if (scheme ≠ "" ∨ rest.take 3 ≠ ['/', '/', '/']) ∧ rest.take 2 = ['/', '/'] then
        let afterSlashes := rest.drop 2
        let authority := (cutAt '/' afterSlashes).1
        let pathPart := afterSlashes.drop authority.length
        match parseAuthority authority, unescape .path pathPart with
        | some host, some path =>
          some { Scheme := scheme, Host := host, Path := path, RawQuery := rawQuery }
        | _, _ => none
      else
        match unescape .path rest with
        | some path => some { Scheme := scheme, Path := path, RawQuery := rawQuery }
        | none => none

/-- The function `url.Parse`: the fragment is cut off at the first `#`, the
rest is parsed, and the fragment is decoded. `none` is a parse error. -/
def urlParse (rawURL : String) : Option URL :=
  match urlParseNoFragment (cutAt '#' rawURL.data).1 with
  | none => none
  | some u =>
    match (cutAt '#' rawURL.data).2 with
    | none => some u
    | some frag =>
      if frag = [] then some u
      else
        match unescape .fragment frag with
        | some f => some { u with Fragment := f }
        | none => none

/-- The pairs `url.ParseQuery` collects from a raw query, in order: a part with
a semicolon, an empty part and a part with a malformed escape are skipped. -/
def parseQueryPairs (query : List Char) : Nat → List (String × String)
  | 0 => []
  | fuel + 1 =>
    if query = [] then []
    else
      let part := (cutAt '&' query).1
      let rest := ((cutAt '&' query).2).getD []
      let tail := parseQueryPairs rest fuel
      if part.contains ';' then tail
      else if part = [] then tail
      else
        match unescape .queryComponent (cutAt '=' part).1,
            unescape .queryComponent (((cutAt '=' part).2).getD []) with
        | some key, some value => (key, value) :: tail
        | _, _ => tail

/-- The call `u.Query().Get(key)`: the first value collected for the key, or
the empty string. -/
def URL.queryGet (u : URL) (key : String) : String :=
  ((parseQueryPairs u.RawQuery.data (u.RawQuery.data.length + 1)).lookup key).getD ""

/-- Remove the trailing slashes of a path. -/
def stripTrailingSlashes (p : List Char) : List Char :=
  (p.reverse.dropWhile (· = '/')).reverse

/-- The function `path.Base`: the last element of a path. -/
def pathBase (p : String) : String :=
  if p = "" then "."
  else
    let stripped := stripTrailingSlashes p.data
    let last := (stripped.reverse.takeWhile (· ≠ '/')).reverse
    if last = [] then "/" else String.mk last

/-- The function `strings.TrimSuffix` for a one-character suffix. -/
def trimSuffixChar (s : String) (c : Char) : String :=
  if s.data.getLast? = some c then String.mk s.data.dropLast else s

/-- The function `strings.TrimPrefix`. -/
def TrimPrefix (s prefix_ : String) : String :=
  if prefix_.data.isPrefixOf s.data then String.mk (s.data.drop prefix_.data.length) else s

/-! ## The action envelope (`action.go`) -/

/-- The function `operationRefFromLink`; `none` is the nil pointer. -/
def operationRefFromLink (link : Option Link) : Option OperationRef :=
  match link with
  | none => none
  | some link =>
    if link.Href = "" then none
    else
      match urlParse link.Href with
      | none => some { Href := link.Href }
      | some u =>
        let id := u.queryGet "id"
        let id := if id = "" then TrimPrefix (pathBase (trimSuffixChar u.Path '/')) "operations/"
          else id
        if id = "" then some { Href := link.Href }
        else some { ID := id, Href := link.Href }

/-- The function `actionFromStatus`. -/
def actionFromStatus (status : Int) (link : Option Link) : ActionResult :=
  let result : ActionResult := { StatusCode := status, Link := link }
  if status = 202 then { result with Operation := operationRefFromLink link }
  else result

/-! ## Chunked upload (`service_uploads.go`) -/

/-- The constant `maxUploadPartSize`. -/
def maxUploadPartSize : Int := 10000000000

/-- The part size `UploadInChunks` works with for a configured `PartSize`. -/
def normalizePartSize (partSize : Int) : Int :=
  let partSize := if partSize ≤ 0 then 10 * 1024 * 1024 else partSize
  if partSize > maxUploadPartSize then maxUploadPartSize else partSize

/-- The method `ValidatePartSize`: the error message, or `none` for nil. -/
def ValidatePartSize (partSize : Int) : Option String :=
  if partSize ≤ 0 then some "part size must be > 0"
  else if partSize > maxUploadPartSize then
    some ("part size must be <= " ++ itoa maxUploadPartSize)
  else none


/-- The struct `UploadChunkRequest`. -/
structure UploadChunkRequest where
  PartSize : Int := 0
  Parallelism : Int := 0
deriving DecidableEq, Repr

/-- An `io.ReadSeeker` as `UploadInChunks` uses it: what the two calls of `Seek`
return, the bytes `Read` yields from the start on, and the error `Read` reports
when they are used up (`none` for `io.EOF`). -/
structure Source where
  /-- The outcome of `Seek(0, io.SeekEnd)`: the error, or the offset. -/
  size : GoError ⊕ Int
  /-- The error of `Seek(0, io.SeekStart)`, if any. -/
  rewind : Option GoError
  content : List Nat
  failure : Option GoError

/-- The errors `io.ReadFull` returns: `io.EOF`, `io.ErrUnexpectedEOF`, or the
error of the reader, which is neither. -/
inductive ReadFullError where
  | eof
  | unexpectedEOF
  | other (err : GoError)
deriving DecidableEq, Repr

/-- The call `io.ReadFull(reader, buf[:m])` on a reader with the bytes `unread`
left: the bytes stored in the buffer and the error. With `m` bytes left or more
it stores `m` bytes and returns nil; otherwise it stores what is left and
returns the reader's error, or `io.EOF` when nothing was read and
`io.ErrUnexpectedEOF` when something was. -/
def Source.readFull (src : Source) (unread : List Nat) (m : Nat) :
    List Nat × Option ReadFullError :=
  if m ≤ unread.length then (unread.take m, none)
  else
    match src.failure with
    | some err => (unread, some (.other err))
    | none => if unread.length = 0 then (unread, some .eof) else (unread, some .unexpectedEOF)

/-- A request `UploadInChunks` hands to `doRaw`. -/
structure ChunkRequest where
  Method : String
  URL : String
  ContentType : String
  ContentRange : String
  Body : List Nat
deriving DecidableEq, Repr

/-- The environment of one call of `UploadInChunks`; iterations and requests
are counted from zero. -/
structure UploadWorld where
  /-- The error of the context when it is done at the start of an iteration. -/
  ctxDone : Nat → Option GoError
  /-- The error of `http.NewRequestWithContext`, if any. -/
  newRequest : Option GoError
  /-- The outcome of `doRaw` on each request. -/
  httpDo : Nat → DoResult

/-- What `UploadInChunks` returns, with the requests it issued in order. The
hooks `doRaw` calls around each request are not recorded. -/
structure UploadResult where
  result : ActionResult
  err : Option GoError
  requests : List ChunkRequest
deriving DecidableEq, Repr

/-- The value of the header `Content-Range` of a chunk. -/
def contentRange (start end_ total : Int) : String :=
  "bytes " ++ itoa start ++ "-" ++ itoa end_ ++ "/" ++ itoa total

/-- The result `UploadInChunks` returns after its loop. -/
def uploadDone (link : ResourceUploadLink) (reqs : List ChunkRequest) : UploadResult :=
  ⟨{ StatusCode := 202, Operation := some { ID := link.OperationID, Href := link.Href } },
    none, reqs⟩

/-- The loop of `UploadInChunks` from the test of its condition on, followed by
the code after the loop. `i` counts the iterations done, `unread` is what the
reader has left, `reqs` are the requests issued. `fuel` bounds the number of
condition tests; `none` means the bound was reached. -/
def uploadLoop (w : UploadWorld) (link : ResourceUploadLink) (src : Source)
    (partSize total : Int) :
    Nat → Nat → Int → List Nat → List ChunkRequest → Option UploadResult
  | 0, _, _, _, _ => none
  | fuel + 1, i, start, unread, reqs =>
    if start < total then
      match w.ctxDone i with
      | some err => some ⟨{}, some err, reqs⟩
      | none =>
        let remaining := total - start
        let chunkSize := if remaining < partSize then remaining else partSize
        match src.readFull unread chunkSize.toNat with
        | (_, some (.other err)) => some ⟨{}, some err, reqs⟩
        | (data, _) =>
          if data.length = 0 then some (uploadDone link reqs)
          else
            let n : Int := data.length
            let end_ := start + n - 1
            match w.newRequest with
            | some err => some ⟨{}, some err, reqs⟩
            | none =>
              let req : ChunkRequest :=
                { Method := link.Method, URL := link.Href,
                  ContentType := "application/octet-stream",
                  ContentRange := contentRange start end_ total, Body := data }
              let reqs := reqs ++ [req]
              match w.httpDo i with
              | .fail err _ => some ⟨{}, some err, reqs⟩
              | .ok resp =>
                if resp.StatusCode ≠ 201 ∧ resp.StatusCode ≠ 202 then
                  match resp.closeErr with
                  | some err =>
                    some ⟨{}, some (.join (.api (apiErrorFromResponse resp resp.Body)) err), reqs⟩
                  | none => some ⟨{}, some (.api (apiErrorFromResponse resp resp.Body)), reqs⟩
                else
                  match resp.closeErr with
                  | some err => some ⟨{}, some err, reqs⟩
                  | none =>
                    uploadLoop w link src partSize total fuel (i + 1) (start + n)
                      (unread.drop data.length) reqs
    else some (uploadDone link reqs)

/-- The method `UploadInChunks`; `none` for the link or the reader is nil. Every
iteration that goes on advances `start` by at least one, so the loop never
uses up the `total + 1` condition tests it is given. -/
def UploadInChunks (w : UploadWorld) (link : Option ResourceUploadLink) (reader : Option Source)
    (cfg : UploadChunkRequest) : Option UploadResult :=
  match link with
  | none => some ⟨{}, some (.other "upload link must have href and method"), []⟩
  | some link =>
    if link.Href = "" ∨ link.Method = "" then
      some ⟨{}, some (.other "upload link must have href and method"), []⟩
    else
      match reader with
      | none => some ⟨{}, some (.other "reader must not be nil"), []⟩
      | some src =>
        let partSize := normalizePartSize cfg.PartSize
        match src.size with
        | .inl err => some ⟨{}, some err, []⟩
        | .inr total =>
          match src.rewind with
          | some err => some ⟨{}, some err, []⟩
          | none => uploadLoop w link src partSize total (total.toNat + 1) 0 0 src.content []

/-! ## The operation worker (`worker.go`, `options.go`) -/

/-- The struct `WorkerConfig`. -/
structure WorkerConfig where
  PollInterval : Int
  MaxInterval : Int
  Jitter : Float64
  QueueSize : Int
deriving DecidableEq

/-- A subscriber callback `func(OperationEvent)`, known by its identity. -/
abbrev Handler := Nat

/-- The struct `watchState`; instants are nanoseconds on the clock `time.Now`
reads. -/
structure watchState where
  ref : OperationRef
  handlers : List Handler
  interval : Int
  nextPoll : Int
deriving DecidableEq, Repr

/-- The state of an `OperationWorker`: its configuration, the table
`watchers` as an association list from operation id to state, and the flag
`started`. -/
structure OperationWorker where
  cfg : WorkerConfig
  watchers : List (String × watchState)
  started : Bool
deriving DecidableEq

/-- The method `OperationWorker.Watch` called at the instant `now`; the handler
is `none` when it is nil. Returns the error (`none` for nil) and the worker
after the call. -/
def OperationWorker.Watch (w : OperationWorker) (now : Int) (ref : OperationRef)
    (handler : Option Handler) : Option GoError × OperationWorker :=
  match handler with
  | none => (some (.other "handler is required"), w)
  | some h =>
    let ref : OperationRef :=
      if ref.ID = "" ∧ ref.Href ≠ "" then
        match operationRefFromLink (some { Href := ref.Href }) with
        | some parsed => { ID := parsed.ID, Href := parsed.Href }
        | none => ref
      else ref
    if ref.ID = "" then (some (.other "operation id is required"), w)
    else
      let watchers : List (String × watchState) :=
        match w.watchers.lookup ref.ID with
        | some _ => w.watchers
        | none =>
          w.watchers ++ [(ref.ID,
            { ref := ref, handlers := [], interval := w.cfg.PollInterval, nextPoll := now })]
      (none, { w with watchers := watchers.map fun (kv : String × watchState) =>
        if kv.1 = ref.ID then (kv.1, { kv.2 with handlers := kv.2.handlers ++ [h] }) else kv })

/-- The source of the repository's chunked upload test: the eleven bytes of
`hello world`. -/
def helloWorldSource : Source :=
  { size := .inr 11, rewind := none, content := bodyBytes "hello world", failure := none }

/-- A server that answers every chunk with `201 Created`, under a context that
is never done. -/
def acceptingUploadWorld : UploadWorld :=
  { ctxDone := fun _ => none, newRequest := none
    httpDo := fun _ => .ok ⟨201, [], "", none, none⟩ }

/-- The upload link of the repository's chunked upload test. -/
def chunkTestLink : ResourceUploadLink :=
  { Href := "http://127.0.0.1/upload-chunk", Method := "PUT", OperationID := "op-c" }


/-! ## The query encoding as the specification words it -/

/-- One `key=value` pair of an encoded query, both sides percent-encoded. -/
def encodePair (kv : String × String) : String :=
  QueryEscape kv.1 ++ "=" ++ QueryEscape kv.2

/-- The pairs the specification lists for a `ResourceGetRequest`: the fields
that are not omitted, in increasing key order, a slice as one value joined by
commas. -/
def resourceQuerySpecPairs (req : ResourceGetRequest) : List (String × String) :=
  (if req.Fields ≠ [] then [("fields", joinWith "," req.Fields)] else []) ++
  (match req.Limit with
    | some n => [("limit", itoa n)]
    | none => []) ++
  (match req.Offset with
    | some n => [("offset", itoa n)]
    | none => []) ++
  (if req.Path ≠ "" then [("path", req.Path)] else []) ++
  (match req.PreviewCrop with
    | some b => [("preview_crop", formatBool b)]
    | none => []) ++
  (if req.PreviewSize ≠ "" then [("preview_size", req.PreviewSize)] else []) ++
  (if req.Sort_ ≠ "" then [("sort", req.Sort_)] else [])

/-- The query string the specification describes: the pairs joined by `&`. -/
def resourceQuerySpec (req : ResourceGetRequest) : String :=
  joinWith "&" ((resourceQuerySpecPairs req).map encodePair)

/-- The keys a `ResourceGetRequest` can contribute, in increasing order. -/
def resourceQueryKeys : List String :=
  ["fields", "limit", "offset", "path", "preview_crop", "preview_size", "sort"]

/-- The strict order in which `Encode` lists keys. -/
def keyLt (a b : String) : Prop := strLt a.data b.data = true

/-! ## Vocabulary of the statements about chunked upload -/

/-- The offset at which chunk `j` (counted from zero) of an upload of `T`
bytes with part size `p` starts, capped at `T`. -/
def chunkStart (p T j : Nat) : Nat := min (j * p) T

/-- The number of chunks of an upload of `T` bytes with part size `p`, the
ceiling of `T / p`. -/
def chunkCount (p T : Nat) : Nat := (T + p - 1) / p

/-- The request for chunk `j` of the content: the bytes from offset `j * p` on,
at most `p` of them, and the range header for them. -/
def chunkRequest (link : ResourceUploadLink) (content : List Nat) (p j : Nat) : ChunkRequest :=
  { Method := link.Method
    URL := link.Href
    ContentType := "application/octet-stream"
    ContentRange := contentRange ((j * p : Nat) : Int)
      (((j * p : Nat) : Int) + ((((content.drop (j * p)).take p).length : Nat) : Int) - 1)
      ((content.length : Nat) : Int)
    Body := (content.drop (j * p)).take p }

/-- What an iteration of the loop of `UploadInChunks` does after it has read
the bytes of chunk `j` and added the request `req` for them to the requests
`reqs`: `next` is the rest of the loop. -/
def uploadAfterRead (w : UploadWorld) (j : Nat) (reqs : List ChunkRequest) (req : ChunkRequest)
    (next : Option UploadResult) : Option UploadResult :=
  match w.ctxDone j with
  | some err => some ⟨{}, some err, reqs⟩
  | none =>
    match w.newRequest with
    | some err => some ⟨{}, some err, reqs⟩
    | none =>
      match w.httpDo j with
      | .fail err _ => some ⟨{}, some err, reqs ++ [req]⟩
      | .ok resp =>
        if resp.StatusCode ≠ 201 ∧ resp.StatusCode ≠ 202 then
          match resp.closeErr with
          | some err =>
            some ⟨{}, some (.join (.api (apiErrorFromResponse resp resp.Body)) err), reqs ++ [req]⟩
          | none => some ⟨{}, some (.api (apiErrorFromResponse resp resp.Body)), reqs ++ [req]⟩
        else
          match resp.closeErr with
          | some err => some ⟨{}, some err, reqs ++ [req]⟩
          | none => next

/-- The chunk `i` is answered by a response with status 201 or 202 whose body
closes without error, and the context is not done before it. -/
def chunkAccepted (w : UploadWorld) (i : Nat) : Prop :=
  w.ctxDone i = none ∧
    ∃ r, w.httpDo i = .ok r ∧ (r.StatusCode = 201 ∨ r.StatusCode = 202) ∧ r.closeErr = none

/-- A server that accepts the first chunk with `201 Created` and answers every
later one with status `500` and the body `{"HTTPStatus":201}`, under a context
that is never done. -/
def statusInBodyUploadWorld : UploadWorld :=
  { ctxDone := fun _ => none, newRequest := none
    httpDo := fun i =>
      if i = 0 then .ok ⟨201, [], "", none, none⟩
      else .ok ⟨500, [], "\x7b\"HTTPStatus\":201\x7d", none, none⟩ }

/-- The number of bytes in the bodies of a list of requests. -/
def bytesSent (reqs : List ChunkRequest) : Nat :=
  (reqs.map fun r => r.Body.length).sum

/-- A source whose `Seek` reports eleven bytes but whose `Read` yields only the
five bytes of `hello` and then `io.EOF`, as a file truncated after it was
measured does. -/
def truncatedSource : Source :=
  { size := .inr 11, rewind := none, content := bodyBytes "hello", failure := none }

/-- The request `UploadInChunks` builds for the bytes `data` it has read at
offset `start` of `total`. -/
def chunkOf (link : ResourceUploadLink) (start total : Int) (data : List Nat) : ChunkRequest :=
  { Method := link.Method
    URL := link.Href
    ContentType := "application/octet-stream"
    ContentRange := contentRange start (start + (data.length : Int) - 1) total
    Body := data }

/-! ## The polling of the operation worker (`worker.go`, `service_operations.go`) -/

/-- The struct `OperationEvent`. -/
structure OperationEvent where
  Ref : OperationRef
  Status : String := ""
  Done : Bool := false
  Err : Option GoError := none
deriving DecidableEq, Repr

/-- What a tick of the worker does to the outside, in order. -/
inductive WorkerEvent where
  /-- The call `Operations.GetStatus` for this operation id. -/
  | getStatus (id : String)
  /-- The hook `OnOperationEvent` is called. -/
  | onOperationEvent (e : OperationEvent)
  /-- A goroutine is started that calls this handler with the event. -/
  | handler (h : Handler) (e : OperationEvent)
deriving DecidableEq, Repr

/-- The environment of one call of `tick`. -/
structure TickWorld where
  /-- The instant `time.Now` returns at the start of the tick. -/
  now : Int
  /-- The outcome of the request `GET /disk/operations/<id>` that `GetStatus`
  sends through `doJSON`: the error, or the decoded status. -/
  poll : String → GoError ⊕ OperationStatus
  /-- The instant `time.Now` returns in the call of `bump` for an id. -/
  bumpNow : String → Int
  /-- The floating-point branch of `Client.jitter` at the draw made in the call
  of `bump` for an id. -/
  fl : String → Int → Int

/-- The method `OperationsService.GetStatus`, as far as the worker uses it (no
fields are requested). -/
def OperationsService.GetStatus (poll : String → GoError ⊕ OperationStatus) (id : String) :
    GoError ⊕ OperationStatus :=
  if id = "" then .inl (.other "operation_id is required") else poll id

/-- The function `newOperationWorker`. -/
def newOperationWorker (cfg : WorkerConfig) : OperationWorker :=
  { cfg := cfg, watchers := [], started := false }

/-- The method `OperationWorker.bump`; `now` is the instant `time.Now` returns
in it and `fl` the floating-point branch of the jitter. Instants are not
bounded, so `Time.Add` is the sum. -/
def OperationWorker.bump (w : OperationWorker) (now : Int) (fl : Int → Int) (id : String)
    (onError : Bool) : OperationWorker :=
  match w.watchers.lookup id with
  | none => w
  | some _ =>
    { w with watchers := w.watchers.map fun (kv : String × watchState) =>
        if kv.1 = id then
          let next := kv.2.interval
          let next :=
            if onError then
              let next := wrap64 (next * 2)
              if next > w.cfg.MaxInterval then w.cfg.MaxInterval else next
            else next
          (kv.1, { kv.2 with
            interval := next, nextPoll := now + Client.jitter fl next w.cfg.Jitter })
        else kv }

/-- The method `OperationWorker.remove`. -/
def OperationWorker.remove (w : OperationWorker) (id : String) : OperationWorker :=
  { w with watchers := w.watchers.filter fun (kv : String × watchState) => kv.1 ≠ id }

/-- The method `OperationWorker.dispatch`: the calls it makes, in order. -/
def OperationWorker.dispatch (c : Client) (handlers : List Handler) (event : OperationEvent) :
    List WorkerEvent :=
  (if c.hooks.OnOperationEvent then [WorkerEvent.onOperationEvent event] else [])
    ++ handlers.map fun h => WorkerEvent.handler h event

/-- The second loop of `OperationWorker.tick`, over the states collected in the
first one. The worker's client is `c`. -/
def OperationWorker.tickLoop (c : Client) (env : TickWorld) :
    List watchState → OperationWorker → List WorkerEvent → OperationWorker × List WorkerEvent
  | [], w, tr => (w, tr)
  | state :: states, w, tr =>
    let tr := tr ++ [WorkerEvent.getStatus state.ref.ID]
    match OperationsService.GetStatus env.poll state.ref.ID with
    | .inl err =>
      let event : OperationEvent := { Ref := state.ref, Err := some err }
      let w := w.bump (env.bumpNow state.ref.ID) (env.fl state.ref.ID) state.ref.ID true
      tickLoop c env states w (tr ++ OperationWorker.dispatch c state.handlers event)
    | .inr status =>
      let event : OperationEvent :=
        { Ref := state.ref, Status := status.Status, Done := status.IsTerminal }
      let tr := tr ++ OperationWorker.dispatch c state.handlers event
      if event.Done then tickLoop c env states (w.remove state.ref.ID) tr
      else
        tickLoop c env states
          (w.bump (env.bumpNow state.ref.ID) (env.fl state.ref.ID) state.ref.ID false) tr

/-- The method `OperationWorker.tick`, with the calls it makes. The first loop
ranges over the map `watchers`; Go leaves the order of that iteration open, and
here it is the order of the association list. -/
def OperationWorker.tick (w : OperationWorker) (c : Client) (env : TickWorld) :
    OperationWorker × List WorkerEvent :=
  let states := (w.watchers.filter fun (kv : String × watchState) =>
    ¬ kv.2.nextPoll > env.now).map fun kv => kv.2
  OperationWorker.tickLoop c env states w []

/-- The method `OperationWorker.Start`; `ctxErr` is the error of the context
when it is done at the call, `none` otherwise. The goroutine that runs the
loop is not part of the state. -/
def OperationWorker.Start (w : OperationWorker) (ctxErr : Option GoError) :
    Option GoError × OperationWorker :=
  match ctxErr with
  | some err => (some err, w)
  | none => if w.started then (none, w) else (none, { w with started := true })

/-- The method `OperationWorker.Stop`. After it has cancelled the loop it waits
for the context or for the loop to end: `ctxErr` is the error of the context
when the context is done first, `none` when the loop ends first. -/
def OperationWorker.Stop (w : OperationWorker) (ctxErr : Option GoError) :
    Option GoError × OperationWorker :=
  if ¬ w.started then (none, w)
  else
    match ctxErr with
    | some err => (some err, w)
    | none => (none, { w with started := false })

/-- The ref `OperationWorker.Watch` goes on with after its first two
statements: a ref without id but with an href takes the id and href that
`operationRefFromLink` derives. -/
def watchedRef (ref : OperationRef) : OperationRef :=
  if ref.ID = "" ∧ ref.Href ≠ "" then
    match operationRefFromLink (some { Href := ref.Href }) with
    | some parsed => { ID := parsed.ID, Href := parsed.Href }
    | none => ref
  else ref

/-- A call on the worker in the sequential model: `Watch` at an instant, or a
tick of the loop. -/
inductive WorkerStep where
  | watch (now : Int) (ref : OperationRef) (handler : Option Handler)
  | tick (env : TickWorld)

/-- The worker after one call, with the calls a tick makes. -/
def OperationWorker.step (c : Client) (w : OperationWorker) :
    WorkerStep → OperationWorker × List WorkerEvent
  | .watch now ref handler => ((w.Watch now ref handler).2, [])
  | .tick env => w.tick c env

/-- The worker after a sequence of calls, with the calls the ticks make. -/
def OperationWorker.run (c : Client) :
    List WorkerStep → OperationWorker → OperationWorker × List WorkerEvent
  | [], w => (w, [])
  | s :: steps, w =>
    let r := w.step c s
    let rest := OperationWorker.run c steps r.1
    (rest.1, r.2 ++ rest.2)

/-- The ids for which a list of calls contains `GetStatus`, in order. -/
def polledIDs : List WorkerEvent → List String
  | [] => []
  | .getStatus id :: tr => id :: polledIDs tr
  | _ :: tr => polledIDs tr

/-- The invariant of the table `watchers`: a key occurs once, and the state
stored under a key carries that key as the id of its ref. -/
def OperationWorker.tableOK (w : OperationWorker) : Prop :=
  (w.watchers.map fun kv => kv.1).Nodup ∧ ∀ kv ∈ w.watchers, kv.2.ref.ID = kv.1

/-- The check of the option `WithWorkerConfig`: the error message, or `none`
when the configuration is accepted. -/
def WithWorkerConfig (cfg : WorkerConfig) : Option String :=
  if cfg.PollInterval ≤ 0 ∨ cfg.MaxInterval ≤ 0 then some "worker intervals must be positive"
  else if cfg.QueueSize ≤ 0 then some "worker queue size must be positive"
  else if cfg.Jitter < 0 then some "worker jitter must be >= 0"
  else none

/-- The function `DefaultWorkerConfig`, durations in nanoseconds. -/
def DefaultWorkerConfig : WorkerConfig :=
  { PollInterval := 500 * 1000000, MaxInterval := 10 * 1000000000, Jitter := .num (3 / 20),
    QueueSize := 256 }

/-- The state `bump` stores for an entry. -/
def bumpedState (cfg : WorkerConfig) (now : Int) (fl : Int → Int) (st : watchState)
    (onError : Bool) : watchState :=
  let next := st.interval
  let next :=
    if onError then
      let next := wrap64 (next * 2)
      if next > cfg.MaxInterval then cfg.MaxInterval else next
    else next
  { st with interval := next, nextPoll := now + Client.jitter fl next cfg.Jitter }

/-- What the poll of a tick leaves of the state of an operation: `none` when
the entry is removed. -/
def polledState (cfg : WorkerConfig) (env : TickWorld) (st : watchState) : Option watchState :=
  match OperationsService.GetStatus env.poll st.ref.ID with
  | .inl _ => some (bumpedState cfg (env.bumpNow st.ref.ID) (env.fl st.ref.ID) st true)
  | .inr status =>
    if status.IsTerminal then none
    else some (bumpedState cfg (env.bumpNow st.ref.ID) (env.fl st.ref.ID) st false)

/-- What a tick leaves of an entry of the table when it polls the ids `ids`. -/
def polledEntry (cfg : WorkerConfig) (env : TickWorld) (ids : List String)
    (kv : String × watchState) : Option (String × watchState) :=
  if kv.1 ∈ ids then (polledState cfg env kv.2).map fun st => (kv.1, st) else some kv

/-- The worker of the repository's test `TestOperationWorkerLifecycle` after
its call of `Watch` at the instant 0: poll interval 20 ms, maximal interval
60 ms, one handler for the operation `op-1`. -/
def lifecycleWorker : OperationWorker :=
  (OperationWorker.Watch (newOperationWorker ⟨20000000, 60000000, .num (3 / 20), 256⟩) 0
    { ID := "op-1" } (some 1)).2

/-- A client without hooks, with the default retry policy. -/
def plainClient : Client :=
  { retry := DefaultRetryPolicy, hooks := ⟨false, false, false, false⟩ }

/-- A tick at the instant `now` in which every poll is answered with the given
status; `bump` reads the clock one millisecond later and the jitter draw leaves
the interval as it is. -/
def statusTick (now : Int) (status : String) : TickWorld :=
  { now := now, poll := fun _ => .inr ⟨status⟩, bumpNow := fun _ => now + 1000000,
    fl := fun _ d => d }

/-- A tick at the instant `now` in which every poll fails. -/
def failingTick (now : Int) : TickWorld :=
  { now := now, poll := fun _ => .inl (.other "connection refused")
    bumpNow := fun _ => now + 1000000, fl := fun _ d => d }

/-- A worker configuration with the poll interval (10 s) above the maximal
interval (1 s). -/
def invertedConfig : WorkerConfig :=
  { PollInterval := 10000000000, MaxInterval := 1000000000, Jitter := 0, QueueSize := 256 }

/-- A worker configuration whose poll interval of `2^62` ns cannot be doubled in
64 bits. -/
def hugeConfig : WorkerConfig :=
  { PollInterval := 2 ^ 62, MaxInterval := 2 ^ 63 - 1, Jitter := 0, QueueSize := 256 }

/-! ## Client construction (`options.go`, `client.go`) -/

/-- A `*http.Client`, known by its identity. -/
abbrev HTTPClient := Nat

/-- The variable `http.DefaultClient`. -/
def DefaultClient : HTTPClient := 0

/-- The constant `defaultBaseURL`. -/
def defaultBaseURL : String := "https://cloud-api.yandex.net/v1"

/-- The variable `errEmptyToken`. -/
def errEmptyToken : GoError := .other "oauth token is required"

/-- The struct `config`; `none` is a nil pointer. -/
structure config where
  token : String
  baseURL : Option URL
  httpClient : Option HTTPClient
  userAgent : String
  retryPolicy : RetryPolicy
  hooks : Hooks
  worker : WorkerConfig

/-- The function `defaultConfig`. The error of `url.Parse` is known only as
such: the model of `url.Parse` does not build its message. -/
def defaultConfig : GoError ⊕ config :=
  match urlParse defaultBaseURL with
  | none => .inl (.other "parse error")
  | some u =>
    .inr { token := "", baseURL := some u, httpClient := some DefaultClient, userAgent := ""
           retryPolicy := DefaultRetryPolicy, hooks := ⟨false, false, false, false⟩
           worker := DefaultWorkerConfig }

/-- The values the package's option constructors return: one constructor for
each function `With...`, carrying its argument. -/
inductive ClientOption where
  | WithOAuthToken (token : String)
  | WithHTTPClient (client : Option HTTPClient)
  | WithBaseURL (rawURL : String)
  | WithUserAgent (userAgent : String)
  | WithRetryPolicy (policy : RetryPolicy)
  | WithHooks (hooks : Hooks)
  | WithWorkerConfig (cfg : WorkerConfig)

/-- The call `opt(cfg)` of an option on a configuration: the error, or the
configuration after the assignment. -/
def ClientOption.apply : ClientOption → config → GoError ⊕ config
  | .WithOAuthToken token, c => .inr { c with token := token }
  | .WithHTTPClient client, c =>
    match client with
    | none => .inl (.other "http client must not be nil")
    | some cl => .inr { c with httpClient := some cl }
  | .WithBaseURL rawURL, c =>
    match urlParse rawURL with
    | none => .inl (.other "parse error")
    | some u => .inr { c with baseURL := some u }
  | .WithUserAgent userAgent, c => .inr { c with userAgent := userAgent }
  | .WithRetryPolicy policy, c =>
    match Yadisk.WithRetryPolicy policy with
    | some msg => .inl (.other msg)
    | none => .inr { c with retryPolicy := policy }
  | .WithHooks hooks, c => .inr { c with hooks := hooks }
  | .WithWorkerConfig cfg, c =>
    match Yadisk.WithWorkerConfig cfg with
    | some msg => .inl (.other msg)
    | none => .inr { c with worker := cfg }

/-- The loop of `NewClient` over its options. -/
def applyOptions : List ClientOption → config → GoError ⊕ config
  | [], c => .inr c
  | opt :: opts, c =>
    match opt.apply c with
    | .inl err => .inl err
    | .inr c => applyOptions opts c

/-- The struct `transport`. -/
structure transport where
  httpClient : HTTPClient
  baseURL : Option URL
  token : String
  userAgent : String

/-- The struct `Client` as `NewClient` fills it: the transport, the retry policy
and hooks (the part `Client` holds), the worker configuration and the worker.
The services hold nothing but the client. -/
structure ClientValue where
  transport : transport
  client : Client
  workerCfg : WorkerConfig
  Worker : OperationWorker

/-- The function `NewClient`. -/
def NewClient (opts : List ClientOption) : GoError ⊕ ClientValue :=
  match defaultConfig with
  | .inl err => .inl err
  | .inr cfg =>
    match applyOptions opts cfg with
    | .inl err => .inl err
    | .inr cfg =>
      if cfg.token = "" then .inl errEmptyToken
      else
        match cfg.httpClient with
        | none => .inl (.other "http client is required")
        | some httpClient =>
          .inr { transport :=
                   { httpClient := httpClient, baseURL := cfg.baseURL, token := cfg.token
                     userAgent := cfg.userAgent }
                 client := { retry := cfg.retryPolicy, hooks := cfg.hooks }
                 workerCfg := cfg.worker
                 Worker := newOperationWorker cfg.worker }

/-- Whether a configuration holds a retry policy and a worker configuration that
the validators of their options accept. -/
def config.validated (c : config) : Prop :=
  WithRetryPolicy c.retryPolicy = none ∧ WithWorkerConfig c.worker = none

/-- The attempt numbers with which the hook `OnRetry` is called in a trace, in
order. -/
def retryAttempts : List Event → List Int
  | [] => []
  | .onRetry ev :: tr => ev.Attempt :: retryAttempts tr
  | _ :: tr => retryAttempts tr

/-- The client of `TestRetryOnGet` with the hook `OnRetry` set. -/
def retryHookClient : Client :=
  { retry := { MaxRetries := 4, BaseDelay := 1000000, MaxDelay := 5000000, Jitter := 0 }
    hooks := ⟨false, false, true, false⟩ }

/-- A server that answers every request with `500` under a context that is
done before the timer of a back-off fires: every sleep returns the error of the
context. -/
def cancelledBackoffWorld : World :=
  { newRequest := .inr "https://cloud-api.yandex.net/v1/disk"
    httpDo := fun _ => .ok ⟨500, [], "\x7b\"error\":\"InternalError\"\x7d", none, none⟩
    sleep := fun _ => some (.other "context canceled")
    fl := fun _ d => d }

/-! ## Properties -/

/-! ### Back-off -/

theorem wrap64_of_range (x : Int) (h1 : -2 ^ 63 ≤ x) (h2 : x < 2 ^ 63) : wrap64 x = x := by
  unfold wrap64
  rw [Int.emod_eq_of_lt (by omega) (by omega)]
  omega

theorem jitter_zero (fl : Int → Int) (d : Int) : Client.jitter fl d 0 = d :=
  if_pos (by decide)

theorem backoffLoop_eq_min (c : Client) (fl : Int → Int) (hj : c.retry.Jitter = 0)
    (hm : c.retry.MaxDelay < 2 ^ 62) :
    ∀ (k : Nat) (b : Int), 0 < b → b < 2 ^ 62 →
      c.backoffLoop fl k b = min (b * 2 ^ k) c.retry.MaxDelay := by
  intro k
  induction k with
  | zero =>
    intro b _ _
    simp only [Client.backoffLoop, hj, jitter_zero, pow_zero, mul_one]
    split
    · rw [min_eq_right (by omega)]
    · rw [min_eq_left (by omega)]
  | succ k ih =>
    intro b hb0 hb1
    have hw : wrap64 (b * 2) = b * 2 := wrap64_of_range _ (by omega) (by omega)
    have hpow : b * 2 ^ (k + 1) = b * 2 * 2 ^ k := by ring
    have hge : b * 2 ≤ b * 2 * 2 ^ k := by
      have h1 : (1 : Int) ≤ 2 ^ k := one_le_pow₀ (by norm_num)
      nlinarith
    simp only [Client.backoffLoop, hj, jitter_zero, hw, hpow]
    split
    · rw [min_eq_right (by omega)]
    · exact ih (b * 2) (by omega) (by omega)

/-- C4: with jitter 0 and both delays positive and below 2^62 nanoseconds,
`Client.backoff` at any attempt `n ≥ 1` returns exactly
`min (base_delay * 2^(n-1)) max_delay`; in particular `backoff 1` is
`min base_delay max_delay`, and no value exceeds `max_delay`. -/
theorem backoff_closed_form (c : Client) (fl : Int → Int) (n : Int)
    (hj : c.retry.Jitter = 0)
    (hb0 : 0 < c.retry.BaseDelay) (hb1 : c.retry.BaseDelay < 2 ^ 62)
    (_hm0 : 0 < c.retry.MaxDelay) (hm1 : c.retry.MaxDelay < 2 ^ 62)
    (_hn : 1 ≤ n) :
    c.backoff fl n = min (c.retry.BaseDelay * 2 ^ (n - 1).toNat) c.retry.MaxDelay ∧
      c.backoff fl 1 = min c.retry.BaseDelay c.retry.MaxDelay ∧
      c.backoff fl n ≤ c.retry.MaxDelay := by
  have key := backoffLoop_eq_min c fl hj hm1
  refine ⟨key _ _ hb0 hb1, ?_, ?_⟩
  · have := key 0 _ hb0 hb1
    simpa [Client.backoff] using this
  · unfold Client.backoff
    rw [key _ _ hb0 hb1]
    exact min_le_right _ _

/-- Instance of C4 at the policy of the repository's back-off test
(base 1 ms, cap 5 ms, no jitter), attempt 10. -/
theorem backoff_closed_form_witness :
    (⟨⟨4, 1000000, 5000000, 0⟩, ⟨false, false, false, false⟩⟩ : Client).backoff id 10
        = min (1000000 * 2 ^ ((10 : Int) - 1).toNat) 5000000 ∧
      (⟨⟨4, 1000000, 5000000, 0⟩, ⟨false, false, false, false⟩⟩ : Client).backoff id 1
        = min 1000000 5000000 ∧
      (⟨⟨4, 1000000, 5000000, 0⟩, ⟨false, false, false, false⟩⟩ : Client).backoff id 10 ≤ 5000000 :=
  backoff_closed_form ⟨⟨4, 1000000, 5000000, 0⟩, ⟨false, false, false, false⟩⟩ id 10
    rfl (by decide) (by decide) (by decide) (by decide) (by decide)

/-- C5 (failing input): the policy `{MaxRetries: 40, BaseDelay: 1s,
MaxDelay: math.MaxInt64, Jitter: 0}` is accepted by `WithRetryPolicy`, yet the
doubling in `Client.backoff` overflows: `backoff 34` is positive while
`backoff 35` is negative, so the result is neither bounded below by zero nor
monotone in the attempt number. -/
theorem backoff_overflow_negative :
    WithRetryPolicy ⟨40, 1000000000, 2 ^ 63 - 1, 0⟩ = none ∧
      ∀ fl : Int → Int,
        (⟨⟨40, 1000000000, 2 ^ 63 - 1, 0⟩, ⟨false, false, false, false⟩⟩ : Client).backoff fl 34
            = 8589934592000000000 ∧
        (⟨⟨40, 1000000000, 2 ^ 63 - 1, 0⟩, ⟨false, false, false, false⟩⟩ : Client).backoff fl 35
            = -1266874889709551616 := by
  refine ⟨by decide, fun fl => ⟨?_, ?_⟩⟩
  · simp [Client.backoff, Client.backoffLoop, jitter_zero, wrap64]
  · simp [Client.backoff, Client.backoffLoop, jitter_zero, wrap64]

/-! ### Response decoding and the error model -/

theorem statusExpected_iff (status : Int) (expected : List Int) :
    statusExpected status expected = true ↔ status ∈ expected := by
  induction expected with
  | nil => simp [statusExpected]
  | cons code rest ih =>
    unfold statusExpected
    by_cases h : status = code
    · simp [h]
    · simp [h, ih]

theorem acceptable_iff (status : Int) (expected : List Int) :
    ((expected.length > 0 ∧ statusExpected status expected = false) ∨
        (expected.length = 0 ∧ status ≥ 400)) ↔
      ¬ ((expected ≠ [] → status ∈ expected) ∧ (expected = [] → status < 400)) := by
  cases expected with
  | nil => simp [statusExpected]
  | cons code rest =>
    have := statusExpected_iff status (code :: rest)
    cases hs : statusExpected status (code :: rest) with
    | true => simp [this.mp hs]
    | false =>
      have hn : status ∉ code :: rest := fun hmem => by
        rw [this.mpr hmem] at hs
        exact Bool.noConfusion hs
      simp [hn]

theorem decodeResponse_unacceptable (resp : Response) (out : Option (String → Option String))
    (expected : List Int) (hread : resp.readErr = none) (hclose : resp.closeErr = none)
    (h : ¬ ((expected ≠ [] → resp.StatusCode ∈ expected) ∧
            (expected = [] → resp.StatusCode < 400))) :
    decodeResponse resp out expected = some (.api (apiErrorFromResponse resp resp.Body)) := by
  unfold decodeResponse
  simp only [hread, hclose]
  rw [if_pos ((acceptable_iff _ _).mpr h)]

/-- C6: for a response whose body is read and closed without error,
`decodeResponse` returns an `*APIError` exactly when the status is not
acceptable, where a status is acceptable when it is a member of `expected` if
`expected` is non-empty and when it is below 400 if `expected` is empty; the
error is then the one `apiErrorFromResponse` builds from the response and its
body. -/
theorem decodeResponse_apiError_iff (resp : Response) (out : Option (String → Option String))
    (expected : List Int) (hread : resp.readErr = none) (hclose : resp.closeErr = none) :
    ((∃ e, decodeResponse resp out expected = some (.api e)) ↔
        ¬ ((expected ≠ [] → resp.StatusCode ∈ expected) ∧
            (expected = [] → resp.StatusCode < 400))) ∧
      (¬ ((expected ≠ [] → resp.StatusCode ∈ expected) ∧
            (expected = [] → resp.StatusCode < 400)) →
        decodeResponse resp out expected = some (.api (apiErrorFromResponse resp resp.Body))) := by
  refine ⟨⟨?_, fun h => ⟨_, decodeResponse_unacceptable resp out expected hread hclose h⟩⟩,
    decodeResponse_unacceptable resp out expected hread hclose⟩
  rintro ⟨e, he⟩
  rw [← acceptable_iff]
  by_contra hcon
  unfold decodeResponse at he
  simp only [hread, hclose] at he
  rw [if_neg hcon] at he
  cases out with
  | none => simp at he
  | some f =>
    simp only at he
    split at he
    · simp at he
    · split at he <;> simp at he

/-- Instance of C6: a response `409 Conflict` decoded against the expected set
`{201, 409}`, as `CreateFolder` does, body read and closed cleanly. -/
theorem decodeResponse_apiError_iff_witness :
    ((∃ e, decodeResponse ⟨409, [], "\x7b\"error\":\"Conflict\"\x7d", none, none⟩ none [201, 409]
          = some (.api e)) ↔
        ¬ (([201, 409] ≠ ([] : List Int) → (409 : Int) ∈ [201, 409]) ∧
            ([201, 409] = ([] : List Int) → (409 : Int) < 400))) ∧
      (¬ (([201, 409] ≠ ([] : List Int) → (409 : Int) ∈ [201, 409]) ∧
            ([201, 409] = ([] : List Int) → (409 : Int) < 400)) →
        decodeResponse ⟨409, [], "\x7b\"error\":\"Conflict\"\x7d", none, none⟩ none [201, 409]
          = some (.api (apiErrorFromResponse ⟨409, [], "\x7b\"error\":\"Conflict\"\x7d", none, none⟩
              "\x7b\"error\":\"Conflict\"\x7d"))) :=
  decodeResponse_apiError_iff ⟨409, [], "\x7b\"error\":\"Conflict\"\x7d", none, none⟩ none [201, 409] rfl rfl

/-- C7 (counterexample): the string of an `APIError` with status 401, code
`UnauthorizedError` and message `bad token` is not
`api error 401 UnauthorizedError: bad token`: the code prefixes it with
`yadisk `. -/
theorem apiError_string_counterexample :
    APIError.Error (some ⟨401, "UnauthorizedError", "bad token", "", "", []⟩)
      ≠ "api error 401 UnauthorizedError: bad token" := by
  decide

/-- C7 (amended): for every non-nil `APIError`, `Error()` is
`yadisk api error <status> <code>: <message>` when code and message are both
non-empty, `yadisk api error <status> <code>` when only the code is,
`yadisk api error <status>: <message>` when only the message is, and
`yadisk api error <status>` otherwise, with `<status>` in decimal. -/
theorem apiError_string (e : APIError) :
    (e.Code ≠ "" → e.Message ≠ "" → APIError.Error (some e)
        = "yadisk api error " ++ itoa e.HTTPStatus ++ " " ++ e.Code ++ ": " ++ e.Message) ∧
      (e.Code ≠ "" → e.Message = "" → APIError.Error (some e)
        = "yadisk api error " ++ itoa e.HTTPStatus ++ " " ++ e.Code) ∧
      (e.Code = "" → e.Message ≠ "" → APIError.Error (some e)
        = "yadisk api error " ++ itoa e.HTTPStatus ++ ": " ++ e.Message) ∧
      (e.Code = "" → e.Message = "" → APIError.Error (some e)
        = "yadisk api error " ++ itoa e.HTTPStatus) := by
  refine ⟨?_, ?_, ?_, ?_⟩ <;> intro hc hm <;> simp [APIError.Error, hc, hm]

/-- Instance of C7 (amended) at the error of the repository's formatting test:
the four cases hold for it and its string is
`yadisk api error 401 UnauthorizedError: bad token`. -/
theorem apiError_string_witness :
    APIError.Error (some ⟨401, "UnauthorizedError", "bad token", "", "", []⟩)
      = "yadisk api error 401 UnauthorizedError: bad token" :=
  ((apiError_string ⟨401, "UnauthorizedError", "bad token", "", "", []⟩).1
    (by decide) (by decide)).trans (by decide)

/-- C8 (failing input): a response with status 500 and header
`X-Request-Id: req-1` whose body is the JSON object
`{"HTTPStatus":200,"RequestID":"spoofed","RawBody":"aGk="}`. The fields
`HTTPStatus`, `RequestID` and `RawBody` carry no `json` tag, so the decoder
stores the members of those names into them: the error reports status 200,
request id `spoofed` and the two bytes `hi` as raw body. -/
theorem apiErrorFromResponse_overwrites_untagged_fields :
    apiErrorFromResponse
        ⟨500, [("X-Request-Id", ["req-1"])],
          "\x7b\"HTTPStatus\":200,\"RequestID\":\"spoofed\",\"RawBody\":\"aGk=\"\x7d", none, none⟩
        "\x7b\"HTTPStatus\":200,\"RequestID\":\"spoofed\",\"RawBody\":\"aGk=\"\x7d"
      = { HTTPStatus := 200, Code := "", Description := "", RequestID := "spoofed",
          RawBody := [104, 105],
          Message := "\x7b\"HTTPStatus\":200,\"RequestID\":\"spoofed\",\"RawBody\":\"aGk=\"\x7d" } ∧
      (apiErrorLiteral
        ⟨500, [("X-Request-Id", ["req-1"])],
          "\x7b\"HTTPStatus\":200,\"RequestID\":\"spoofed\",\"RawBody\":\"aGk=\"\x7d", none, none⟩
        "\x7b\"HTTPStatus\":200,\"RequestID\":\"spoofed\",\"RawBody\":\"aGk=\"\x7d").RequestID = "req-1" := by
  decide

/-- An array or object that would be open at a depth above `maxNestingDepth` is
a syntax error, whatever follows. -/
theorem parseValue_depth_limit (fuel depth : Nat) (rest : List Char)
    (h : depth + 1 > maxNestingDepth) :
    parseValue fuel depth ('[' :: rest) = none ∧
      parseValue fuel depth ('\x7b' :: rest) = none := by
  have h1 : skipWS ('[' :: rest) = '[' :: rest := by
    rw [skipWS, if_neg (by decide)]
  have h2 : skipWS ('\x7b' :: rest) = '\x7b' :: rest := by
    rw [skipWS, if_neg (by decide)]
  cases fuel with
  | zero => exact ⟨rfl, rfl⟩
  | succ n =>
    constructor
    · rw [parseValue, h1]
      exact if_pos h
    · rw [parseValue, h2]
      exact if_pos h

/-- A member that does not store a non-empty array into `RawBody` leaves the
array under the body as it is. -/
theorem storeField_written (body0 : List Nat) (s : unmarshalState) (kv : String × JValue)
    (h : fieldForKey kv.1 = some .RawBody → ∀ elems, kv.2 = .arr elems → elems = []) :
    (storeField body0 s kv).written = s.written := by
  unfold storeField
  split
  · rfl
  · split <;> [split; skip] <;> rfl
  · split <;> rfl
  · split <;> rfl
  · split <;> rfl
  · split <;> rfl
  · next hf =>
    split
    · rfl
    · split <;> rfl
    · rfl
    · next v vs hv => exact absurd (h hf _ hv) (List.cons_ne_nil _ _)
    · rfl

theorem foldl_storeField_written (body0 : List Nat) (members : List (String × JValue)) :
    ∀ s : unmarshalState,
      (∀ kv ∈ members, fieldForKey kv.1 = some .RawBody →
        ∀ elems, kv.2 = .arr elems → elems = []) →
      (members.foldl (storeField body0) s).written = s.written := by
  induction members with
  | nil => intro s _; rfl
  | cons kv rest ih =>
    intro s h
    rw [List.foldl_cons, ih _ (fun kv1 h1 => h kv1 (List.mem_cons_of_mem _ h1)),
      storeField_written _ _ _ (h kv (List.mem_cons_self _ _))]

/-- The decoder writes into the array under the body only for a member that
selects `RawBody` and holds a non-empty array. -/
theorem unmarshalBody_written (body : String) (e : APIError)
    (h : ∀ members, parseJSON body = some (.obj members) →
      ∀ kv ∈ members, fieldForKey kv.1 = some .RawBody →
        ∀ elems, kv.2 = .arr elems → elems = []) :
    (unmarshalBody body e).written = none := by
  unfold unmarshalBody
  split
  · next members hp => rw [foldl_storeField_written _ _ _ (h members hp)]
  · rfl

/-- What holds of the message on every input. Let `d` be the struct after the
best-effort decoding of the body. If `d.Code` and `d.Message` are both empty,
the message is the trimmed text of the body as the decoder left it; otherwise
it is exactly `d.Message`. A body that is not JSON, and a JSON object none of
whose members stores a non-empty array into `RawBody`, is left as it was
received, so there the first case yields the trimmed body. -/
theorem apiErrorFromResponse_message_cases (resp : Response) (body : String) :
    ((unmarshalAPIError body (apiErrorLiteral resp body)).Code = "" ∧
        (unmarshalAPIError body (apiErrorLiteral resp body)).Message = "" →
      (apiErrorFromResponse resp body).Message
        = TrimSpace (bodyTextAfter body (unmarshalBody body (apiErrorLiteral resp body)))) ∧
    (¬ ((unmarshalAPIError body (apiErrorLiteral resp body)).Code = "" ∧
        (unmarshalAPIError body (apiErrorLiteral resp body)).Message = "") →
      (apiErrorFromResponse resp body).Message
        = (unmarshalAPIError body (apiErrorLiteral resp body)).Message) ∧
    (parseJSON body = none → (apiErrorFromResponse resp body).Message = TrimSpace body) ∧
    ((∀ members, parseJSON body = some (.obj members) →
        ∀ kv ∈ members, fieldForKey kv.1 = some .RawBody →
          ∀ elems, kv.2 = .arr elems → elems = []) →
      (unmarshalAPIError body (apiErrorLiteral resp body)).Code = "" ∧
        (unmarshalAPIError body (apiErrorLiteral resp body)).Message = "" →
      (apiErrorFromResponse resp body).Message = TrimSpace body) := by
  have h1 : (unmarshalAPIError body (apiErrorLiteral resp body)).Code = "" ∧
        (unmarshalAPIError body (apiErrorLiteral resp body)).Message = "" →
      (apiErrorFromResponse resp body).Message
        = TrimSpace (bodyTextAfter body (unmarshalBody body (apiErrorLiteral resp body))) := by
    intro h
    simp only [unmarshalAPIError] at h
    simp only [apiErrorFromResponse]
    rw [if_pos h]
  refine ⟨h1, ?_, ?_, ?_⟩
  · intro h
    simp only [unmarshalAPIError] at h
    simp only [apiErrorFromResponse, unmarshalAPIError]
    rw [if_neg h]
  · intro h
    simp [apiErrorFromResponse, unmarshalBody, bodyTextAfter, h, apiErrorLiteral]
  · intro h hd
    rw [h1 hd, bodyTextAfter, unmarshalBody_written body _ h]

/-- C9 (failing input): the error body `{"RawBody":[65,66]}` decodes with `Code`
and `Message` empty and has no white space around it, so the message should be
the body itself. The decoder stores the array through `RawBody` into the first
two bytes of the buffer that holds the body, and the message is read from that
buffer afterwards: it starts with `AB` where the body starts with a brace and a
quote. A body with plain text is not touched. -/
theorem apiErrorFromResponse_message_reads_written_body :
    (unmarshalAPIError "\x7b\"RawBody\":[65,66]\x7d"
        (apiErrorLiteral ⟨500, [], "", none, none⟩ "\x7b\"RawBody\":[65,66]\x7d")).Code = "" ∧
      (unmarshalAPIError "\x7b\"RawBody\":[65,66]\x7d"
        (apiErrorLiteral ⟨500, [], "", none, none⟩ "\x7b\"RawBody\":[65,66]\x7d")).Message = "" ∧
      TrimSpace "\x7b\"RawBody\":[65,66]\x7d" = "\x7b\"RawBody\":[65,66]\x7d" ∧
      (apiErrorFromResponse ⟨500, [], "", none, none⟩ "\x7b\"RawBody\":[65,66]\x7d").Message
        = "ABRawBody\":[65,66]\x7d" ∧
      (apiErrorFromResponse ⟨500, [], "", none, none⟩ "\x7b\"RawBody\":[65,66]\x7d").RawBody
        = [65, 66] ∧
      (apiErrorFromResponse ⟨502, [], "", none, none⟩ "  bad gateway\r\n").Message
        = "bad gateway" := by
  decide

/-! ### Query construction -/

theorem mem_keys_Set (v : Values) (key value k : String) :
    k ∈ (v.Set key value).keys ↔ k = key ∨ k ∈ v.keys := by
  simp only [Values.keys, Values.Set, List.mem_dedup, List.map_cons, List.mem_cons, List.mem_map,
    List.mem_filter, Prod.exists, exists_and_right, exists_eq_right]
  constructor
  · rintro (h | ⟨x, hx, _⟩)
    · exact Or.inl h
    · exact Or.inr ⟨x, hx⟩
  · rintro (h | ⟨x, hx⟩)
    · exact Or.inl h
    · by_cases hk : k = key
      · exact Or.inl hk
      · exact Or.inr ⟨x, hx, by simpa using hk⟩

theorem keys_addString {v : Values} {key value k : String}
    (h : k ∈ (addString v key value).keys) : (k = key ∧ value ≠ "") ∨ k ∈ v.keys := by
  unfold addString at h
  split at h
  · next hv =>
    rcases (mem_keys_Set _ _ _ _).mp h with h1 | h1
    · exact Or.inl ⟨h1, hv⟩
    · exact Or.inr h1
  · exact Or.inr h

theorem keys_addCSV {v : Values} {key k : String} {items : List String}
    (h : k ∈ (addCSV v key items).keys) : (k = key ∧ items ≠ []) ∨ k ∈ v.keys := by
  unfold addCSV at h
  split at h
  · next hv =>
    rcases (mem_keys_Set _ _ _ _).mp h with h1 | h1
    · refine Or.inl ⟨h1, ?_⟩
      intro hnil
      rw [hnil] at hv
      exact absurd hv (by decide)
    · exact Or.inr h1
  · exact Or.inr h

theorem keys_addInt {v : Values} {key k : String} {n : Option Int}
    (h : k ∈ (addInt v key n).keys) : (k = key ∧ n ≠ none) ∨ k ∈ v.keys := by
  cases n with
  | none => exact Or.inr h
  | some n =>
    rcases (mem_keys_Set _ _ _ _).mp h with h1 | h1
    · exact Or.inl ⟨h1, fun hn => Option.noConfusion hn⟩
    · exact Or.inr h1

theorem keys_addBool {v : Values} {key k : String} {b : Option Bool}
    (h : k ∈ (addBool v key b).keys) : (k = key ∧ b ≠ none) ∨ k ∈ v.keys := by
  cases b with
  | none => exact Or.inr h
  | some b =>
    rcases (mem_keys_Set _ _ _ _).mp h with h1 | h1
    · exact Or.inl ⟨h1, fun hn => Option.noConfusion hn⟩
    · exact Or.inr h1

/-- Every key of the query of a `ResourceGetRequest` belongs to a field that is
not omitted. -/
theorem keys_resourceQuery (req : ResourceGetRequest) (k : String)
    (h : k ∈ (resourceQuery req).keys) :
    (k = "path" ∧ req.Path ≠ "") ∨ (k = "fields" ∧ req.Fields ≠ []) ∨
      (k = "limit" ∧ req.Limit ≠ none) ∨ (k = "offset" ∧ req.Offset ≠ none) ∨
      (k = "preview_crop" ∧ req.PreviewCrop ≠ none) ∨
      (k = "preview_size" ∧ req.PreviewSize ≠ "") ∨ (k = "sort" ∧ req.Sort_ ≠ "") := by
  simp only [resourceQuery] at h
  rcases keys_addString h with h1 | h
  · exact Or.inr (Or.inr (Or.inr (Or.inr (Or.inr (Or.inr h1)))))
  rcases keys_addString h with h1 | h
  · exact Or.inr (Or.inr (Or.inr (Or.inr (Or.inr (Or.inl h1)))))
  rcases keys_addBool h with h1 | h
  · exact Or.inr (Or.inr (Or.inr (Or.inr (Or.inl h1))))
  rcases keys_addInt h with h1 | h
  · exact Or.inr (Or.inr (Or.inr (Or.inl h1)))
  rcases keys_addInt h with h1 | h
  · exact Or.inr (Or.inr (Or.inl h1))
  rcases keys_addCSV h with h1 | h
  · exact Or.inr (Or.inl h1)
  rcases keys_addString h with h1 | h
  · exact Or.inl h1
  · simp [Values.keys] at h

/-- C10: an omitted optional value leaves the query unchanged, for every map
and key: `addString` with the empty string, `addCSV` with an empty slice,
`addInt` and `addBool` with a nil pointer, `addInt64` with 0; so the encoded
query is unchanged too, every key of the query of a `ResourceGetRequest`
belongs to a field that is not omitted, and `ResourceGetRequest{Path:
"disk:/a"}` encodes to exactly `path=disk%3A%2Fa`. A non-nil pointer to `0` or
to `false` is stored and encoded. -/
theorem omitted_fields_leave_query_unchanged (v : Values) (k : String)
    (req : ResourceGetRequest) :
    addString v k "" = v ∧ addCSV v k [] = v ∧ addInt v k none = v ∧
      addBool v k none = v ∧ addInt64 v k 0 = v ∧
      (addString v k "").Encode = v.Encode ∧ (addCSV v k []).Encode = v.Encode ∧
      (addInt v k none).Encode = v.Encode ∧ (addBool v k none).Encode = v.Encode ∧
      (addInt64 v k 0).Encode = v.Encode ∧
      (∀ key ∈ (resourceQuery req).keys,
        (key = "path" ∧ req.Path ≠ "") ∨ (key = "fields" ∧ req.Fields ≠ []) ∨
        (key = "limit" ∧ req.Limit ≠ none) ∨ (key = "offset" ∧ req.Offset ≠ none) ∨
        (key = "preview_crop" ∧ req.PreviewCrop ≠ none) ∨
        (key = "preview_size" ∧ req.PreviewSize ≠ "") ∨ (key = "sort" ∧ req.Sort_ ≠ "")) ∧
      (resourceQuery { Path := "disk:/a" }).Encode = "path=disk%3A%2Fa" ∧
      (addInt v k (some 0)).lookupAll k = ["0"] ∧
      (addBool v k (some false)).lookupAll k = ["false"] ∧
      (resourceQuery { Path := "disk:/a", Limit := some 0 }).Encode
        = "limit=0&path=disk%3A%2Fa" ∧
      (resourceQuery { Path := "disk:/a", PreviewCrop := some false }).Encode
        = "path=disk%3A%2Fa&preview_crop=false" := by
  have h1 : addString v k "" = v := by simp [addString]
  have h2 : addCSV v k [] = v := by simp [addCSV]
  have h3 : addInt v k none = v := rfl
  have h4 : addBool v k none = v := rfl
  have h5 : addInt64 v k 0 = v := by simp [addInt64]
  refine ⟨h1, h2, h3, h4, h5, by rw [h1], by rw [h2], by rw [h3], by rw [h4], by rw [h5],
    keys_resourceQuery req, by decide, ?_, ?_, by decide, by decide⟩
  · simp [addInt, Values.Set, Values.lookupAll, List.lookup, itoa]
    decide
  · simp [addBool, Values.Set, Values.lookupAll, List.lookup, formatBool]

/-! ### The retry loop -/

theorem attemptCount_append (a b : List Event) :
    attemptCount (a ++ b) = attemptCount a + attemptCount b := by
  induction a with
  | nil => simp [attemptCount]
  | cons e a ih => cases e <;> simp [attemptCount, ih] <;> omega

theorem retryCount_append (a b : List Event) :
    retryCount (a ++ b) = retryCount a + retryCount b := by
  induction a with
  | nil => simp [retryCount]
  | cons e a ih => cases e <;> simp [retryCount, ih] <;> omega

theorem sleepCount_append (a b : List Event) :
    sleepCount (a ++ b) = sleepCount a + sleepCount b := by
  induction a with
  | nil => simp [sleepCount]
  | cons e a ih => cases e <;> simp [sleepCount, ih] <;> omega

theorem doJSONLoop_retry_step (c : Client) (w : World) (method : String)
    (out : Option (String → Option String)) (expected : List Int) (attempts : Int)
    (fuel : Nat) (attempt : Int) (lastErr : Option GoError) (tr : List Event) (url : String)
    (hidem : isIdempotentMethod method = true) (hurl : w.newRequest = .inr url)
    (hlt : attempt < attempts) (hclean : cleanRetry w attempt) (hsleep : w.sleep attempt = none)
    (hlo : -2 ^ 63 ≤ attempt + 1) (hhi : attempt + 1 < 2 ^ 63) :
    ∃ tr1, doJSONLoop c w method out expected attempts (fuel + 1) attempt lastErr tr
        = doJSONLoop c w method out expected attempts fuel (attempt + 1) lastErr tr1 ∧
      attemptCount tr1 = attemptCount tr + 1 ∧ sleepCount tr1 = sleepCount tr + 1 ∧
      retryCount tr1 = retryCount tr + (if c.hooks.OnRetry = true then 1 else 0) := by
  obtain ⟨r, hdo, hret, hread, hclose⟩ := hclean
  have hcond : (retryableStatus r.StatusCode = true ∧ attempt < attempts ∧
      isIdempotentMethod method = true) := ⟨hret, hlt, hidem⟩
  refine ⟨traceAfterRetry c url method attempt r.StatusCode
    (c.backoff (w.fl attempt) attempt) tr, ?_, ?_, ?_, ?_⟩
  · simp only [doJSONLoop, if_pos (le_of_lt hlt), hurl, hdo, if_pos hcond, hread, hclose, hsleep,
      wrap64_of_range _ hlo hhi, traceAfterRetry]
  · by_cases h1 : c.hooks.OnRequest = true <;> by_cases h2 : c.hooks.OnResponse = true <;>
      by_cases h3 : c.hooks.OnRetry = true <;>
      simp [traceAfterRetry, h1, h2, h3, attemptCount_append, attemptCount]
  · by_cases h1 : c.hooks.OnRequest = true <;> by_cases h2 : c.hooks.OnResponse = true <;>
      by_cases h3 : c.hooks.OnRetry = true <;>
      simp [traceAfterRetry, h1, h2, h3, sleepCount_append, sleepCount]
  · by_cases h1 : c.hooks.OnRequest = true <;> by_cases h2 : c.hooks.OnResponse = true <;>
      by_cases h3 : c.hooks.OnRetry = true <;>
      simp [traceAfterRetry, h1, h2, h3, retryCount_append, retryCount]

theorem doJSONLoop_final (c : Client) (w : World) (method : String)
    (out : Option (String → Option String)) (expected : List Int) (attempts : Int)
    (fuel : Nat) (attempt : Int) (lastErr : Option GoError) (tr : List Event) (url : String)
    (r : Response) (hurl : w.newRequest = .inr url) (hle : attempt ≤ attempts)
    (hdo : w.httpDo attempt = .ok r)
    (hfin : ¬ (retryableStatus r.StatusCode = true ∧ attempt < attempts ∧
      isIdempotentMethod method = true)) :
    ∃ tr1, doJSONLoop c w method out expected attempts (fuel + 1) attempt lastErr tr
        = some ⟨some r, decodeResponse r out expected, tr1⟩ ∧
      attemptCount tr1 = attemptCount tr + 1 ∧ sleepCount tr1 = sleepCount tr ∧
      retryCount tr1 = retryCount tr := by
  refine ⟨traceAfterResponse c url attempt r.StatusCode tr, ?_, ?_, ?_, ?_⟩
  · simp only [doJSONLoop, if_pos hle, hurl, hdo, if_neg hfin, traceAfterResponse]
    cases hdec : decodeResponse r out expected <;> rfl
  · by_cases h1 : c.hooks.OnRequest = true <;> by_cases h2 : c.hooks.OnResponse = true <;>
      simp [traceAfterResponse, h1, h2, attemptCount_append, attemptCount]
  · by_cases h1 : c.hooks.OnRequest = true <;> by_cases h2 : c.hooks.OnResponse = true <;>
      simp [traceAfterResponse, h1, h2, sleepCount_append, sleepCount]
  · by_cases h1 : c.hooks.OnRequest = true <;> by_cases h2 : c.hooks.OnResponse = true <;>
      simp [traceAfterResponse, h1, h2, retryCount_append, retryCount]

theorem doJSONLoop_run (c : Client) (w : World) (method : String)
    (out : Option (String → Option String)) (expected : List Int) (attempts : Int)
    (url : String) (r : Response)
    (hidem : isIdempotentMethod method = true) (hurl : w.newRequest = .inr url)
    (hatt : attempts < 2 ^ 63) :
    ∀ (n : Nat) (attempt : Int) (fuel : Nat) (lastErr : Option GoError) (tr : List Event),
      n < fuel → 1 ≤ attempt → attempt + n ≤ attempts →
      (∀ i, attempt ≤ i → i < attempt + n → cleanRetry w i ∧ w.sleep i = none) →
      w.httpDo (attempt + n) = .ok r →
      (retryableStatus r.StatusCode = false ∨ attempt + n = attempts) →
      ∃ tr1, doJSONLoop c w method out expected attempts fuel attempt lastErr tr
          = some ⟨some r, decodeResponse r out expected, tr1⟩ ∧
        attemptCount tr1 = attemptCount tr + n + 1 ∧ sleepCount tr1 = sleepCount tr + n ∧
        retryCount tr1 = retryCount tr + (if c.hooks.OnRetry = true then n else 0) := by
  intro n
  induction n with
  | zero =>
    intro attempt fuel lastErr tr hfuel _ hle _ hdo hfin
    obtain ⟨f, rfl⟩ : ∃ f, fuel = f + 1 := ⟨fuel - 1, by omega⟩
    simp only [Nat.cast_zero, add_zero] at hle hdo hfin
    have hnot : ¬ (retryableStatus r.StatusCode = true ∧ attempt < attempts ∧
        isIdempotentMethod method = true) := by
      rintro ⟨h1, h2, _⟩
      rcases hfin with h | h
      · rw [h] at h1
        exact Bool.noConfusion h1
      · omega
    obtain ⟨tr1, h1, h2, h3, h4⟩ :=
      doJSONLoop_final c w method out expected attempts f attempt lastErr tr url r hurl hle hdo hnot
    exact ⟨tr1, h1, by simpa using h2, by simpa using h3, by simpa using h4⟩
  | succ n ih =>
    intro attempt fuel lastErr tr hfuel h1 hle hclean hdo hfin
    obtain ⟨f, rfl⟩ : ∃ f, fuel = f + 1 := ⟨fuel - 1, by omega⟩
    have hcast : ((n + 1 : Nat) : Int) = (n : Int) + 1 := by push_cast; ring
    rw [hcast] at hle hdo hfin
    have hstep := hclean attempt le_rfl (by rw [hcast]; omega)
    obtain ⟨tr1, e1, a1, s1, q1⟩ :=
      doJSONLoop_retry_step c w method out expected attempts f attempt lastErr tr url hidem hurl
        (by omega) hstep.1 hstep.2 (by omega) (by omega)
    have hdo2 : w.httpDo (attempt + 1 + (n : Int)) = .ok r := by
      rw [show attempt + 1 + (n : Int) = attempt + ((n : Int) + 1) by ring]
      exact hdo
    obtain ⟨tr2, e2, a2, s2, q2⟩ := ih (attempt + 1) f lastErr tr1 (by omega) (by omega)
      (by omega) (fun i hi1 hi2 => hclean i (by omega) (by rw [hcast]; omega)) hdo2
      (by rcases hfin with h | h
          · exact Or.inl h
          · exact Or.inr (by omega))
    refine ⟨tr2, by rw [e1, e2], by omega, by omega, ?_⟩
    rw [q2, q1]
    by_cases h3 : c.hooks.OnRetry = true <;> simp [h3]
    omega

theorem doJSON_eq_loop (c : Client) (w : World) (method : String)
    (payload : Option (GoError ⊕ String)) (out : Option (String → Option String))
    (expected : List Int) (hpayload : ∀ err, payload ≠ some (.inl err))
    (hR0 : 0 ≤ c.retry.MaxRetries) (hR1 : c.retry.MaxRetries < 2 ^ 63 - 1) :
    doJSON c w method payload out expected
      = doJSONLoop c w method out expected (c.retry.MaxRetries + 1)
          ((c.retry.MaxRetries + 1).toNat + 1) 1 none [] := by
  have hw : wrap64 (c.retry.MaxRetries + 1) = c.retry.MaxRetries + 1 :=
    wrap64_of_range _ (by omega) (by omega)
  have hge : ¬ c.retry.MaxRetries + 1 < 1 := by omega
  unfold doJSON
  cases payload with
  | none => simp only [hw, if_neg hge]
  | some p =>
    cases p with
    | inl err => exact absurd rfl (hpayload err)
    | inr b => simp only [hw, if_neg hge]

/-- When every attempt of an idempotent request up to the last allowed one is
answered by a retryable status, `doJSON` makes `MaxRetries + 1` attempts and
returns the decoding of the last response. -/
theorem doJSON_retries_exhausted (c : Client) (w : World) (method : String)
    (payload : Option (GoError ⊕ String)) (out : Option (String → Option String))
    (expected : List Int) (url : String)
    (hidem : isIdempotentMethod method = true)
    (hR0 : 0 ≤ c.retry.MaxRetries) (hR1 : c.retry.MaxRetries < 2 ^ 63 - 1)
    (hpayload : ∀ err, payload ≠ some (.inl err)) (hurl : w.newRequest = .inr url)
    (hall : ∀ i : Int, 1 ≤ i → i ≤ c.retry.MaxRetries + 1 → cleanRetry w i)
    (hsleep : ∀ i : Int, 1 ≤ i → i ≤ c.retry.MaxRetries → w.sleep i = none) :
    ∃ res r, doJSON c w method payload out expected = some res ∧
      w.httpDo (c.retry.MaxRetries + 1) = .ok r ∧
      res.resp = some r ∧ res.err = decodeResponse r out expected ∧
      attemptCount res.trace = c.retry.MaxRetries.toNat + 1 ∧
      sleepCount res.trace = c.retry.MaxRetries.toNat ∧
      retryCount res.trace = (if c.hooks.OnRetry = true then c.retry.MaxRetries.toNat else 0) := by
  obtain ⟨r, hdo, -, -, -⟩ := hall (c.retry.MaxRetries + 1) (by omega) le_rfl
  have hcast : ((c.retry.MaxRetries.toNat : Nat) : Int) = c.retry.MaxRetries :=
    Int.toNat_of_nonneg hR0
  obtain ⟨tr1, h1, h2, h3, h4⟩ :=
    doJSONLoop_run c w method out expected (c.retry.MaxRetries + 1) url r hidem hurl (by omega)
      c.retry.MaxRetries.toNat 1 ((c.retry.MaxRetries + 1).toNat + 1) none []
      (by omega) le_rfl (by omega)
      (fun i hi1 hi2 => ⟨hall i hi1 (by omega), hsleep i hi1 (by omega)⟩)
      (by rw [hcast, add_comm]; exact hdo) (Or.inr (by omega))
  refine ⟨_, r, (doJSON_eq_loop c w method payload out expected hpayload hR0 hR1).trans h1,
    hdo, rfl, rfl, ?_, ?_, ?_⟩
  · simpa [attemptCount] using h2
  · simpa [sleepCount] using h3
  · simpa [retryCount] using h4

/-- C2: for a method that is not idempotent, whatever the retry policy and
whatever the first outcome, `doJSON` calls `httpClient.Do` exactly once, never
sleeps and never calls `OnRetry`; it returns the decoding of the first response
(an error when the status is not acceptable), or the transport error when the
round trip fails. -/
theorem doJSON_non_idempotent_single_attempt (c : Client) (w : World) (method : String)
    (payload : Option (GoError ⊕ String)) (out : Option (String → Option String))
    (expected : List Int) (url : String)
    (hmethod : isIdempotentMethod method = false)
    (hpayload : ∀ err, payload ≠ some (.inl err)) (hurl : w.newRequest = .inr url) :
    ∃ res, doJSON c w method payload out expected = some res ∧
      attemptCount res.trace = 1 ∧ sleepCount res.trace = 0 ∧ retryCount res.trace = 0 ∧
      (∀ r, w.httpDo 1 = .ok r → res.resp = some r ∧ res.err = decodeResponse r out expected) ∧
      (∀ err resp, w.httpDo 1 = .fail err resp → res.resp = none ∧ res.err = some err) := by
  have hloop : ∀ attempts : Int, 1 ≤ attempts →
      ∃ res, doJSONLoop c w method out expected attempts (attempts.toNat + 1) 1 none [] = some res ∧
        attemptCount res.trace = 1 ∧ sleepCount res.trace = 0 ∧ retryCount res.trace = 0 ∧
        (∀ r, w.httpDo 1 = .ok r → res.resp = some r ∧ res.err = decodeResponse r out expected) ∧
        (∀ err resp, w.httpDo 1 = .fail err resp → res.resp = none ∧ res.err = some err) := by
    intro attempts hatt
    cases hdo : w.httpDo 1 with
    | ok r =>
      have hfin : ¬ (retryableStatus r.StatusCode = true ∧ (1 : Int) < attempts ∧
          isIdempotentMethod method = true) := by
        rw [hmethod]
        simp
      obtain ⟨tr1, h1, h2, h3, h4⟩ :=
        doJSONLoop_final c w method out expected attempts attempts.toNat 1 none [] url r hurl
          hatt hdo hfin
      refine ⟨_, h1, by simpa [attemptCount] using h2, by simpa [sleepCount] using h3,
        by simpa [retryCount] using h4, ?_, ?_⟩
      · intro r1 hr1
        cases hr1
        exact ⟨rfl, rfl⟩
      · intro err resp h
        cases h
    | fail err resp =>
      have hno : ¬ ((1 : Int) < attempts ∧ isIdempotentMethod method = true) := by
        rw [hmethod]
        simp
      refine ⟨⟨none, some err, traceAfterFailure c url 1 resp []⟩, ?_, ?_, ?_, ?_, ?_, ?_⟩
      · simp only [doJSONLoop, if_pos hatt, hurl, hdo, if_neg hno, traceAfterFailure]
      · cases resp <;> by_cases h1 : c.hooks.OnRequest = true <;>
          by_cases h2 : c.hooks.OnResponse = true <;>
          simp [traceAfterFailure, h1, h2, attemptCount_append, attemptCount]
      · cases resp <;> by_cases h1 : c.hooks.OnRequest = true <;>
          by_cases h2 : c.hooks.OnResponse = true <;>
          simp [traceAfterFailure, h1, h2, sleepCount_append, sleepCount]
      · cases resp <;> by_cases h1 : c.hooks.OnRequest = true <;>
          by_cases h2 : c.hooks.OnResponse = true <;>
          simp [traceAfterFailure, h1, h2, retryCount_append, retryCount]
      · intro r h
        cases h
      · intro err1 resp1 h
        cases h
        exact ⟨rfl, rfl⟩
  unfold doJSON
  cases payload with
  | none =>
    simp only
    exact hloop _ (by split <;> omega)
  | some p =>
    cases p with
    | inl err => exact absurd rfl (hpayload err)
    | inr b =>
      simp only
      exact hloop _ (by split <;> omega)

/-- Instance of C2 at the scenario of `TestNoRetryOnPost`: a `POST` answered by
`500` under a policy of four retries makes one attempt and returns the
`*APIError` decoded from the response. -/
theorem doJSON_non_idempotent_single_attempt_witness :
    ∃ res, doJSON retryOnGetClient noRetryOnPostWorld "POST" none none [201, 202] = some res ∧
      attemptCount res.trace = 1 ∧ sleepCount res.trace = 0 ∧ retryCount res.trace = 0 ∧
      res.err = decodeResponse ⟨500, [], "\x7b\"error\":\"InternalError\"\x7d", none, none⟩ none
        [201, 202] := by
  obtain ⟨res, h1, h2, h3, h4, h5, _⟩ :=
    doJSON_non_idempotent_single_attempt retryOnGetClient noRetryOnPostWorld "POST" none none
      [201, 202] "https://cloud-api.yandex.net/v1/disk/resources/copy" (by decide)
      (fun err h => Option.noConfusion h) rfl
  exact ⟨res, h1, h2, h3, h4, (h5 _ rfl).2⟩

theorem decodeResponse_success (r : Response) (out : Option (String → Option String))
    (expected : List Int) (hread : r.readErr = none) (hclose : r.closeErr = none)
    (hmem : r.StatusCode ∈ expected)
    (hout : ∀ f, out = some f → r.Body.length = 0 ∨ f r.Body = none) :
    decodeResponse r out expected = none := by
  have hst : statusExpected r.StatusCode expected = true := (statusExpected_iff _ _).mpr hmem
  have hlen : expected.length ≠ 0 := by
    intro h
    rw [List.length_eq_zero.mp h] at hmem
    exact List.not_mem_nil _ hmem
  unfold decodeResponse
  simp only [hread, hclose, hst, hlen]
  simp only [Bool.true_eq_false, and_false, false_and, or_self, if_false]
  cases out with
  | none => rfl
  | some f =>
    rcases hout f rfl with h | h
    · simp [h]
    · simp [h]

/-- C3 (counterexample): `WithRetryPolicy` accepts `MaxRetries = 2^63 - 1`, the
largest `int`. There `MaxRetries + 1` wraps to `-2^63`, the number of attempts
is raised to one, and in the scenario of `TestRetryOnGet` (two `500` responses,
then `200`) `doJSON` makes a single attempt, does not sleep and returns the
error of the first `500`, where `min(2, R) + 1 = 3` attempts and the decoding of
the third response are claimed. -/
theorem doJSON_max_int_retries_single_attempt :
    WithRetryPolicy ⟨2 ^ 63 - 1, 1000000, 5000000, 0⟩ = none ∧
      (doJSON ⟨⟨2 ^ 63 - 1, 1000000, 5000000, 0⟩, ⟨false, false, false, false⟩⟩ retryOnGetWorld
          "GET" none none [200]).map
          (fun res => (attemptCount res.trace, sleepCount res.trace,
            res.resp.map fun r => r.StatusCode, res.err.isSome))
        = some (1, 0, some 500, true) := by
  decide

/-- C3 (amended): for an idempotent method and a policy with `MaxRetries = R`,
`0 ≤ R < 2^63 - 1` (so that `R + 1` is representable), when the first `k` responses have a retryable status
(their bodies drained and closed cleanly, no back-off sleep interrupted) and
response `k + 1` has a status that is not retryable, `doJSON` makes exactly
`min k R + 1` attempts and sleeps `min k R` times; when `k ≤ R` it returns
response `k + 1` together with its decoding, which is success when the status
is expected, the body is read and closed cleanly and the sink accepts it. -/
theorem doJSON_retry_then_response (c : Client) (w : World) (method : String)
    (payload : Option (GoError ⊕ String)) (out : Option (String → Option String))
    (expected : List Int) (url : String) (k : Nat) (r : Response)
    (hidem : isIdempotentMethod method = true)
    (hR0 : 0 ≤ c.retry.MaxRetries) (hR1 : c.retry.MaxRetries < 2 ^ 63 - 1)
    (hpayload : ∀ err, payload ≠ some (.inl err)) (hurl : w.newRequest = .inr url)
    (hretry : ∀ i : Int, 1 ≤ i → i ≤ k → cleanRetry w i)
    (hsleep : ∀ i : Int, 1 ≤ i → i ≤ k → w.sleep i = none)
    (hlast : w.httpDo ((k : Int) + 1) = .ok r) (hnon : retryableStatus r.StatusCode = false) :
    ∃ res, doJSON c w method payload out expected = some res ∧
      attemptCount res.trace = min k c.retry.MaxRetries.toNat + 1 ∧
      sleepCount res.trace = min k c.retry.MaxRetries.toNat ∧
      ((k : Int) ≤ c.retry.MaxRetries →
        res.resp = some r ∧ res.err = decodeResponse r out expected) ∧
      ((k : Int) ≤ c.retry.MaxRetries → r.readErr = none → r.closeErr = none →
        r.StatusCode ∈ expected →
        (∀ f, out = some f → r.Body.length = 0 ∨ f r.Body = none) → res.err = none) := by
  have hcast : ((c.retry.MaxRetries.toNat : Nat) : Int) = c.retry.MaxRetries :=
    Int.toNat_of_nonneg hR0
  by_cases hk : (k : Int) ≤ c.retry.MaxRetries
  · obtain ⟨tr1, h1, h2, h3, -⟩ :=
      doJSONLoop_run c w method out expected (c.retry.MaxRetries + 1) url r hidem hurl (by omega)
        k 1 ((c.retry.MaxRetries + 1).toNat + 1) none []
        (by omega) le_rfl (by omega)
        (fun i hi1 hi2 => ⟨hretry i hi1 (by omega), hsleep i hi1 (by omega)⟩)
        (by rw [add_comm]; exact hlast) (Or.inl hnon)
    have hmin : min k c.retry.MaxRetries.toNat = k := min_eq_left (by omega)
    refine ⟨_, (doJSON_eq_loop c w method payload out expected hpayload hR0 hR1).trans h1,
      ?_, ?_, fun _ => ⟨rfl, rfl⟩, ?_⟩
    · rw [hmin]
      simpa [attemptCount] using h2
    · rw [hmin]
      simpa [sleepCount] using h3
    · intro _ hread hclose hmem hout
      exact decodeResponse_success r out expected hread hclose hmem hout
  · obtain ⟨res, r1, h1, -, -, -, h2, h3, -⟩ :=
      doJSON_retries_exhausted c w method payload out expected url hidem hR0 hR1 hpayload hurl
        (fun i hi1 hi2 => hretry i hi1 (by omega)) (fun i hi1 hi2 => hsleep i hi1 (by omega))
    have hmin : min k c.retry.MaxRetries.toNat = c.retry.MaxRetries.toNat :=
      min_eq_right (by omega)
    exact ⟨res, h1, by rw [hmin]; exact h2, by rw [hmin]; exact h3,
      fun h => absurd h hk, fun h => absurd h hk⟩

/-- Instance of C3 at the scenario of `TestRetryOnGet`: two `500` responses,
then `200` with body `{}`, under four retries: success after exactly three
attempts. -/
theorem doJSON_retry_then_response_witness :
    ∃ res, doJSON retryOnGetClient retryOnGetWorld "GET" none (some fun _ => none) [200]
        = some res ∧
      attemptCount res.trace = 3 ∧ sleepCount res.trace = 2 ∧
      res.resp = some ⟨200, [], "\x7b\x7d", none, none⟩ ∧ res.err = none := by
  obtain ⟨res, h1, h2, h3, h4, h5⟩ :=
    doJSON_retry_then_response retryOnGetClient retryOnGetWorld "GET" none
      (some fun _ => none) [200] "https://cloud-api.yandex.net/v1/disk" 2
      ⟨200, [], "\x7b\x7d", none, none⟩ (by decide) (by decide) (by decide)
      (fun err h => Option.noConfusion h) rfl
      (fun i hi1 hi2 =>
        ⟨⟨500, [], "\x7b\"error\":\"InternalError\"\x7d", none, none⟩,
          by
            have hi3 : i < 3 := by
              have : ((2 : Nat) : Int) = 2 := rfl
              omega
            simp [retryOnGetWorld, hi3],
          by decide, rfl, rfl⟩)
      (fun _ _ _ => rfl) (by decide) (by decide)
  exact ⟨res, h1, h2, h3, (h4 (by decide)).1,
    h5 (by decide) rfl rfl (by decide) (fun f hf => Or.inr (by cases hf; rfl))⟩

/-- When every attempt of a `GET` is answered by status `500` and `500` is not
expected, `doJSON` makes `MaxRetries + 1` attempts and returns the `*APIError`
that `apiErrorFromResponse` builds from the last response. -/
theorem doJSON_all_500_exhausts (c : Client) (w : World)
    (payload : Option (GoError ⊕ String)) (out : Option (String → Option String))
    (expected : List Int) (url : String)
    (hR0 : 0 ≤ c.retry.MaxRetries) (hR1 : c.retry.MaxRetries < 2 ^ 63 - 1)
    (hpayload : ∀ err, payload ≠ some (.inl err)) (hurl : w.newRequest = .inr url)
    (hexp : (500 : Int) ∉ expected)
    (hall : ∀ i : Int, 1 ≤ i → i ≤ c.retry.MaxRetries + 1 →
      ∃ r, w.httpDo i = .ok r ∧ r.StatusCode = 500 ∧ r.readErr = none ∧ r.closeErr = none)
    (hsleep : ∀ i : Int, 1 ≤ i → i ≤ c.retry.MaxRetries → w.sleep i = none) :
    ∃ res r, doJSON c w "GET" payload out expected = some res ∧
      w.httpDo (c.retry.MaxRetries + 1) = .ok r ∧
      attemptCount res.trace = c.retry.MaxRetries.toNat + 1 ∧
      res.err = some (.api (apiErrorFromResponse r r.Body)) := by
  obtain ⟨res, r, h1, h2, -, h4, h5, -, -⟩ :=
    doJSON_retries_exhausted c w "GET" payload out expected url (by decide) hR0 hR1 hpayload hurl
      (fun i hi1 hi2 => by
        obtain ⟨r, e1, e2, e3, e4⟩ := hall i hi1 hi2
        exact ⟨r, e1, by rw [e2]; decide, e3, e4⟩) hsleep
  obtain ⟨r1, e1, e2, e3, e4⟩ := hall (c.retry.MaxRetries + 1) (by omega) le_rfl
  rw [h2] at e1
  cases e1
  refine ⟨res, r, h1, h2, h5, ?_⟩
  rw [h4]
  refine decodeResponse_unacceptable r out expected e3 e4 ?_
  rw [e2]
  rintro ⟨ha, hb⟩
  by_cases hnil : expected = []
  · exact absurd (hb hnil) (by decide)
  · exact hexp (ha hnil)

/-- C1 (failing input): a `GET` under a policy of one retry against a server
that answers every request with status `500` and the body
`{"HTTPStatus":200}`. `doJSON` makes the two attempts and returns an
`*APIError`, but the status it reports is the `200` of the body, not `500`. -/
theorem doJSON_all_500_reports_body_status :
    (doJSON ⟨⟨1, 1000000, 5000000, 0⟩, ⟨false, false, false, false⟩⟩ statusInBodyWorld "GET"
        none none [200]).map (fun res => (attemptCount res.trace, res.err))
      = some (2, some (.api
          { HTTPStatus := 200, Code := "", Message := "\x7b\"HTTPStatus\":200\x7d", Description := "",
            RequestID := "", RawBody := bodyBytes "\x7b\"HTTPStatus\":200\x7d" })) := by
  decide


/-! ### Terminal states and part sizes -/

/-- C18: `IsTerminal` is true exactly when the status is one of the strings
`success`, `failed`, `error`, `cancelled`; it is false for the empty string,
for `in-progress` and for a status that differs in case. -/
theorem isTerminal_iff (s : OperationStatus) :
    (s.IsTerminal = true ↔ s.Status ∈ ["success", "failed", "error", "cancelled"]) ∧
      (s.Status ∉ ["success", "failed", "error", "cancelled"] → s.IsTerminal = false) ∧
      OperationStatus.IsTerminal ⟨""⟩ = false ∧
      OperationStatus.IsTerminal ⟨"in-progress"⟩ = false ∧
      OperationStatus.IsTerminal ⟨"Success"⟩ = false := by
  have h : s.IsTerminal = true ↔ s.Status ∈ ["success", "failed", "error", "cancelled"] := by
    unfold OperationStatus.IsTerminal
    simp only [List.mem_cons, List.mem_singleton, List.not_mem_nil, or_false]
    split <;> simp_all
  refine ⟨h, ?_, by decide, by decide, by decide⟩
  intro hn
  cases hs : s.IsTerminal
  · rfl
  · exact absurd (h.mp hs) hn

/-- C14: the part size `UploadInChunks` uses is 10485760 for a configured size
`x ≤ 0`, 10000000000 for `x > 10000000000`, and `x` otherwise; it always passes
`ValidatePartSize`, and `ValidatePartSize x` succeeds exactly when the
normalisation leaves `x` unchanged. -/
theorem normalizePartSize_spec (x : Int) :
    (x ≤ 0 → normalizePartSize x = 10485760) ∧
      (x > 10000000000 → normalizePartSize x = 10000000000) ∧
      (0 < x → x ≤ 10000000000 → normalizePartSize x = x) ∧
      (0 < normalizePartSize x ∧ normalizePartSize x ≤ 10000000000) ∧
      ValidatePartSize (normalizePartSize x) = none ∧
      (ValidatePartSize x = none ↔ normalizePartSize x = x) := by
  unfold ValidatePartSize normalizePartSize maxUploadPartSize
  refine ⟨?_, ?_, ?_, ?_, ?_, ?_⟩
  · intro h
    simp only [if_pos h]
    norm_num
  · intro h
    have h0 : ¬ x ≤ 0 := by omega
    simp only [if_neg h0, if_pos h]
  · intro h1 h2
    have h0 : ¬ x ≤ 0 := by omega
    have h3 : ¬ x > 10000000000 := by omega
    simp only [if_neg h0, if_neg h3]
  · by_cases h0 : x ≤ 0
    · simp only [if_pos h0]
      norm_num
    · simp only [if_neg h0]
      split <;> omega
  · by_cases h0 : x ≤ 0
    · simp only [if_pos h0]
      norm_num
    · simp only [if_neg h0]
      by_cases h1 : x > 10000000000
      · simp only [if_pos h1]
        norm_num
      · simp only [if_neg h1, if_neg h0]
  · by_cases h0 : x ≤ 0
    · simp only [if_pos h0]
      constructor
      · intro h
        exact absurd h (by simp)
      · intro h
        norm_num at h
        omega
    · simp only [if_neg h0]
      by_cases h1 : x > 10000000000
      · simp only [if_pos h1]
        constructor
        · intro h
          exact absurd h (by simp)
        · intro h
          omega
      · simp only [if_neg h1]

/-! ### The action envelope -/

theorem stripTrailingSlashes_snoc (l : List Char) (c : Char) (hc : c ≠ '/') :
    stripTrailingSlashes (l ++ [c]) = l ++ [c] := by
  simp [stripTrailingSlashes, List.dropWhile_cons, hc]

theorem lastSegment_append (q x : List Char) (hx : ∀ c ∈ x, c ≠ '/') :
    ((q ++ '/' :: x).reverse.takeWhile (· ≠ '/')).reverse = x := by
  have h1 : (q ++ '/' :: x).reverse = x.reverse ++ ('/' :: q.reverse) := by simp
  rw [h1, List.takeWhile_append_of_pos (by
    intro a ha
    simpa using hx a (List.mem_reverse.mp ha))]
  simp

/-- The last element of a path that ends in a slash-free, non-empty segment
after a slash is that segment, with one trailing slash or without. -/
theorem pathBase_segment (q x : String) (hx : x ≠ "") (hs : ∀ c ∈ x.data, c ≠ '/') :
    pathBase (trimSuffixChar (q ++ "/" ++ x) '/') = x ∧
      pathBase (trimSuffixChar (q ++ "/" ++ x ++ "/") '/') = x := by
  obtain ⟨xd⟩ := x
  obtain ⟨qd⟩ := q
  have hxd : xd ≠ [] := fun h => hx (by rw [h])
  obtain ⟨init, c, rfl⟩ : ∃ init c, xd = init ++ [c] :=
    ⟨xd.dropLast, xd.getLast hxd, (List.dropLast_append_getLast hxd).symm⟩
  have hc : c ≠ '/' := hs c (by simp)
  have hbase : pathBase ⟨qd ++ '/' :: (init ++ [c])⟩ = ⟨init ++ [c]⟩ := by
    unfold pathBase
    have hne : (⟨qd ++ '/' :: (init ++ [c])⟩ : String) ≠ "" := by
      intro h
      have := congrArg String.data h
      simp at this
    rw [if_neg hne]
    have hstrip : stripTrailingSlashes (qd ++ '/' :: (init ++ [c])) = qd ++ '/' :: (init ++ [c]) := by
      have := stripTrailingSlashes_snoc (qd ++ '/' :: init) c hc
      simpa using this
    simp only [hstrip, lastSegment_append qd (init ++ [c]) hs]
    simp
  have e1 : (⟨qd⟩ : String) ++ "/" ++ ⟨init ++ [c]⟩ = ⟨qd ++ '/' :: (init ++ [c])⟩ := by
    apply String.ext
    simp [String.data_append]
  have e2 : (⟨qd⟩ : String) ++ "/" ++ ⟨init ++ [c]⟩ ++ "/" = ⟨(qd ++ '/' :: (init ++ [c])) ++ ['/']⟩ := by
    apply String.ext
    simp [String.data_append]
  constructor
  · rw [e1]
    have : trimSuffixChar ⟨qd ++ '/' :: (init ++ [c])⟩ '/' = ⟨qd ++ '/' :: (init ++ [c])⟩ := by
      unfold trimSuffixChar
      have hl : (qd ++ '/' :: (init ++ [c])).getLast? = some c := by
        rw [show qd ++ '/' :: (init ++ [c]) = (qd ++ '/' :: init) ++ [c] by simp]
        exact List.getLast?_concat _
      simp only [hl]
      rw [if_neg (by simpa using hc)]
    rw [this, hbase]
  · rw [e2]
    have : trimSuffixChar ⟨(qd ++ '/' :: (init ++ [c])) ++ ['/']⟩ '/' = ⟨qd ++ '/' :: (init ++ [c])⟩ := by
      unfold trimSuffixChar
      have hl : ((qd ++ '/' :: (init ++ [c])) ++ ['/']).getLast? = some '/' :=
        List.getLast?_concat _
      simp only [hl, if_true, List.dropLast_concat]
    rw [this, hbase]

theorem trimPrefix_of_no_slash (s : String) (hs : ∀ c ∈ s.data, c ≠ '/') :
    TrimPrefix s "operations/" = s := by
  unfold TrimPrefix
  split
  · next h =>
    exfalso
    have hp : "operations/".data <+: s.data := List.isPrefixOf_iff_prefix.mp h
    obtain ⟨t, ht⟩ := hp
    exact hs '/' (by rw [← ht]; exact List.mem_append_left _ (by decide)) rfl
  · rfl

theorem pathBase_cases (p : String) :
    pathBase p = "." ∨ pathBase p = "/" ∨
      (pathBase p ≠ "" ∧ ∀ c ∈ (pathBase p).data, c ≠ '/') := by
  unfold pathBase
  split
  · exact Or.inl rfl
  · simp only
    split
    · exact Or.inr (Or.inl rfl)
    · next hlast =>
      refine Or.inr (Or.inr ⟨?_, ?_⟩)
      · intro h
        exact hlast (congrArg String.data h)
      · intro c hc
        have := List.mem_takeWhile_imp (List.mem_reverse.mp hc)
        simpa using this

theorem trimPrefix_pathBase_ne_empty (p : String) :
    TrimPrefix (pathBase p) "operations/" ≠ "" := by
  rcases pathBase_cases p with h | h | ⟨h1, h2⟩
  · rw [h]
    decide
  · rw [h]
    decide
  · rw [trimPrefix_of_no_slash _ h2]
    exact h1

/-- For a non-empty href, `operationRefFromLink` returns a ref with that href,
and the id of the ref is empty exactly when the href does not parse. -/
theorem operationRefFromLink_id_empty_iff (l : Link) (hne : l.Href ≠ "") :
    ∃ id, operationRefFromLink (some l) = some ⟨id, l.Href⟩ ∧
      (id = "" ↔ urlParse l.Href = none) := by
  unfold operationRefFromLink
  simp only [if_neg hne]
  cases hp : urlParse l.Href with
  | none => exact ⟨"", rfl, by simp⟩
  | some u =>
    simp only
    by_cases hq : u.queryGet "id" = ""
    · simp only [hq, if_true]
      have hne2 := trimPrefix_pathBase_ne_empty (trimSuffixChar u.Path '/')
      rw [if_neg hne2]
      exact ⟨_, rfl, by simp [hne2]⟩
    · simp only [if_neg hq]
      exact ⟨_, rfl, by simp [hq]⟩

theorem urlParse_empty : urlParse "" = some {} := by decide

/-- C16: for an href that parses as a URL, when the query has a non-empty
first value `X` for `id`, `operationRefFromLink` returns `{ID: X, Href: href}`
whatever the path is; when it has none and the path ends in a segment `X`
after `operations/`, with a trailing slash or without, it returns
`{ID: X, Href: href}` too. -/
theorem operationRefFromLink_id (l : Link) (u : URL) (hparse : urlParse l.Href = some u) :
    (∀ X : String, X ≠ "" → u.queryGet "id" = X →
        operationRefFromLink (some l) = some ⟨X, l.Href⟩) ∧
      (∀ p X : String, X ≠ "" → (∀ c ∈ X.data, c ≠ '/') → u.queryGet "id" = "" →
        (u.Path = p ++ "operations/" ++ X ∨ u.Path = p ++ "operations/" ++ X ++ "/") →
        operationRefFromLink (some l) = some ⟨X, l.Href⟩) := by
  have hu : l.Href = "" → u = {} := by
    intro h
    rw [h, urlParse_empty] at hparse
    exact (Option.some.inj hparse).symm
  constructor
  · intro X hX hq
    have hne : l.Href ≠ "" := by
      intro h
      rw [hu h] at hq
      exact hX (by rw [← hq]; decide)
    unfold operationRefFromLink
    simp only [if_neg hne, hparse, hq, if_neg hX]
  · intro p X hX hs hq hpath
    have hop : p ++ "operations/" = p ++ "operations" ++ "/" := by
      rw [String.append_assoc]
      rfl
    have hbase : pathBase (trimSuffixChar u.Path '/') = X := by
      rcases hpath with h | h
      · rw [h, hop]
        exact (pathBase_segment (p ++ "operations") X hX hs).1
      · rw [h, hop]
        exact (pathBase_segment (p ++ "operations") X hX hs).2
    have hne : l.Href ≠ "" := by
      intro h
      have hpe : u.Path = "" := by rw [hu h]
      have hlen : u.Path.length ≥ 1 := by
        have hX1 : X.length ≥ 1 := by
          rcases X with ⟨_ | ⟨c, cs⟩⟩
          · exact absurd rfl hX
          · simp [String.length]
        rcases hpath with h1 | h1 <;> rw [h1] <;> simp only [String.length_append] <;> omega
      rw [hpe] at hlen
      simp at hlen
    unfold operationRefFromLink
    simp only [if_neg hne, hparse, hq, if_true, hbase, trimPrefix_of_no_slash X hs, if_neg hX]

/-- Instance of C16 at the two hrefs of the repository's test
`TestActionHelpers`: `?id=abc` gives `abc`, `.../operations/xyz` gives `xyz`. -/
theorem operationRefFromLink_id_witness :
    operationRefFromLink (some { Href := "https://cloud-api.yandex.net/v1/disk/operations?id=abc" })
        = some ⟨"abc", "https://cloud-api.yandex.net/v1/disk/operations?id=abc"⟩ ∧
      operationRefFromLink (some { Href := "https://cloud-api.yandex.net/v1/disk/operations/xyz" })
        = some ⟨"xyz", "https://cloud-api.yandex.net/v1/disk/operations/xyz"⟩ :=
  ⟨(operationRefFromLink_id { Href := "https://cloud-api.yandex.net/v1/disk/operations?id=abc" }
      { Scheme := "https", Host := "cloud-api.yandex.net", Path := "/v1/disk/operations",
        RawQuery := "id=abc" } (by decide)).1 "abc" (by decide) (by decide),
    (operationRefFromLink_id { Href := "https://cloud-api.yandex.net/v1/disk/operations/xyz" }
      { Scheme := "https", Host := "cloud-api.yandex.net", Path := "/v1/disk/operations/xyz" }
      (by decide)).2 "/v1/disk/" "xyz" (by decide) (by decide) (by decide) (Or.inl (by decide))⟩

/-- C17: for a non-empty href that does not parse as a URL,
`operationRefFromLink` returns a non-nil ref with empty `ID` and the original
href; for a nil link and for an empty href it returns nil. The href
`::invalid` does not parse. -/
theorem operationRefFromLink_unparseable (l : Link) :
    (l.Href ≠ "" → urlParse l.Href = none →
        operationRefFromLink (some l) = some { ID := "", Href := l.Href }) ∧
      (l.Href = "" → operationRefFromLink (some l) = none) ∧
      operationRefFromLink none = none ∧
      urlParse "::invalid" = none := by
  refine ⟨?_, ?_, rfl, by decide⟩
  · intro hne hp
    unfold operationRefFromLink
    simp only [if_neg hne, hp]
  · intro he
    unfold operationRefFromLink
    simp only [if_pos he]

/-- Instance of C17 at the href of the repository's test
`TestOperationRefFromMalformedURL`. -/
theorem operationRefFromLink_unparseable_witness :
    operationRefFromLink (some { Href := "::invalid" }) = some { ID := "", Href := "::invalid" } :=
  (operationRefFromLink_unparseable { Href := "::invalid" }).1 (by decide) (by decide)

/-- C19: `actionFromStatus status link` has `StatusCode = status` and
`Link = link`; its `Operation` is `operationRefFromLink link` when the status
is 202 and nil for every other status. So status 204 gives
`{204, nil}`, and status 202 with the href `...operations?id=abc` gives the
operation `{abc, href}`. -/
theorem actionFromStatus_spec (status : Int) (link : Option Link) :
    (actionFromStatus status link).StatusCode = status ∧
      (actionFromStatus status link).Link = link ∧
      (status = 202 → (actionFromStatus status link).Operation = operationRefFromLink link) ∧
      (status ≠ 202 → (actionFromStatus status link).Operation = none) ∧
      (actionFromStatus 204 link).StatusCode = 204 ∧
      (actionFromStatus 204 link).Operation = none ∧
      actionFromStatus 202
          (some { Href := "https://cloud-api.yandex.net/v1/disk/operations?id=abc",
                  Method := "GET" })
        = { StatusCode := 202
            Operation := some ⟨"abc", "https://cloud-api.yandex.net/v1/disk/operations?id=abc"⟩
            Link := some { Href := "https://cloud-api.yandex.net/v1/disk/operations?id=abc",
                           Method := "GET" } } := by
  refine ⟨?_, ?_, ?_, ?_, rfl, rfl, by decide⟩
  · unfold actionFromStatus
    split <;> rfl
  · unfold actionFromStatus
    split <;> rfl
  · intro h
    unfold actionFromStatus
    simp only [if_pos h]
  · intro h
    unfold actionFromStatus
    simp only [if_neg h]

/-! ### The worker: subscribing -/

/-- C20: `Watch` returns an error exactly when the handler is nil, or the id of
the ref is empty and its href is empty or does not parse, which is exactly
when `operationRefFromLink` derives no non-empty id from the href; and a call
that returns an error leaves the worker, its table included, as it was. -/
theorem watch_error_iff (w : OperationWorker) (now : Int) (ref : OperationRef)
    (handler : Option Handler) :
    ((w.Watch now ref handler).1.isSome = true ↔
        handler = none ∨ (ref.ID = "" ∧ (ref.Href = "" ∨ urlParse ref.Href = none))) ∧
      ((w.Watch now ref handler).1.isSome = true ↔
        handler = none ∨ (ref.ID = "" ∧
          ∀ parsed, operationRefFromLink (some { Href := ref.Href }) = some parsed →
            parsed.ID = "")) ∧
      ((w.Watch now ref handler).1.isSome = true →
        (w.Watch now ref handler).2 = w ∧ (w.Watch now ref handler).2.watchers = w.watchers) := by
  have hderive : (ref.Href = "" ∨ urlParse ref.Href = none) ↔
      ∀ parsed, operationRefFromLink (some { Href := ref.Href }) = some parsed →
        parsed.ID = "" := by
    by_cases hh : ref.Href = ""
    · simp [hh, operationRefFromLink]
    · obtain ⟨id, h1, h2⟩ := operationRefFromLink_id_empty_iff { Href := ref.Href } hh
      simp only [hh, false_or]
      rw [h1]
      constructor
      · intro hp parsed hpar
        cases hpar
        exact h2.mpr hp
      · intro hall
        exact h2.mp (hall _ rfl)
  have hmain : (w.Watch now ref handler).1.isSome = true ↔
      handler = none ∨ (ref.ID = "" ∧ (ref.Href = "" ∨ urlParse ref.Href = none)) := by
    cases handler with
    | none => simp [OperationWorker.Watch]
    | some h =>
      simp only [OperationWorker.Watch, false_or]
      by_cases hid : ref.ID = ""
      · by_cases hh : ref.Href = ""
        · simp [hid, hh]
        · obtain ⟨id, h1, h2⟩ := operationRefFromLink_id_empty_iff { Href := ref.Href } hh
          simp only [hid, hh, true_and, ne_eq, not_false_eq_true, if_true, h1, false_or]
          by_cases hidq : id = ""
          · simp [hidq, h2.mp hidq]
          · have hp : urlParse ref.Href ≠ none := fun hp => hidq (h2.mpr hp)
            simp [hidq, hp]
      · simp [hid]
  refine ⟨hmain, hmain.trans (by rw [hderive]), ?_⟩
  intro herr
  cases handler with
  | none => exact ⟨rfl, rfl⟩
  | some h =>
    simp only [OperationWorker.Watch] at herr ⊢
    split_ifs at herr ⊢
    all_goals first
      | exact ⟨rfl, rfl⟩
      | exact absurd herr (by simp)

/-- Instance of C20: a nil handler, and a ref without id whose href does not
parse, are rejected and leave an empty table empty; a ref whose id is given is
accepted. -/
theorem watch_error_iff_witness :
    (OperationWorker.Watch ⟨⟨500000000, 10000000000, 0, 256⟩, [], false⟩ 0
        { Href := "::invalid" } (some 1)).1.isSome = true ∧
      (OperationWorker.Watch ⟨⟨500000000, 10000000000, 0, 256⟩, [], false⟩ 0
        { Href := "::invalid" } (some 1)).2.watchers = [] ∧
      (OperationWorker.Watch ⟨⟨500000000, 10000000000, 0, 256⟩, [], false⟩ 0
        { ID := "op-1" } (some 1)).1.isSome = false :=
  ⟨(watch_error_iff ⟨⟨500000000, 10000000000, 0, 256⟩, [], false⟩ 0 { Href := "::invalid" }
      (some 1)).1.mpr (Or.inr ⟨rfl, Or.inr (by decide)⟩),
    ((watch_error_iff ⟨⟨500000000, 10000000000, 0, 256⟩, [], false⟩ 0 { Href := "::invalid" }
      (some 1)).2.2 (by decide)).2,
    by decide⟩

/-! ### The encoded query of a resource request -/

theorem strLt_irrefl (a : List Char) : strLt a a = false := by
  induction a with
  | nil => rfl
  | cons c cs ih => simp [strLt, ih]

theorem strLt_asymm : ∀ (a b : List Char), strLt a b = true → strLt b a = false := by
  intro a
  induction a with
  | nil =>
    intro b _
    cases b <;> rfl
  | cons c cs ih =>
    intro b h
    cases b with
    | nil => simp [strLt] at h
    | cons d ds =>
      simp only [strLt] at h ⊢
      by_cases h1 : c.toNat < d.toNat
      · have h2 : ¬ d.toNat < c.toNat := by omega
        simp [h1, h2]
      · by_cases h2 : d.toNat < c.toNat
        · simp [h1, h2] at h
        · simp only [h1, h2, if_false] at h ⊢
          exact ih ds h

theorem strLt_trans : ∀ (a b c : List Char), strLt a b = true → strLt b c = true →
    strLt a c = true := by
  intro a
  induction a with
  | nil =>
    intro b c h1 h2
    cases c with
    | nil => cases b <;> simp [strLt] at h2
    | cons e es => rfl
  | cons x xs ih =>
    intro b c h1 h2
    cases b with
    | nil => simp [strLt] at h1
    | cons y ys =>
      cases c with
      | nil => simp [strLt] at h2
      | cons z zs =>
        simp only [strLt] at h1 h2 ⊢
        by_cases hxy : x.toNat < y.toNat
        · by_cases hyz : y.toNat < z.toNat
          · simp [show x.toNat < z.toNat by omega]
          · by_cases hzy : z.toNat < y.toNat
            · simp [hyz, hzy] at h2
            · simp [show x.toNat < z.toNat by omega]
        · by_cases hyx : y.toNat < x.toNat
          · simp [hxy, hyx] at h1
          · simp only [hxy, hyx, if_false] at h1
            by_cases hyz : y.toNat < z.toNat
            · simp [show x.toNat < z.toNat by omega]
            · by_cases hzy : z.toNat < y.toNat
              · simp [hyz, hzy] at h2
              · simp only [hyz, hzy, if_false] at h2
                have e1 : ¬ x.toNat < z.toNat := by omega
                have e2 : ¬ z.toNat < x.toNat := by omega
                simp only [e1, e2, if_false]
                exact ih ys zs h1 h2

theorem strLt_total : ∀ (a b : List Char), a ≠ b → strLt a b = true ∨ strLt b a = true := by
  intro a
  induction a with
  | nil =>
    intro b h
    cases b with
    | nil => exact absurd rfl h
    | cons d ds => exact Or.inl rfl
  | cons c cs ih =>
    intro b h
    cases b with
    | nil => exact Or.inr rfl
    | cons d ds =>
      simp only [strLt]
      by_cases h1 : c.toNat < d.toNat
      · simp [h1]
      · by_cases h2 : d.toNat < c.toNat
        · simp [h2]
        · have hcd : c = d := Char.ext (UInt32.toNat.inj (by
            show c.toNat = d.toNat
            omega))
          subst hcd
          simp only [h1, if_false]
          exact ih ds (fun hh => h (by rw [hh]))

theorem keyLt_antisymm : IsAntisymm String keyLt :=
  ⟨fun a b h1 h2 => by
    have := strLt_asymm a.data b.data h1
    rw [h2] at this
    exact Bool.noConfusion this⟩

theorem insertKey_perm (k : String) (l : List String) : (insertKey k l).Perm (k :: l) := by
  induction l with
  | nil => exact List.Perm.refl _
  | cons x xs ih =>
    unfold insertKey
    split
    · exact (List.Perm.cons x ih).trans (List.Perm.swap k x xs)
    · exact List.Perm.refl _

theorem sortKeys_perm (l : List String) : (sortKeys l).Perm l := by
  induction l with
  | nil => exact List.Perm.refl _
  | cons x xs ih =>
    show (insertKey x (sortKeys xs)).Perm (x :: xs)
    exact (insertKey_perm x _).trans (List.Perm.cons x ih)

theorem insertKey_sorted (k : String) (l : List String) (hk : k ∉ l)
    (hs : l.Pairwise keyLt) : (insertKey k l).Pairwise keyLt := by
  induction l with
  | nil => simp [insertKey]
  | cons x xs ih =>
    have hx : k ≠ x := fun h => hk (by rw [h]; exact List.mem_cons_self _ _)
    have hxs : k ∉ xs := fun h => hk (List.mem_cons_of_mem _ h)
    rw [List.pairwise_cons] at hs
    unfold insertKey
    split
    · next hlt =>
      rw [List.pairwise_cons]
      refine ⟨?_, ih hxs hs.2⟩
      intro y hy
      rcases List.mem_cons.mp ((List.Perm.mem_iff (insertKey_perm k xs)).mp hy) with h | h
      · rw [h]
        exact hlt
      · exact hs.1 y h
    · next hnlt =>
      have hkx : keyLt k x := by
        rcases strLt_total k.data x.data (fun h => hx (String.ext h)) with h | h
        · exact h
        · exact absurd h hnlt
      rw [List.pairwise_cons]
      refine ⟨?_, List.pairwise_cons.mpr hs⟩
      intro y hy
      rcases List.mem_cons.mp hy with h | h
      · rw [h]
        exact hkx
      · exact strLt_trans _ _ _ hkx (hs.1 y h)

theorem sortKeys_sorted (l : List String) (hn : l.Nodup) : (sortKeys l).Pairwise keyLt := by
  induction l with
  | nil => exact List.Pairwise.nil
  | cons x xs ih =>
    rw [List.nodup_cons] at hn
    show (insertKey x (sortKeys xs)).Pairwise keyLt
    exact insertKey_sorted x _ (fun h => hn.1 ((List.Perm.mem_iff (sortKeys_perm xs)).mp h))
      (ih hn.2)

theorem resourceQueryKeys_sorted : resourceQueryKeys.Pairwise keyLt := by
  unfold resourceQueryKeys keyLt
  decide

/-- The sorted keys of a map whose keys are among those of a resource request
are those keys in the fixed increasing order. -/
theorem sortKeys_eq_filter (v : Values) (hsub : ∀ k ∈ v.keys, k ∈ resourceQueryKeys) :
    sortKeys v.keys = resourceQueryKeys.filter (fun k => decide (k ∈ v.keys)) := by
  have hnd : v.keys.Nodup := List.nodup_dedup _
  haveI := keyLt_antisymm
  refine List.eq_of_perm_of_sorted (r := keyLt) ?_ (sortKeys_sorted _ hnd)
    (List.Pairwise.filter _ resourceQueryKeys_sorted)
  refine (List.perm_ext_iff_of_nodup ((List.Perm.nodup_iff (sortKeys_perm _)).mpr hnd)
    (List.Nodup.filter _ (by unfold resourceQueryKeys; decide))).mpr ?_
  intro k
  rw [List.Perm.mem_iff (sortKeys_perm _), List.mem_filter]
  constructor
  · intro h
    exact ⟨hsub k h, by simpa using h⟩
  · intro h
    simpa using h.2

theorem lookup_filter_ne (v : Values) (key k : String) (h : k ≠ key) :
    (v.filter (fun kv => kv.1 ≠ key)).lookup k = v.lookup k := by
  induction v with
  | nil => rfl
  | cons kv rest ih =>
    obtain ⟨a, b⟩ := kv
    by_cases ha : a = key
    · subst ha
      have hka : (k == a) = false := by simpa using h
      have hp : decide ((a, b).1 ≠ a) = false := by simp
      rw [List.filter_cons, hp, List.lookup_cons, hka]
      exact ih
    · have hp : decide ((a, b).1 ≠ key) = true := by simpa using ha
      rw [List.filter_cons, hp]
      simp only [if_true, List.lookup_cons]
      rw [ih]

theorem lookupAll_Set (v : Values) (key value k : String) :
    (v.Set key value).lookupAll k = if k = key then [value] else v.lookupAll k := by
  unfold Values.lookupAll Values.Set
  by_cases h : k = key
  · simp [h]
  · have hk : (k == key) = false := by simpa using h
    simp only [List.lookup_cons, hk, if_neg h]
    rw [lookup_filter_ne v key k h]

theorem lookupAll_addString (v : Values) (key value k : String) :
    (addString v key value).lookupAll k
      = if k = key ∧ value ≠ "" then [value] else v.lookupAll k := by
  unfold addString
  by_cases hv : value = ""
  · simp [hv]
  · simp only [hv, ne_eq, not_false_eq_true, if_true, and_true, lookupAll_Set]

theorem lookupAll_addCSV (v : Values) (key k : String) (items : List String) :
    (addCSV v key items).lookupAll k
      = if k = key ∧ items ≠ [] then [joinWith "," items] else v.lookupAll k := by
  unfold addCSV
  cases items with
  | nil => simp
  | cons x xs => simp [lookupAll_Set]

theorem lookupAll_addInt (v : Values) (key k : String) (n : Option Int) :
    (addInt v key n).lookupAll k
      = match n with
        | some m => if k = key then [itoa m] else v.lookupAll k
        | none => v.lookupAll k := by
  cases n with
  | none => rfl
  | some m => exact lookupAll_Set _ _ _ _

theorem lookupAll_addBool (v : Values) (key k : String) (b : Option Bool) :
    (addBool v key b).lookupAll k
      = match b with
        | some x => if k = key then [formatBool x] else v.lookupAll k
        | none => v.lookupAll k := by
  cases b with
  | none => rfl
  | some x => exact lookupAll_Set _ _ _ _

theorem lookupAll_of_not_mem_keys (v : Values) (k : String) (h : k ∉ v.keys) :
    v.lookupAll k = [] := by
  unfold Values.lookupAll
  have : v.lookup k = none := by
    rw [List.lookup_eq_none_iff]
    intro p hp
    have hne : k ≠ p.1 := by
      intro he
      apply h
      unfold Values.keys
      rw [List.mem_dedup, he]
      exact List.mem_map_of_mem _ hp
    simpa using hne
  rw [this]
  rfl

theorem flatMap_filter_of_nil {α β : Type} (p : α → Bool) (F : α → List β) (l : List α)
    (h : ∀ a, p a = false → F a = []) : (l.filter p).flatMap F = l.flatMap F := by
  induction l with
  | nil => rfl
  | cons a as ih =>
    cases hp : p a
    · simp [List.filter_cons, hp, ih, h a hp]
    · simp [List.filter_cons, hp, ih]

/-- The values the query of a resource request holds under each of its keys. -/
theorem lookupAll_resourceQuery (req : ResourceGetRequest) :
    (resourceQuery req).lookupAll "fields"
        = (if req.Fields ≠ [] then [joinWith "," req.Fields] else []) ∧
      (resourceQuery req).lookupAll "limit"
        = (match req.Limit with
          | some n => [itoa n]
          | none => []) ∧
      (resourceQuery req).lookupAll "offset"
        = (match req.Offset with
          | some n => [itoa n]
          | none => []) ∧
      (resourceQuery req).lookupAll "path" = (if req.Path ≠ "" then [req.Path] else []) ∧
      (resourceQuery req).lookupAll "preview_crop"
        = (match req.PreviewCrop with
          | some b => [formatBool b]
          | none => []) ∧
      (resourceQuery req).lookupAll "preview_size"
        = (if req.PreviewSize ≠ "" then [req.PreviewSize] else []) ∧
      (resourceQuery req).lookupAll "sort" = (if req.Sort_ ≠ "" then [req.Sort_] else []) := by
  have hnil : ∀ k : String, Values.lookupAll [] k = [] := fun _ => rfl
  refine ⟨?_, ?_, ?_, ?_, ?_, ?_, ?_⟩ <;>
    simp only [resourceQuery, lookupAll_addString, lookupAll_addCSV, lookupAll_addInt,
      lookupAll_addBool, hnil] <;>
    cases req.Limit <;> cases req.Offset <;> cases req.PreviewCrop <;> simp

theorem singleton_or_nil_sublist {α : Type} (c : Prop) [Decidable c] (a : α) :
    List.Sublist (if c then [a] else []) [a] := by
  split
  · exact List.Sublist.refl _
  · exact List.nil_sublist _

/-- The keys of the pairs the specification lists form a sublist of the seven
keys in increasing order. -/
theorem resourceQuerySpecKeys_sublist (req : ResourceGetRequest) :
    List.Sublist ((resourceQuerySpecPairs req).map Prod.fst) resourceQueryKeys := by
  have h1 : List.Sublist ((if req.Fields ≠ [] then [("fields", joinWith "," req.Fields)]
      else []).map Prod.fst) ["fields"] := by
    split
    · exact List.Sublist.refl _
    · exact List.nil_sublist _
  have h2 : List.Sublist ((match req.Limit with
      | some n => [("limit", itoa n)]
      | none => []).map Prod.fst) ["limit"] := by
    cases req.Limit
    · exact List.nil_sublist _
    · exact List.Sublist.refl _
  have h3 : List.Sublist ((match req.Offset with
      | some n => [("offset", itoa n)]
      | none => []).map Prod.fst) ["offset"] := by
    cases req.Offset
    · exact List.nil_sublist _
    · exact List.Sublist.refl _
  have h4 : List.Sublist ((if req.Path ≠ "" then [("path", req.Path)] else []).map Prod.fst)
      ["path"] := by
    split
    · exact List.Sublist.refl _
    · exact List.nil_sublist _
  have h5 : List.Sublist ((match req.PreviewCrop with
      | some b => [("preview_crop", formatBool b)]
      | none => []).map Prod.fst) ["preview_crop"] := by
    cases req.PreviewCrop
    · exact List.nil_sublist _
    · exact List.Sublist.refl _
  have h6 : List.Sublist ((if req.PreviewSize ≠ "" then [("preview_size", req.PreviewSize)]
      else []).map Prod.fst) ["preview_size"] := by
    split
    · exact List.Sublist.refl _
    · exact List.nil_sublist _
  have h7 : List.Sublist ((if req.Sort_ ≠ "" then [("sort", req.Sort_)] else []).map Prod.fst)
      ["sort"] := by
    split
    · exact List.Sublist.refl _
    · exact List.nil_sublist _
  unfold resourceQuerySpecPairs
  simp only [List.map_append]
  exact ((((((h1.append h2).append h3).append h4).append h5).append h6).append h7)

/-- C11: for every `ResourceGetRequest`, the encoded query of `resourceQuery`
is the `&`-joined list of the percent-encoded `key=value` pairs of exactly the
fields that are not omitted, taken in the order fields, limit, offset, path,
preview_crop, preview_size, sort; these keys are strictly increasing, so each
occurs at most once, and the slice field is one value joined by commas. The
request of the reference scenario encodes to the reference string. -/
theorem resourceQuery_encode (req : ResourceGetRequest) :
    (resourceQuery req).Encode = resourceQuerySpec req ∧
      ((resourceQuerySpecPairs req).map Prod.fst).Pairwise keyLt ∧
      ((resourceQuerySpecPairs req).map Prod.fst).Nodup ∧
      (resourceQuery
          { Path := "disk:/docs", Fields := ["name", "size"], Limit := some 20,
            Offset := some 4, PreviewCrop := some true, PreviewSize := "M",
            Sort_ := "name" }).Encode
        = "fields=name%2Csize&limit=20&offset=4&path=disk%3A%2Fdocs&preview_crop=true&preview_size=M&sort=name" := by
  refine ⟨?_, List.Pairwise.sublist (resourceQuerySpecKeys_sublist req) resourceQueryKeys_sorted,
    List.Nodup.sublist (resourceQuerySpecKeys_sublist req)
      (by unfold resourceQueryKeys; decide), by decide⟩
  have hsub : ∀ k ∈ (resourceQuery req).keys, k ∈ resourceQueryKeys := by
    intro k hk
    unfold resourceQueryKeys
    rcases keys_resourceQuery req k hk with h | h | h | h | h | h | h <;> rw [h.1] <;> decide
  obtain ⟨l1, l2, l3, l4, l5, l6, l7⟩ := lookupAll_resourceQuery req
  have hpairs : (resourceQuery req).pairs = (resourceQuerySpecPairs req).map encodePair := by
    unfold Values.pairs
    rw [sortKeys_eq_filter _ hsub, flatMap_filter_of_nil _ _ _ (by
      intro k hk
      rw [lookupAll_of_not_mem_keys _ k (by simpa using hk)]
      rfl)]
    simp only [resourceQueryKeys, List.flatMap_cons, List.flatMap_nil, l1, l2, l3, l4, l5, l6, l7,
      resourceQuerySpecPairs, List.map_append, List.append_nil]
    cases req.Limit <;> cases req.Offset <;> cases req.PreviewCrop <;>
      simp [apply_ite (List.map _), encodePair]
  unfold Values.Encode resourceQuerySpec
  rw [hpairs]

/-! ### Chunked upload -/

theorem lt_chunkCount_iff (p T j : Nat) (hp : 1 ≤ p) : j < chunkCount p T ↔ j * p < T := by
  unfold chunkCount
  rw [Nat.lt_iff_add_one_le, Nat.le_div_iff_mul_le (by omega), Nat.add_mul]
  omega

theorem chunkStart_of_lt (p T j : Nat) (h : j * p < T) : chunkStart p T j = j * p := by
  unfold chunkStart
  omega

theorem chunkStart_of_ge (p T j : Nat) (h : T ≤ j * p) : chunkStart p T j = T := by
  unfold chunkStart
  omega

theorem chunkStart_succ (p T j : Nat) (h : j * p < T) :
    chunkStart p T (j + 1) = j * p + min (T - j * p) p := by
  unfold chunkStart
  rw [Nat.add_mul]
  omega

theorem take_min_length (l : List Nat) (p : Nat) : l.take (min l.length p) = l.take p := by
  by_cases h : l.length ≤ p
  · rw [min_eq_left h, List.take_of_length_le (le_refl _), List.take_of_length_le h]
  · rw [min_eq_right (by omega)]

/-- One iteration of the loop of `UploadInChunks` on a source that yields
exactly the bytes `Seek` announced: it reads chunk `j` in full and goes on as
`uploadAfterRead` says. -/
theorem uploadLoop_iteration (w : UploadWorld) (link : ResourceUploadLink) (src : Source)
    (p j fuel : Nat) (acc : List ChunkRequest) (hp : 1 ≤ p) (hj : j * p < src.content.length) :
    uploadLoop w link src (p : Int) (src.content.length : Int) (fuel + 1) j
        ((chunkStart p src.content.length j : Nat) : Int)
        (src.content.drop (chunkStart p src.content.length j)) acc
      = uploadAfterRead w j acc (chunkRequest link src.content p j)
          (uploadLoop w link src (p : Int) (src.content.length : Int) fuel (j + 1)
            ((chunkStart p src.content.length (j + 1) : Nat) : Int)
            (src.content.drop (chunkStart p src.content.length (j + 1)))
            (acc ++ [chunkRequest link src.content p j])) := by
  rw [chunkStart_succ p _ j hj, chunkStart_of_lt p _ j hj]
  have hlt : ((j * p : Nat) : Int) < (src.content.length : Int) := by exact_mod_cast hj
  have hsize : (if (src.content.length : Int) - ((j * p : Nat) : Int) < (p : Int)
      then (src.content.length : Int) - ((j * p : Nat) : Int) else (p : Int)).toNat
      = min (src.content.length - j * p) p := by
    split <;> omega
  have hlen : (src.content.drop (j * p)).length = src.content.length - j * p :=
    List.length_drop _ _
  have hdata : (src.content.drop (j * p)).take (min (src.content.length - j * p) p)
      = (src.content.drop (j * p)).take p := by
    rw [← hlen]
    exact take_min_length _ _
  have hdlen : ((src.content.drop (j * p)).take p).length = min (src.content.length - j * p) p := by
    rw [List.length_take, hlen]
    omega
  unfold uploadAfterRead
  simp only [uploadLoop, if_pos hlt, hsize, Source.readFull]
  rw [if_pos (by rw [hlen]; omega)]
  simp only [hdata]
  have hne : ¬ min (src.content.length - j * p) p = 0 := by omega
  simp only [List.drop_drop, hdlen, hne, if_false, chunkRequest]
  have hstart : ((j * p : Nat) : Int) + ((min (src.content.length - j * p) p : Nat) : Int)
      = ((j * p + min (src.content.length - j * p) p : Nat) : Int) := by push_cast; rfl
  have hdrop : min (src.content.length - j * p) p + j * p
      = j * p + min (src.content.length - j * p) p := by omega
  simp only [hstart, hdrop]

theorem uploadLoop_end (w : UploadWorld) (link : ResourceUploadLink) (src : Source)
    (p j fuel : Nat) (acc : List ChunkRequest) (unread : List Nat)
    (hj : src.content.length ≤ j * p) :
    uploadLoop w link src (p : Int) (src.content.length : Int) (fuel + 1) j
        ((chunkStart p src.content.length j : Nat) : Int) unread acc
      = some (uploadDone link acc) := by
  rw [chunkStart_of_ge p _ j hj]
  simp only [uploadLoop, lt_self_iff_false, if_false]

theorem uploadAfterRead_accepted (w : UploadWorld) (j : Nat) (reqs : List ChunkRequest)
    (req : ChunkRequest) (next : Option UploadResult) (hnew : w.newRequest = none)
    (hacc : chunkAccepted w j) : uploadAfterRead w j reqs req next = next := by
  obtain ⟨hctx, r, hdo, hst, hclose⟩ := hacc
  have hcond : ¬ (r.StatusCode ≠ 201 ∧ r.StatusCode ≠ 202) := by
    rintro ⟨h1, h2⟩
    rcases hst with h | h
    · exact h1 h
    · exact h2 h
  unfold uploadAfterRead
  simp only [hctx, hnew, hdo, if_neg hcond, hclose]

/-- A run of accepted chunks: the loop issues their requests in order and goes
on after them. -/
theorem uploadLoop_accepted_run (w : UploadWorld) (link : ResourceUploadLink) (src : Source)
    (p : Nat) (hp : 1 ≤ p) (hnew : w.newRequest = none) :
    ∀ (m j fuel : Nat) (acc : List ChunkRequest),
      j + m ≤ chunkCount p src.content.length →
      (∀ i, j ≤ i → i < j + m → chunkAccepted w i) →
      uploadLoop w link src (p : Int) (src.content.length : Int) (fuel + m) j
          ((chunkStart p src.content.length j : Nat) : Int)
          (src.content.drop (chunkStart p src.content.length j)) acc
        = uploadLoop w link src (p : Int) (src.content.length : Int) fuel (j + m)
          ((chunkStart p src.content.length (j + m) : Nat) : Int)
          (src.content.drop (chunkStart p src.content.length (j + m)))
          (acc ++ (List.range' j m).map (chunkRequest link src.content p)) := by
  intro m
  induction m with
  | zero =>
    intro j fuel acc _ _
    simp
  | succ m ih =>
    intro j fuel acc hle hacc
    have hj : j * p < src.content.length :=
      (lt_chunkCount_iff p _ j hp).mp (by omega)
    rw [show fuel + (m + 1) = (fuel + m) + 1 by omega,
      uploadLoop_iteration w link src p j (fuel + m) acc hp hj,
      uploadAfterRead_accepted w j _ _ _ hnew (hacc j le_rfl (by omega)),
      ih (j + 1) fuel _ (by omega) (fun i h1 h2 => hacc i (by omega) (by omega)),
      List.range'_succ, List.map_cons, List.append_assoc, List.singleton_append,
      show j + 1 + m = j + (m + 1) by omega]

theorem chunkCount_le (p T : Nat) (hp : 1 ≤ p) : chunkCount p T ≤ T := by
  by_contra h
  have h1 : T * p < T := (lt_chunkCount_iff p T T hp).mp (by omega)
  have h2 : T ≤ T * p := Nat.le_mul_of_pos_right T hp
  omega

theorem le_chunkCount_mul (p T : Nat) (hp : 1 ≤ p) : T ≤ chunkCount p T * p := by
  by_contra h
  have := (lt_chunkCount_iff p T (chunkCount p T) hp).mpr (by omega)
  omega

theorem normalizePartSize_pos (x : Int) : 1 ≤ normalizePartSize x := by
  unfold normalizePartSize maxUploadPartSize
  by_cases h0 : x ≤ 0
  · simp only [if_pos h0]
    norm_num
  · simp only [if_neg h0]
    split <;> omega

/-- With a link that has href and method and a source whose two seeks succeed
and report the length of its content, `UploadInChunks` is its loop started at
offset zero. -/
theorem UploadInChunks_eq_loop (w : UploadWorld) (link : ResourceUploadLink) (src : Source)
    (cfg : UploadChunkRequest) (hhref : link.Href ≠ "") (hmethod : link.Method ≠ "")
    (hsize : src.size = .inr (src.content.length : Int)) (hrewind : src.rewind = none) :
    UploadInChunks w (some link) (some src) cfg
      = uploadLoop w link src (((normalizePartSize cfg.PartSize).toNat : Nat) : Int)
          (src.content.length : Int) (src.content.length + 1) 0
          ((chunkStart (normalizePartSize cfg.PartSize).toNat src.content.length 0 : Nat) : Int)
          (src.content.drop (chunkStart (normalizePartSize cfg.PartSize).toNat
            src.content.length 0)) [] := by
  have hpos := normalizePartSize_pos cfg.PartSize
  have hcast : (((normalizePartSize cfg.PartSize).toNat : Nat) : Int)
      = normalizePartSize cfg.PartSize := Int.toNat_of_nonneg (by omega)
  have h0 : chunkStart (normalizePartSize cfg.PartSize).toNat src.content.length 0 = 0 := by
    simp [chunkStart]
  unfold UploadInChunks
  simp only [hhref, hmethod, or_self, if_false, hsize, hrewind, hcast, h0, List.drop_zero,
    Int.toNat_ofNat, Nat.cast_zero]

/-- With every chunk accepted, `UploadInChunks` succeeds after it has issued
the requests of all chunks in order. -/
theorem UploadInChunks_accepted (w : UploadWorld) (link : ResourceUploadLink) (src : Source)
    (cfg : UploadChunkRequest) (hhref : link.Href ≠ "") (hmethod : link.Method ≠ "")
    (hsize : src.size = .inr (src.content.length : Int)) (hrewind : src.rewind = none)
    (hnew : w.newRequest = none) (hacc : ∀ i, chunkAccepted w i) :
    UploadInChunks w (some link) (some src) cfg
      = some (uploadDone link
          ((List.range (chunkCount (normalizePartSize cfg.PartSize).toNat src.content.length)).map
            (chunkRequest link src.content (normalizePartSize cfg.PartSize).toNat))) := by
  have hpos := normalizePartSize_pos cfg.PartSize
  have hp : 1 ≤ (normalizePartSize cfg.PartSize).toNat := by omega
  have hn := chunkCount_le (normalizePartSize cfg.PartSize).toNat src.content.length hp
  rw [UploadInChunks_eq_loop w link src cfg hhref hmethod hsize hrewind,
    show src.content.length + 1
      = (src.content.length - chunkCount (normalizePartSize cfg.PartSize).toNat
          src.content.length + 1)
        + chunkCount (normalizePartSize cfg.PartSize).toNat src.content.length by omega,
    uploadLoop_accepted_run w link src _ hp hnew _ 0 _ [] (by omega) (fun i _ _ => hacc i),
    Nat.zero_add, uploadLoop_end w link src _ _ _ _ _ (le_chunkCount_mul _ _ hp),
    List.nil_append, List.range_eq_range']

theorem flatten_chunks (p : Nat) : ∀ (n : Nat) (l : List Nat), l.length ≤ n * p →
    ((List.range n).map (fun k => (l.drop (k * p)).take p)).flatten = l := by
  intro n
  induction n with
  | zero =>
    intro l h
    have : l = [] := List.eq_nil_of_length_eq_zero (by omega)
    simp [this]
  | succ n ih =>
    intro l h
    rw [List.range_succ_eq_map, List.map_cons, List.flatten_cons, List.map_map]
    have hfun : ((fun k => (l.drop (k * p)).take p) ∘ Nat.succ)
        = fun k => ((l.drop p).drop (k * p)).take p := by
      funext k
      simp only [Function.comp, List.drop_drop, Nat.succ_eq_add_one, Nat.add_mul, Nat.one_mul]
      rw [Nat.add_comm]
    rw [hfun, ih (l.drop p) (by rw [List.length_drop, Nat.add_mul] at *; omega)]
    simp

theorem chunkRequest_body_length (link : ResourceUploadLink) (content : List Nat) (p k : Nat) :
    (chunkRequest link content p k).Body.length = min p (content.length - k * p) := by
  simp [chunkRequest, List.length_take, List.length_drop]

/-- C12: for a source that yields exactly the `T` bytes `Seek` reports, a
configured part size normalised to `p ≥ 1` and a server that accepts every
chunk with 201 or 202, `UploadInChunks` succeeds with status 202; it issues
exactly `⌈T / p⌉` requests (none when `T = 0`), every request body except
possibly the last has exactly `p` bytes, and the request bodies concatenated
in issue order are the bytes of the source. -/
theorem UploadInChunks_chunks (w : UploadWorld) (link : ResourceUploadLink) (src : Source)
    (cfg : UploadChunkRequest) (hhref : link.Href ≠ "") (hmethod : link.Method ≠ "")
    (hsize : src.size = .inr (src.content.length : Int)) (hrewind : src.rewind = none)
    (hnew : w.newRequest = none) (hacc : ∀ i, chunkAccepted w i) :
    ∃ res, UploadInChunks w (some link) (some src) cfg = some res ∧
      res.err = none ∧ res.result.StatusCode = 202 ∧
      res.requests.length
        = (src.content.length + (normalizePartSize cfg.PartSize).toNat - 1)
            / (normalizePartSize cfg.PartSize).toNat ∧
      (src.content.length = 0 → res.requests = []) ∧
      (∀ k r, k + 1 < res.requests.length → res.requests[k]? = some r →
        r.Body.length = (normalizePartSize cfg.PartSize).toNat) ∧
      (res.requests.map (fun r => r.Body)).flatten = src.content := by
  have hpos := normalizePartSize_pos cfg.PartSize
  have hp : 1 ≤ (normalizePartSize cfg.PartSize).toNat := by omega
  refine ⟨_, UploadInChunks_accepted w link src cfg hhref hmethod hsize hrewind hnew hacc,
    rfl, rfl, ?_, ?_, ?_, ?_⟩
  · simp [uploadDone, chunkCount]
  · intro h0
    have : chunkCount (normalizePartSize cfg.PartSize).toNat src.content.length = 0 := by
      have := chunkCount_le (normalizePartSize cfg.PartSize).toNat src.content.length hp
      omega
    simp [uploadDone, this]
  · intro k r hk hr
    simp only [uploadDone, List.length_map, List.length_range] at hk
    have hk1 : k < chunkCount (normalizePartSize cfg.PartSize).toNat src.content.length := by
      omega
    simp only [uploadDone, List.getElem?_map, List.getElem?_range hk1, Option.map_some',
      Option.some.injEq] at hr
    rw [← hr, chunkRequest_body_length]
    have h2 := (lt_chunkCount_iff (normalizePartSize cfg.PartSize).toNat src.content.length
      (k + 1) hp).mp hk
    rw [Nat.add_mul] at h2
    omega
  · simp only [uploadDone, List.map_map]
    have hfun : ((fun r : ChunkRequest => r.Body) ∘
        chunkRequest link src.content (normalizePartSize cfg.PartSize).toNat)
        = fun k => (src.content.drop (k * (normalizePartSize cfg.PartSize).toNat)).take
            (normalizePartSize cfg.PartSize).toNat := by
      funext k
      rfl
    rw [hfun]
    exact flatten_chunks _ _ _ (le_chunkCount_mul _ _ hp)

theorem UploadInChunks_chunks_witness :
    ∃ res, UploadInChunks acceptingUploadWorld (some chunkTestLink) (some helloWorldSource)
        { PartSize := 4 } = some res ∧
      res.err = none ∧ res.result.StatusCode = 202 ∧
      res.requests.length
        = (helloWorldSource.content.length + (normalizePartSize 4).toNat - 1)
            / (normalizePartSize 4).toNat ∧
      (helloWorldSource.content.length = 0 → res.requests = []) ∧
      (∀ k r, k + 1 < res.requests.length → res.requests[k]? = some r →
        r.Body.length = (normalizePartSize 4).toNat) ∧
      (res.requests.map (fun r => r.Body)).flatten = helloWorldSource.content :=
  UploadInChunks_chunks acceptingUploadWorld chunkTestLink helloWorldSource { PartSize := 4 }
    (by decide) (by decide) rfl rfl rfl (fun _ => ⟨rfl, _, rfl, Or.inl rfl, rfl⟩)

theorem uploadAfterRead_success (w : UploadWorld) (j : Nat) (reqs : List ChunkRequest)
    (req : ChunkRequest) (next : Option UploadResult) (res : UploadResult)
    (h : uploadAfterRead w j reqs req next = some res) (herr : res.err = none) :
    next = some res := by
  unfold uploadAfterRead at h
  split at h
  · rw [← Option.some.inj h] at herr
    exact absurd herr (by simp)
  · split at h
    · rw [← Option.some.inj h] at herr
      exact absurd herr (by simp)
    · split at h
      · rw [← Option.some.inj h] at herr
        exact absurd herr (by simp)
      · split at h
        · split at h
          · rw [← Option.some.inj h] at herr
            exact absurd herr (by simp)
          · rw [← Option.some.inj h] at herr
            exact absurd herr (by simp)
        · split at h
          · rw [← Option.some.inj h] at herr
            exact absurd herr (by simp)
          · exact h

/-- A run of the loop over a source that yields the bytes it reports, when it
ends without error, has issued the requests of all remaining chunks. -/
theorem uploadLoop_success (w : UploadWorld) (link : ResourceUploadLink) (src : Source)
    (p : Nat) (hp : 1 ≤ p) :
    ∀ (fuel j : Nat) (acc : List ChunkRequest) (res : UploadResult),
      uploadLoop w link src (p : Int) (src.content.length : Int) fuel j
          ((chunkStart p src.content.length j : Nat) : Int)
          (src.content.drop (chunkStart p src.content.length j)) acc = some res →
      res.err = none →
      res = uploadDone link (acc ++
        (List.range' j (chunkCount p src.content.length - j)).map
          (chunkRequest link src.content p)) := by
  intro fuel
  induction fuel with
  | zero =>
    intro j acc res h _
    simp [uploadLoop] at h
  | succ fuel ih =>
    intro j acc res h herr
    by_cases hj : j * p < src.content.length
    · rw [uploadLoop_iteration w link src p j fuel acc hp hj] at h
      have hnext := uploadAfterRead_success w j _ _ _ res h herr
      have hlt : j < chunkCount p src.content.length := (lt_chunkCount_iff p _ j hp).mpr hj
      rw [ih (j + 1) _ res hnext herr,
        show chunkCount p src.content.length - j
          = (chunkCount p src.content.length - (j + 1)) + 1 by omega,
        List.range'_succ, List.map_cons, List.append_assoc, List.singleton_append]
    · rw [uploadLoop_end w link src p j fuel acc _ (by omega)] at h
      have hge : chunkCount p src.content.length ≤ j := by
        by_contra hlt
        exact hj ((lt_chunkCount_iff p _ j hp).mp (by omega))
      rw [← Option.some.inj h, Nat.sub_eq_zero_of_le hge]
      simp

/-- A call of `UploadInChunks` on a source that yields the bytes it reports,
when it returns without error, has issued the requests of all chunks. -/
theorem UploadInChunks_success (w : UploadWorld) (link : ResourceUploadLink) (src : Source)
    (cfg : UploadChunkRequest) (res : UploadResult)
    (hsize : src.size = .inr (src.content.length : Int))
    (hrun : UploadInChunks w (some link) (some src) cfg = some res) (herr : res.err = none) :
    res = uploadDone link
      ((List.range (chunkCount (normalizePartSize cfg.PartSize).toNat src.content.length)).map
        (chunkRequest link src.content (normalizePartSize cfg.PartSize).toNat)) := by
  have hpos := normalizePartSize_pos cfg.PartSize
  have hp : 1 ≤ (normalizePartSize cfg.PartSize).toNat := by omega
  have hlink : ¬ (link.Href = "" ∨ link.Method = "") := by
    intro hbad
    simp only [UploadInChunks, if_pos hbad] at hrun
    rw [← Option.some.inj hrun] at herr
    exact absurd herr (by simp)
  have hrewind : src.rewind = none := by
    cases hrw : src.rewind with
    | none => rfl
    | some e =>
      simp only [UploadInChunks, if_neg hlink, hsize, hrw] at hrun
      rw [← Option.some.inj hrun] at herr
      exact absurd herr (by simp)
  rw [UploadInChunks_eq_loop w link src cfg (fun h => hlink (Or.inl h))
    (fun h => hlink (Or.inr h)) hsize hrewind] at hrun
  have := uploadLoop_success w link src _ hp _ 0 [] res hrun herr
  rw [this, List.nil_append, Nat.sub_zero, List.range_eq_range']

/-- C13: in every run of `UploadInChunks` that returns without error on a
source of `T > 0` bytes, with `p` the normalised part size, at least one request
is issued and the request at position `k` (counted from zero) carries the
header `Content-Range: bytes s-e/T` with `s = k * p`, so the first range starts
at 0, and `e = s + len(body) - 1`; its body is not empty; the next range, if
any, starts at `e + 1`; and the last range ends at `T - 1`. For the eleven
bytes of `hello world` at part size 4 the headers are `bytes 0-3/11`,
`bytes 4-7/11` and `bytes 8-10/11`. -/
theorem UploadInChunks_ranges :
    (∀ (w : UploadWorld) (link : ResourceUploadLink) (src : Source) (cfg : UploadChunkRequest)
        (res : UploadResult),
      src.size = .inr (src.content.length : Int) → 0 < src.content.length →
      UploadInChunks w (some link) (some src) cfg = some res → res.err = none →
      res.requests ≠ [] ∧
        ∀ (k : Nat) (r : ChunkRequest), res.requests[k]? = some r →
          r.ContentRange = contentRange ((k : Int) * normalizePartSize cfg.PartSize)
            ((k : Int) * normalizePartSize cfg.PartSize + (r.Body.length : Int) - 1)
            (src.content.length : Int) ∧
          1 ≤ r.Body.length ∧
          (k + 1 < res.requests.length →
            (k : Int) * normalizePartSize cfg.PartSize + (r.Body.length : Int) - 1 + 1
              = ((k + 1 : Nat) : Int) * normalizePartSize cfg.PartSize) ∧
          (k + 1 = res.requests.length →
            (k : Int) * normalizePartSize cfg.PartSize + (r.Body.length : Int) - 1
              = (src.content.length : Int) - 1)) ∧
      (UploadInChunks acceptingUploadWorld (some chunkTestLink) (some helloWorldSource)
          { PartSize := 4 }).map (fun res => (res.err, res.requests.map (fun r => r.ContentRange)))
        = some (none, ["bytes 0-3/11", "bytes 4-7/11", "bytes 8-10/11"]) := by
  refine ⟨?_, by decide⟩
  intro w link src cfg res hsize hT hrun herr
  have hpos := normalizePartSize_pos cfg.PartSize
  have hp : 1 ≤ (normalizePartSize cfg.PartSize).toNat := by omega
  have hcast : (((normalizePartSize cfg.PartSize).toNat : Nat) : Int)
      = normalizePartSize cfg.PartSize := Int.toNat_of_nonneg (by omega)
  have hres := UploadInChunks_success w link src cfg res hsize hrun herr
  have hn : 0 < chunkCount (normalizePartSize cfg.PartSize).toNat src.content.length :=
    (lt_chunkCount_iff _ _ 0 hp).mpr (by omega)
  have hlen : res.requests.length
      = chunkCount (normalizePartSize cfg.PartSize).toNat src.content.length := by
    rw [hres]
    simp [uploadDone]
  refine ⟨?_, ?_⟩
  · intro hnil
    rw [hnil] at hlen
    simp at hlen
    omega
  · intro k r hr
    have hk : k < chunkCount (normalizePartSize cfg.PartSize).toNat src.content.length := by
      rw [← hlen]
      by_contra hge
      rw [List.getElem?_eq_none (by omega)] at hr
      exact absurd hr (by simp)
    have hreq : r = chunkRequest link src.content (normalizePartSize cfg.PartSize).toNat k := by
      rw [hres] at hr
      simp only [uploadDone, List.getElem?_map, List.getElem?_range hk, Option.map_some',
        Option.some.injEq] at hr
      exact hr.symm
    have hbody := chunkRequest_body_length link src.content
      (normalizePartSize cfg.PartSize).toNat k
    rw [← hreq] at hbody
    have hkp := (lt_chunkCount_iff _ _ k hp).mp hk
    refine ⟨?_, by omega, ?_, ?_⟩
    · rw [hreq]
      generalize (normalizePartSize cfg.PartSize).toNat = p at hcast
      rw [← hcast]
      simp only [chunkRequest, Nat.cast_mul]
    · intro hnext
      rw [hlen] at hnext
      have h2 := (lt_chunkCount_iff _ _ (k + 1) hp).mp hnext
      rw [Nat.add_mul] at h2
      have hb : r.Body.length = (normalizePartSize cfg.PartSize).toNat := by omega
      rw [hb]
      generalize (normalizePartSize cfg.PartSize).toNat = p at hcast
      rw [← hcast]
      push_cast
      ring
    · intro hlast
      rw [hlen] at hlast
      have h2 := le_chunkCount_mul (normalizePartSize cfg.PartSize).toNat src.content.length hp
      rw [← hlast, Nat.add_mul] at h2
      have hb : r.Body.length
          = src.content.length - k * (normalizePartSize cfg.PartSize).toNat := by omega
      rw [hb]
      generalize (normalizePartSize cfg.PartSize).toNat = p at hcast hkp
      rw [← hcast, Nat.cast_sub (by omega)]
      push_cast
      ring

theorem UploadInChunks_ranges_witness :
    (uploadDone chunkTestLink ((List.range 3).map
        (chunkRequest chunkTestLink helloWorldSource.content 4))).requests ≠ [] ∧
      ∀ (k : Nat) (r : ChunkRequest),
        (uploadDone chunkTestLink ((List.range 3).map
          (chunkRequest chunkTestLink helloWorldSource.content 4))).requests[k]? = some r →
        r.ContentRange = contentRange ((k : Int) * normalizePartSize 4)
          ((k : Int) * normalizePartSize 4 + (r.Body.length : Int) - 1)
          (helloWorldSource.content.length : Int) ∧
        1 ≤ r.Body.length ∧
        (k + 1 < (uploadDone chunkTestLink ((List.range 3).map
            (chunkRequest chunkTestLink helloWorldSource.content 4))).requests.length →
          (k : Int) * normalizePartSize 4 + (r.Body.length : Int) - 1 + 1
            = ((k + 1 : Nat) : Int) * normalizePartSize 4) ∧
        (k + 1 = (uploadDone chunkTestLink ((List.range 3).map
            (chunkRequest chunkTestLink helloWorldSource.content 4))).requests.length →
          (k : Int) * normalizePartSize 4 + (r.Body.length : Int) - 1
            = (helloWorldSource.content.length : Int) - 1) :=
  UploadInChunks_ranges.1 acceptingUploadWorld chunkTestLink helloWorldSource { PartSize := 4 }
    (uploadDone chunkTestLink ((List.range 3).map
      (chunkRequest chunkTestLink helloWorldSource.content 4)))
    rfl (by decide) (by decide) rfl

/-- When the chunks before chunk `j` are accepted and chunk `j` is answered
with a status other than 201 and 202, `UploadInChunks` has issued the requests
of the chunks up to `j` and returns the zero `ActionResult` with the error
`apiErrorFromResponse` builds from that response and its body. -/
theorem UploadInChunks_failed_chunk (w : UploadWorld) (link : ResourceUploadLink) (src : Source)
    (cfg : UploadChunkRequest) (j : Nat) (resp : Response)
    (hhref : link.Href ≠ "") (hmethod : link.Method ≠ "")
    (hsize : src.size = .inr (src.content.length : Int)) (hrewind : src.rewind = none)
    (hnew : w.newRequest = none)
    (hj : j < chunkCount (normalizePartSize cfg.PartSize).toNat src.content.length)
    (hacc : ∀ i, i < j → chunkAccepted w i)
    (hctx : w.ctxDone j = none) (hdo : w.httpDo j = .ok resp)
    (hstatus : resp.StatusCode ≠ 201 ∧ resp.StatusCode ≠ 202) (hclose : resp.closeErr = none) :
    UploadInChunks w (some link) (some src) cfg
      = some ⟨{}, some (.api (apiErrorFromResponse resp resp.Body)),
          (List.range (j + 1)).map
            (chunkRequest link src.content (normalizePartSize cfg.PartSize).toNat)⟩ := by
  have hpos := normalizePartSize_pos cfg.PartSize
  have hp : 1 ≤ (normalizePartSize cfg.PartSize).toNat := by omega
  have hn := chunkCount_le (normalizePartSize cfg.PartSize).toNat src.content.length hp
  rw [UploadInChunks_eq_loop w link src cfg hhref hmethod hsize hrewind,
    show src.content.length + 1 = (src.content.length - j + 1) + j by omega,
    uploadLoop_accepted_run w link src _ hp hnew j 0 _ [] (by omega)
      (fun i _ h => hacc i (by omega)),
    Nat.zero_add,
    uploadLoop_iteration w link src _ j _ _ hp ((lt_chunkCount_iff _ _ j hp).mp hj)]
  unfold uploadAfterRead
  simp only [hctx, hnew, hdo, if_pos hstatus, hclose, List.nil_append, List.range_succ,
    List.map_append, List.map_cons, List.map_nil, List.range_eq_range']

/-- C15 (failing input): the eleven bytes of `hello world` at part size 4
against a server that accepts the first chunk and answers the second with
status `500` and the body `{"HTTPStatus":201}`. `UploadInChunks` issues the two
requests and returns the zero `ActionResult` with an `*APIError`, but the
status that error reports is the `201` of the body, not the `500` of the
response. -/
theorem UploadInChunks_failed_chunk_reports_body_status :
    (UploadInChunks statusInBodyUploadWorld (some chunkTestLink) (some helloWorldSource)
        { PartSize := 4 }).map
        (fun res => (res.result, res.err, res.requests.map (fun r => r.ContentRange)))
      = some ({}, some (.api
          { HTTPStatus := 201, Code := "", Message := "\x7b\"HTTPStatus\":201\x7d",
            Description := "", RequestID := "",
            RawBody := bodyBytes "\x7b\"HTTPStatus\":201\x7d" }),
          ["bytes 0-3/11", "bytes 4-7/11"]) := by
  decide

/-- C25 (failing input): the hrefs `https://host`, `https://host/` and
`https://host//` parse as URLs, carry no `id` parameter and have a path without
a final segment. `path.Base` yields `.` for the empty path and `/` for a path of
slashes, never the empty string, so `operationRefFromLink` returns the ids `.`,
`.` and `/`, and `Watch` accepts the href and registers a watcher under the
id `.` instead of failing. -/
theorem operationRefFromLink_no_segment_id :
    operationRefFromLink (some { Href := "https://host" })
        = some { ID := ".", Href := "https://host" } ∧
      operationRefFromLink (some { Href := "https://host/" })
        = some { ID := ".", Href := "https://host/" } ∧
      operationRefFromLink (some { Href := "https://host//" })
        = some { ID := "/", Href := "https://host//" } ∧
      OperationWorker.Watch ⟨⟨500000000, 10000000000, 0, 256⟩, [], false⟩ 0
          { Href := "https://host" } (some 1)
        = (none, ⟨⟨500000000, 10000000000, 0, 256⟩,
            [(".", { ref := { ID := ".", Href := "https://host" }, handlers := [1],
                     interval := 500000000, nextPoll := 0 })], false⟩) := by
  decide

theorem bytesSent_append (a b : List ChunkRequest) :
    bytesSent (a ++ b) = bytesSent a + bytesSent b := by
  simp [bytesSent]

/-- The loop of `UploadInChunks` returns: every iteration that goes on has read
at least one byte, so `total - start + 1` condition tests are enough. -/
theorem uploadLoop_total (w : UploadWorld) (link : ResourceUploadLink) (src : Source)
    (partSize total : Int) :
    ∀ (fuel i : Nat) (start : Int) (unread : List Nat) (acc : List ChunkRequest),
      (total - start).toNat < fuel →
      ∃ res, uploadLoop w link src partSize total fuel i start unread acc = some res := by
  intro fuel
  induction fuel with
  | zero =>
    intro i start unread acc h
    omega
  | succ fuel ih =>
    intro i start unread acc h
    unfold uploadLoop
    split_ifs with hlt
    · split
      · exact ⟨_, rfl⟩
      · simp only
        split
        · exact ⟨_, rfl⟩
        · split_ifs with h0
          · exact ⟨_, rfl⟩
          · split
            · exact ⟨_, rfl⟩
            · split
              · exact ⟨_, rfl⟩
              · split_ifs
                · split <;> exact ⟨_, rfl⟩
                · split
                  · exact ⟨_, rfl⟩
                  · apply ih
                    omega
    · exact ⟨_, rfl⟩

theorem readFull_full (src : Source) (unread : List Nat) (m : Nat) (h : m ≤ unread.length) :
    src.readFull unread m = (unread.take m, none) := by
  simp only [Source.readFull, if_pos h]

theorem readFull_short_failure (src : Source) (unread : List Nat) (m : Nat) (err : GoError)
    (h : ¬ m ≤ unread.length) (hf : src.failure = some err) :
    src.readFull unread m = (unread, some (.other err)) := by
  simp only [Source.readFull, if_neg h, hf]

theorem readFull_short_eof (src : Source) (unread : List Nat) (m : Nat)
    (h : ¬ m ≤ unread.length) (hf : src.failure = none) :
    src.readFull unread m
      = (unread, some (if unread.length = 0 then .eof else .unexpectedEOF)) := by
  simp only [Source.readFull, if_neg h, hf]
  split <;> rfl

/-- An iteration of the loop of `UploadInChunks` in which `io.ReadFull` returns
an error other than the two end-of-file errors. -/
theorem uploadLoop_read_failure (w : UploadWorld) (link : ResourceUploadLink) (src : Source)
    (partSize total : Int) (fuel i : Nat) (start : Int) (unread : List Nat)
    (acc : List ChunkRequest) (data : List Nat) (err : GoError)
    (hlt : start < total)
    (hread : src.readFull unread
      (if total - start < partSize then total - start else partSize).toNat
        = (data, some (.other err))) :
    uploadLoop w link src partSize total (fuel + 1) i start unread acc
      = match w.ctxDone i with
        | some err1 => some ⟨{}, some err1, acc⟩
        | none => some ⟨{}, some err, acc⟩ := by
  simp only [uploadLoop, if_pos hlt, hread]

/-- An iteration of the loop of `UploadInChunks` in which `io.ReadFull` returns
the bytes `data` and no error or one of the two end-of-file errors. -/
theorem uploadLoop_read (w : UploadWorld) (link : ResourceUploadLink) (src : Source)
    (partSize total : Int) (fuel i : Nat) (start : Int) (unread : List Nat)
    (acc : List ChunkRequest) (data : List Nat) (e : Option ReadFullError)
    (hlt : start < total)
    (hread : src.readFull unread
      (if total - start < partSize then total - start else partSize).toNat = (data, e))
    (he : ∀ err, e ≠ some (.other err)) :
    uploadLoop w link src partSize total (fuel + 1) i start unread acc
      = match w.ctxDone i with
        | some err => some ⟨{}, some err, acc⟩
        | none =>
          if data.length = 0 then some (uploadDone link acc)
          else uploadAfterRead w i acc (chunkOf link start total data)
            (uploadLoop w link src partSize total fuel (i + 1) (start + (data.length : Int))
              (unread.drop data.length) (acc ++ [chunkOf link start total data])) := by
  simp only [uploadLoop, if_pos hlt, hread]
  cases hctx : w.ctxDone i with
  | some err => rfl
  | none =>
    cases e with
    | none => simp only [uploadAfterRead, hctx, chunkOf]
    | some e1 =>
      cases e1 with
      | eof => simp only [uploadAfterRead, hctx, chunkOf]
      | unexpectedEOF => simp only [uploadAfterRead, hctx, chunkOf]
      | other err => exact absurd rfl (he err)

/-- A run of the loop of `UploadInChunks` that ends without error has sent, on
top of what was sent before, the bytes the reader had left, up to the offset
`total`. -/
theorem uploadLoop_bytesSent (w : UploadWorld) (link : ResourceUploadLink) (src : Source)
    (partSize total : Int) (hp : 1 ≤ partSize) :
    ∀ (fuel i : Nat) (start : Int) (unread : List Nat) (acc : List ChunkRequest)
      (res : UploadResult),
      uploadLoop w link src partSize total fuel i start unread acc = some res →
      res.err = none →
      bytesSent res.requests = bytesSent acc + min unread.length (total - start).toNat := by
  intro fuel
  induction fuel with
  | zero =>
    intro i start unread acc res h _
    simp [uploadLoop] at h
  | succ fuel ih =>
    intro i start unread acc res h herr
    by_cases hlt : start < total
    · have hm : 1 ≤ (if total - start < partSize then total - start else partSize).toNat ∧
          (if total - start < partSize then total - start else partSize).toNat
            ≤ (total - start).toNat := by
        split <;> omega
      by_cases hfull : (if total - start < partSize then total - start else partSize).toNat
          ≤ unread.length
      · rw [uploadLoop_read w link src partSize total fuel i start unread acc _ _ hlt
          (readFull_full src unread _ hfull) (fun _ hx => Option.noConfusion hx)] at h
        generalize (if total - start < partSize then total - start else partSize).toNat = m
          at hm hfull h
        have hlen : (unread.take m).length = m := by
          rw [List.length_take]
          omega
        cases hctx : w.ctxDone i with
        | some err =>
          simp only [hctx] at h
          rw [← Option.some.inj h] at herr
          exact absurd herr (by simp)
        | none =>
          simp only [hctx] at h
          rw [if_neg (by omega)] at h
          have hnext := uploadAfterRead_success w i _ _ _ res h herr
          rw [ih _ _ _ _ _ hnext herr, bytesSent_append, List.length_drop, hlen]
          simp only [bytesSent, chunkOf, List.map_cons, List.map_nil, List.sum_cons, List.sum_nil,
            hlen]
          omega
      · cases hf : src.failure with
        | some err =>
          rw [uploadLoop_read_failure w link src partSize total fuel i start unread acc _ err hlt
            (readFull_short_failure src unread _ err hfull hf)] at h
          cases hctx : w.ctxDone i with
          | some err1 =>
            simp only [hctx] at h
            rw [← Option.some.inj h] at herr
            exact absurd herr (by simp)
          | none =>
            simp only [hctx] at h
            rw [← Option.some.inj h] at herr
            exact absurd herr (by simp)
        | none =>
          rw [uploadLoop_read w link src partSize total fuel i start unread acc _ _ hlt
            (readFull_short_eof src unread _ hfull hf) (by intro err; split <;> simp)] at h
          cases hctx : w.ctxDone i with
          | some err1 =>
            simp only [hctx] at h
            rw [← Option.some.inj h] at herr
            exact absurd herr (by simp)
          | none =>
            simp only [hctx] at h
            by_cases h0 : unread.length = 0
            · simp only [h0, if_true] at h
              rw [← Option.some.inj h, h0]
              simp [uploadDone]
            · simp only [if_neg h0] at h
              have hnext := uploadAfterRead_success w i _ _ _ res h herr
              rw [ih _ _ _ _ _ hnext herr, bytesSent_append, List.length_drop]
              simp only [bytesSent, chunkOf, List.map_cons, List.map_nil, List.sum_cons,
                List.sum_nil]
              omega
    · simp only [uploadLoop, if_neg hlt] at h
      rw [← Option.some.inj h]
      have : (total - start).toNat = 0 := by omega
      simp [uploadDone, this]

/-- With every chunk accepted and a reader that ends with `io.EOF`, the loop of
`UploadInChunks` ends without error. -/
theorem uploadLoop_accepted_success (w : UploadWorld) (link : ResourceUploadLink) (src : Source)
    (partSize total : Int) (hp : 1 ≤ partSize) (hf : src.failure = none)
    (hnew : w.newRequest = none) (hacc : ∀ i, chunkAccepted w i) :
    ∀ (fuel i : Nat) (start : Int) (unread : List Nat) (acc : List ChunkRequest),
      (total - start).toNat < fuel →
      ∃ res, uploadLoop w link src partSize total fuel i start unread acc = some res ∧
        res.err = none ∧ res.result.StatusCode = 202 := by
  intro fuel
  induction fuel with
  | zero =>
    intro i start unread acc h
    omega
  | succ fuel ih =>
    intro i start unread acc h
    by_cases hlt : start < total
    · have hm : 1 ≤ (if total - start < partSize then total - start else partSize).toNat := by
        split <;> omega
      by_cases hfull : (if total - start < partSize then total - start else partSize).toNat
          ≤ unread.length
      · rw [uploadLoop_read w link src partSize total fuel i start unread acc _ _ hlt
          (readFull_full src unread _ hfull) (fun _ hx => Option.noConfusion hx)]
        generalize (if total - start < partSize then total - start else partSize).toNat = m
          at hm hfull
        have hlen : (unread.take m).length = m := by
          rw [List.length_take]
          omega
        simp only [(hacc i).1]
        rw [if_neg (by omega), uploadAfterRead_accepted w i _ _ _ hnew (hacc i)]
        apply ih
        omega
      · rw [uploadLoop_read w link src partSize total fuel i start unread acc _ _ hlt
          (readFull_short_eof src unread _ hfull hf) (by intro err; split <;> simp)]
        simp only [(hacc i).1]
        by_cases h0 : unread.length = 0
        · rw [if_pos h0]
          exact ⟨_, rfl, rfl, rfl⟩
        · rw [if_neg h0, uploadAfterRead_accepted w i _ _ _ hnew (hacc i)]
          apply ih
          omega
    · simp only [uploadLoop, if_neg hlt]
      exact ⟨_, rfl, rfl, rfl⟩

/-- C26 (counterexample): a source whose `Seek` reports eleven bytes but which
yields the five bytes of `hello` and then `io.EOF`, at part size 4 against a
server that accepts every chunk. `UploadInChunks` sends `bytes 0-3/11` and
`bytes 4-4/11`, five bytes in all and not eleven, and returns without error
with status 202. -/
theorem UploadInChunks_short_source_succeeds :
    truncatedSource.size = .inr 11 ∧
      (UploadInChunks acceptingUploadWorld (some chunkTestLink) (some truncatedSource)
          { PartSize := 4 }).map
          (fun res => (res.err, res.result.StatusCode, bytesSent res.requests,
            res.requests.map fun r => r.ContentRange))
        = some (none, 202, 5, ["bytes 0-3/11", "bytes 4-4/11"]) := by
  decide

/-- C26 (amended): `UploadInChunks` accepts a short read whenever the reader
reports the end of the data. For a source whose `Seek` reports the length `T`
and whose `Read` yields `L` bytes: whenever the call returns without error, the
lengths of the request bodies sum to `min L T`; and when `L < T`, the reader
ends with `io.EOF` and every chunk is accepted, the call returns without error
with status 202 after it has sent those `L` bytes. -/
theorem UploadInChunks_bytesSent :
    (∀ (w : UploadWorld) (link : ResourceUploadLink) (src : Source) (cfg : UploadChunkRequest)
        (T : Int) (res : UploadResult),
      src.size = .inr T → UploadInChunks w (some link) (some src) cfg = some res →
      res.err = none → bytesSent res.requests = min src.content.length T.toNat) ∧
    (∀ (w : UploadWorld) (link : ResourceUploadLink) (src : Source) (cfg : UploadChunkRequest)
        (T : Int),
      link.Href ≠ "" → link.Method ≠ "" → src.size = .inr T → src.rewind = none →
      src.failure = none → w.newRequest = none → (∀ i, chunkAccepted w i) →
      (src.content.length : Int) < T →
      ∃ res, UploadInChunks w (some link) (some src) cfg = some res ∧ res.err = none ∧
        res.result.StatusCode = 202 ∧ bytesSent res.requests = src.content.length) := by
  have key : ∀ (w : UploadWorld) (link : ResourceUploadLink) (src : Source)
      (cfg : UploadChunkRequest) (T : Int) (res : UploadResult),
      src.size = .inr T → UploadInChunks w (some link) (some src) cfg = some res →
      res.err = none → bytesSent res.requests = min src.content.length T.toNat := by
    intro w link src cfg T res hsize hrun herr
    have hpos := normalizePartSize_pos cfg.PartSize
    unfold UploadInChunks at hrun
    by_cases hlink : link.Href = "" ∨ link.Method = ""
    · simp only [if_pos hlink] at hrun
      rw [← Option.some.inj hrun] at herr
      exact absurd herr (by simp)
    · simp only [if_neg hlink, hsize] at hrun
      cases hrw : src.rewind with
      | some e =>
        simp only [hrw] at hrun
        rw [← Option.some.inj hrun] at herr
        exact absurd herr (by simp)
      | none =>
        simp only [hrw] at hrun
        have := uploadLoop_bytesSent w link src _ T hpos _ _ _ _ _ res hrun herr
        simpa [bytesSent] using this
  refine ⟨key, ?_⟩
  intro w link src cfg T hhref hmethod hsize hrewind hf hnew hacc hlt
  have hpos := normalizePartSize_pos cfg.PartSize
  obtain ⟨res, hres, herr, hst⟩ := uploadLoop_accepted_success w link src
    (normalizePartSize cfg.PartSize) T hpos hf hnew hacc (T.toNat + 1) 0 0 src.content []
    (by omega)
  have hrun : UploadInChunks w (some link) (some src) cfg = some res := by
    unfold UploadInChunks
    simp only [hhref, hmethod, or_self, if_false, hsize, hrewind]
    exact hres
  refine ⟨res, hrun, herr, hst, ?_⟩
  rw [key w link src cfg T res hsize hrun herr]
  omega

theorem UploadInChunks_bytesSent_witness :
    ∃ res, UploadInChunks acceptingUploadWorld (some chunkTestLink) (some truncatedSource)
        { PartSize := 4 } = some res ∧ res.err = none ∧
      res.result.StatusCode = 202 ∧ bytesSent res.requests = truncatedSource.content.length :=
  UploadInChunks_bytesSent.2 acceptingUploadWorld chunkTestLink truncatedSource { PartSize := 4 }
    11 (by decide) (by decide) rfl rfl rfl rfl (fun _ => ⟨rfl, _, rfl, Or.inl rfl, rfl⟩)
    (by decide)

/-! ### The operation worker -/

theorem lookup_eq_none_of_not_mem_keys (l : List (String × watchState)) (k : String)
    (h : k ∉ l.map fun kv => kv.1) : l.lookup k = none := by
  induction l with
  | nil => rfl
  | cons a l ih =>
    simp only [List.map_cons, List.mem_cons, not_or] at h
    rw [List.lookup_cons]
    have : (k == a.1) = false := by simpa using h.1
    rw [this]
    exact ih h.2

theorem mem_keys_of_lookup (l : List (String × watchState)) (k : String) (st : watchState)
    (h : l.lookup k = some st) : (k, st) ∈ l := by
  induction l with
  | nil => simp at h
  | cons a l ih =>
    rw [List.lookup_cons] at h
    by_cases hk : k = a.1
    · have : (k == a.1) = true := by simpa using hk
      rw [this] at h
      simp only [Option.some.injEq] at h
      rw [← h, hk]
      exact List.mem_cons_self _ _
    · have : (k == a.1) = false := by simpa using hk
      rw [this] at h
      exact List.mem_cons_of_mem _ (ih h)

theorem lookup_of_mem_nodup (l : List (String × watchState)) (kv : String × watchState)
    (hnd : (l.map fun kv => kv.1).Nodup) (h : kv ∈ l) : l.lookup kv.1 = some kv.2 := by
  induction l with
  | nil => simp at h
  | cons a l ih =>
    simp only [List.map_cons, List.nodup_cons] at hnd
    rw [List.lookup_cons]
    rcases List.mem_cons.mp h with rfl | h
    · simp
    · have hne : kv.1 ≠ a.1 := by
        intro heq
        exact hnd.1 (heq ▸ List.mem_map_of_mem (fun kv => kv.1) h)
      have : (kv.1 == a.1) = false := by simpa using hne
      rw [this]
      exact ih hnd.2 h

/-- Looking up a key after a pass that rewrites or drops entries but keeps
their keys. -/
theorem lookup_filterMap_keyed (φ : String × watchState → Option watchState)
    (l : List (String × watchState)) (k : String) (hnd : (l.map fun kv => kv.1).Nodup) :
    (l.filterMap fun kv => (φ kv).map fun st => (kv.1, st)).lookup k
      = (l.lookup k).bind fun st => φ (k, st) := by
  induction l with
  | nil => rfl
  | cons a l ih =>
    simp only [List.map_cons, List.nodup_cons] at hnd
    rw [List.filterMap_cons, List.lookup_cons]
    by_cases hk : k = a.1
    · have hbeq : (k == a.1) = true := by simpa using hk
      rw [hbeq]
      simp only [Option.some_bind]
      subst hk
      cases hφ : φ a with
      | none =>
        simp only [Option.map_none']
        rw [ih hnd.2, lookup_eq_none_of_not_mem_keys l a.1 hnd.1]
        rfl
      | some st =>
        simp only [Option.map_some', List.lookup_cons, beq_self_eq_true]
    · have hbeq : (k == a.1) = false := by simpa using hk
      rw [hbeq]
      cases hφ : φ a with
      | none =>
        simp only [Option.map_none']
        exact ih hnd.2
      | some st =>
        simp only [Option.map_some', List.lookup_cons, hbeq]
        exact ih hnd.2

theorem polledIDs_append (a b : List WorkerEvent) :
    polledIDs (a ++ b) = polledIDs a ++ polledIDs b := by
  induction a with
  | nil => rfl
  | cons e a ih =>
    cases e <;> simp [polledIDs, ih]

theorem polledIDs_dispatch (c : Client) (handlers : List Handler) (event : OperationEvent) :
    polledIDs (OperationWorker.dispatch c handlers event) = [] := by
  unfold OperationWorker.dispatch
  rw [polledIDs_append]
  have h1 : polledIDs (if c.hooks.OnOperationEvent = true
      then [WorkerEvent.onOperationEvent event] else []) = [] := by
    split <;> rfl
  have h2 : polledIDs (handlers.map fun h => WorkerEvent.handler h event) = [] := by
    induction handlers with
    | nil => rfl
    | cons h hs ih => simpa [polledIDs] using ih
  rw [h1, h2]
  rfl

theorem bump_watchers (w : OperationWorker) (now : Int) (fl : Int → Int) (id : String)
    (onError : Bool) :
    w.bump now fl id onError
      = { w with watchers := w.watchers.map fun kv =>
            if kv.1 = id then (kv.1, bumpedState w.cfg now fl kv.2 onError) else kv } := by
  unfold OperationWorker.bump
  cases hl : w.watchers.lookup id with
  | some st => rfl
  | none =>
    simp only
    have hid : w.watchers.map (fun kv =>
        if kv.1 = id then (kv.1, bumpedState w.cfg now fl kv.2 onError) else kv) = w.watchers := by
      conv_rhs => rw [← List.map_id w.watchers]
      apply List.map_congr_left
      intro kv hkv
      have hne : kv.1 ≠ id := by
        intro heq
        have hnd : w.watchers.lookup kv.1 ≠ none := by
          intro hnone
          have := List.lookup_eq_none_iff.mp hnone kv hkv
          simp at this
        exact hnd (heq ▸ hl)
      simp [hne]
    rw [hid]

/-- One poll of the second loop of `tick`: what it does to the table is what
`polledEntry` says for the polled id. -/
theorem tickLoop_cons (c : Client) (env : TickWorld) (s : watchState) (rest : List watchState)
    (w : OperationWorker) (tr : List WorkerEvent)
    (hkey : ∀ kv ∈ w.watchers, kv.2.ref.ID = kv.1) :
    ∃ w1 tr1, OperationWorker.tickLoop c env (s :: rest) w tr
        = OperationWorker.tickLoop c env rest w1 tr1 ∧
      w1.cfg = w.cfg ∧ w1.started = w.started ∧
      w1.watchers = w.watchers.filterMap (polledEntry w.cfg env [s.ref.ID]) ∧
      polledIDs tr1 = polledIDs tr ++ [s.ref.ID] := by
  have hbump : ∀ onError : Bool,
      w.watchers.map (fun kv =>
        if kv.1 = s.ref.ID then
          (kv.1, bumpedState w.cfg (env.bumpNow s.ref.ID) (env.fl s.ref.ID) kv.2 onError)
        else kv)
      = w.watchers.filterMap (fun kv =>
        if kv.1 = s.ref.ID then
          some (kv.1, bumpedState w.cfg (env.bumpNow s.ref.ID) (env.fl s.ref.ID) kv.2 onError)
        else some kv) := by
    intro onError
    rw [← List.filterMap_eq_map]
    apply List.filterMap_congr
    intro kv _
    simp only [Function.comp]
    split <;> rfl
  cases hget : OperationsService.GetStatus env.poll s.ref.ID with
  | inl err =>
    refine ⟨w.bump (env.bumpNow s.ref.ID) (env.fl s.ref.ID) s.ref.ID true,
      tr ++ [WorkerEvent.getStatus s.ref.ID] ++
        OperationWorker.dispatch c s.handlers { Ref := s.ref, Err := some err },
      by simp only [OperationWorker.tickLoop, hget], ?_, ?_, ?_, ?_⟩
    · rw [bump_watchers]
    · rw [bump_watchers]
    · rw [bump_watchers]
      simp only
      rw [hbump true]
      apply List.filterMap_congr
      intro kv hkv
      simp only [polledEntry, polledState, List.mem_singleton, hkey kv hkv]
      by_cases hk : kv.1 = s.ref.ID
      · simp only [if_pos hk, ← hk, hkey kv hkv]
        rw [hk, hget]
        rfl
      · simp only [if_neg hk]
    · simp [polledIDs_append, polledIDs_dispatch, polledIDs]
  | inr status =>
    by_cases hterm : status.IsTerminal = true
    · refine ⟨w.remove s.ref.ID,
        tr ++ [WorkerEvent.getStatus s.ref.ID] ++
          OperationWorker.dispatch c s.handlers
            { Ref := s.ref, Status := status.Status, Done := status.IsTerminal },
        by simp only [OperationWorker.tickLoop, hget, hterm, if_true], rfl, rfl, ?_, ?_⟩
      · simp only [OperationWorker.remove]
        rw [← List.filterMap_eq_filter]
        apply List.filterMap_congr
        intro kv hkv
        simp only [polledEntry, polledState, List.mem_singleton, Option.guard]
        by_cases hk : kv.1 = s.ref.ID
        · have hget1 : OperationsService.GetStatus env.poll kv.1 = .inr status := hk ▸ hget
          simp only [if_pos hk, hkey kv hkv]
          rw [hget1]
          simp [hterm, hk]
        · simp [hk]
      · simp [polledIDs_append, polledIDs_dispatch, polledIDs]
    · refine ⟨w.bump (env.bumpNow s.ref.ID) (env.fl s.ref.ID) s.ref.ID false,
        tr ++ [WorkerEvent.getStatus s.ref.ID] ++
          OperationWorker.dispatch c s.handlers
            { Ref := s.ref, Status := status.Status, Done := status.IsTerminal },
        by simp only [OperationWorker.tickLoop, hget, hterm]; rfl, ?_, ?_, ?_, ?_⟩
      · rw [bump_watchers]
      · rw [bump_watchers]
      · rw [bump_watchers]
        simp only
        rw [hbump false]
        apply List.filterMap_congr
        intro kv hkv
        simp only [polledEntry, polledState, List.mem_singleton]
        by_cases hk : kv.1 = s.ref.ID
        · simp only [if_pos hk, hkey kv hkv]
          rw [hk, hget]
          simp [hterm]
        · simp only [if_neg hk]
      · simp [polledIDs_append, polledIDs_dispatch, polledIDs]

theorem polledState_ref (cfg : WorkerConfig) (env : TickWorld) (st st1 : watchState)
    (h : polledState cfg env st = some st1) :
    st1.ref = st.ref ∧ st1.handlers = st.handlers := by
  unfold polledState at h
  split at h
  · rw [← Option.some.inj h]
    exact ⟨rfl, rfl⟩
  · split at h
    · exact absurd h (by simp)
    · rw [← Option.some.inj h]
      exact ⟨rfl, rfl⟩

theorem polledEntry_key (cfg : WorkerConfig) (env : TickWorld) (ids : List String)
    (kv kv1 : String × watchState) (h : polledEntry cfg env ids kv = some kv1) :
    kv1.1 = kv.1 ∧ kv1.2.ref = kv.2.ref ∧ kv1.2.handlers = kv.2.handlers := by
  unfold polledEntry at h
  split at h
  · cases hp : polledState cfg env kv.2 with
    | none =>
      rw [hp] at h
      exact absurd h (by simp)
    | some st =>
      rw [hp] at h
      simp only [Option.map_some', Option.some.injEq] at h
      rw [← h]
      exact ⟨rfl, polledState_ref cfg env kv.2 st hp⟩
  · rw [← Option.some.inj h]
    exact ⟨rfl, rfl, rfl⟩

/-- The second loop of `tick` over states with distinct ids: the table it
leaves, and the ids it polls. -/
theorem tickLoop_spec (c : Client) (env : TickWorld) :
    ∀ (states : List watchState) (w : OperationWorker) (tr : List WorkerEvent),
      (∀ kv ∈ w.watchers, kv.2.ref.ID = kv.1) →
      (states.map fun s => s.ref.ID).Nodup →
      (OperationWorker.tickLoop c env states w tr).1.cfg = w.cfg ∧
      (OperationWorker.tickLoop c env states w tr).1.started = w.started ∧
      (OperationWorker.tickLoop c env states w tr).1.watchers
        = w.watchers.filterMap (polledEntry w.cfg env (states.map fun s => s.ref.ID)) ∧
      polledIDs (OperationWorker.tickLoop c env states w tr).2
        = polledIDs tr ++ states.map fun s => s.ref.ID := by
  intro states
  induction states with
  | nil =>
    intro w tr _ _
    refine ⟨rfl, rfl, ?_, by simp [OperationWorker.tickLoop]⟩
    have hfun : polledEntry w.cfg env [] = some := by
      funext kv
      simp [polledEntry]
    simp only [OperationWorker.tickLoop, List.map_nil, hfun, List.filterMap_some]
  | cons s rest ih =>
    intro w tr hkey hnd
    simp only [List.map_cons, List.nodup_cons] at hnd
    obtain ⟨w1, tr1, hstep, hcfg, hstarted, hw1, htr1⟩ := tickLoop_cons c env s rest w tr hkey
    have hkey1 : ∀ kv ∈ w1.watchers, kv.2.ref.ID = kv.1 := by
      intro kv1 hkv1
      rw [hw1, List.mem_filterMap] at hkv1
      obtain ⟨kv, hkv, hp⟩ := hkv1
      obtain ⟨h1, h2, -⟩ := polledEntry_key _ _ _ kv kv1 hp
      rw [h1, h2]
      exact hkey kv hkv
    obtain ⟨i1, i2, i3, i4⟩ := ih w1 tr1 hkey1 hnd.2
    rw [hstep]
    refine ⟨i1.trans hcfg, i2.trans hstarted, ?_, ?_⟩
    · rw [i3, hw1, hcfg, List.filterMap_filterMap]
      apply List.filterMap_congr
      intro kv _
      by_cases hk : kv.1 = s.ref.ID
      · have hmem : kv.1 ∈ s.ref.ID :: rest.map fun s => s.ref.ID := by
          rw [hk]
          exact List.mem_cons_self _ _
        simp only [polledEntry, List.mem_singleton, if_pos hk, List.map_cons, if_pos hmem]
        cases polledState w.cfg env kv.2 with
        | none => rfl
        | some st =>
          simp only [Option.map_some', Option.some_bind]
          rw [if_neg (by rw [hk]; exact hnd.1)]
      · have hiff : kv.1 ∈ s.ref.ID :: rest.map (fun s => s.ref.ID)
            ↔ kv.1 ∈ rest.map fun s => s.ref.ID := by
          simp [hk]
        simp only [polledEntry, List.mem_singleton, if_neg hk, Option.some_bind, List.map_cons,
          hiff]
    · rw [i4, htr1]
      simp

/-- The table a tick leaves and the ids it polls, for a table that satisfies its
invariant: an entry that is due is polled and becomes what `polledState` says,
every other entry is left as it is. -/
theorem tick_spec (w : OperationWorker) (c : Client) (env : TickWorld) (hok : w.tableOK) :
    (w.tick c env).1.cfg = w.cfg ∧ (w.tick c env).1.started = w.started ∧
      (w.tick c env).1.watchers
        = w.watchers.filterMap (fun kv =>
            (if kv.2.nextPoll ≤ env.now then polledState w.cfg env kv.2 else some kv.2).map
              fun st => (kv.1, st)) ∧
      polledIDs (w.tick c env).2
        = (w.watchers.filter fun kv => kv.2.nextPoll ≤ env.now).map fun kv => kv.1 := by
  obtain ⟨hnd, hkey⟩ := hok
  have hfilter : (w.watchers.filter fun (kv : String × watchState) => ¬ kv.2.nextPoll > env.now)
      = w.watchers.filter fun kv => kv.2.nextPoll ≤ env.now := by
    apply List.filter_congr
    intro kv _
    simp
  have hids : (((w.watchers.filter fun (kv : String × watchState) =>
      ¬ kv.2.nextPoll > env.now).map fun kv => kv.2).map fun s => s.ref.ID)
      = (w.watchers.filter fun kv => kv.2.nextPoll ≤ env.now).map fun kv => kv.1 := by
    rw [hfilter, List.map_map]
    apply List.map_congr_left
    intro kv hkv
    exact hkey kv (List.mem_of_mem_filter hkv)
  have hsub : ((w.watchers.filter fun kv => kv.2.nextPoll ≤ env.now).map fun kv => kv.1).Nodup :=
    (List.Sublist.map _ (List.filter_sublist _)).nodup hnd
  obtain ⟨h1, h2, h3, h4⟩ := tickLoop_spec c env
    ((w.watchers.filter fun (kv : String × watchState) => ¬ kv.2.nextPoll > env.now).map
      fun kv => kv.2) w [] hkey (by rw [hids]; exact hsub)
  refine ⟨h1, h2, ?_, ?_⟩
  · unfold OperationWorker.tick
    rw [h3, hids]
    apply List.filterMap_congr
    intro kv hkv
    have hiff : kv.1 ∈ (w.watchers.filter fun kv => kv.2.nextPoll ≤ env.now).map (fun kv => kv.1)
        ↔ kv.2.nextPoll ≤ env.now := by
      constructor
      · intro hmem
        obtain ⟨kv1, hkv1, heq⟩ := List.mem_map.mp hmem
        have hmem1 := List.mem_of_mem_filter hkv1
        have h1 := lookup_of_mem_nodup w.watchers kv1 hnd hmem1
        have h2 := lookup_of_mem_nodup w.watchers kv hnd hkv
        rw [heq, h2] at h1
        have hdue := (List.mem_filter.mp hkv1).2
        rw [← Option.some.inj h1] at hdue
        simpa using hdue
      · intro hdue
        exact List.mem_map.mpr ⟨kv, List.mem_filter.mpr ⟨hkv, by simpa using hdue⟩, rfl⟩
    simp only [polledEntry]
    by_cases hdue : kv.2.nextPoll ≤ env.now
    · rw [if_pos (hiff.mpr hdue), if_pos hdue]
    · rw [if_neg (fun h => hdue (hiff.mp h)), if_neg hdue]
      rfl
  · unfold OperationWorker.tick
    rw [h4, hids]
    rfl

theorem Watch_some (w : OperationWorker) (now : Int) (ref : OperationRef) (h : Handler) :
    w.Watch now ref (some h)
      = if (watchedRef ref).ID = "" then (some (.other "operation id is required"), w)
        else
          (none, { w with watchers :=
            (match w.watchers.lookup (watchedRef ref).ID with
              | some _ => w.watchers
              | none =>
                w.watchers ++ [((watchedRef ref).ID,
                  ({ ref := watchedRef ref, handlers := [], interval := w.cfg.PollInterval,
                     nextPoll := now } : watchState))]).map fun (kv : String × watchState) =>
              if kv.1 = (watchedRef ref).ID then
                (kv.1, { kv.2 with handlers := kv.2.handlers ++ [h] })
              else kv }) := by
  rfl

theorem lookup_map_keyed (g : String × watchState → watchState)
    (l : List (String × watchState)) (k : String) :
    (l.map fun kv => (kv.1, g kv)).lookup k = (l.lookup k).map fun st => g (k, st) := by
  induction l with
  | nil => rfl
  | cons a l ih =>
    rw [List.map_cons, List.lookup_cons, List.lookup_cons]
    by_cases hk : k = a.1
    · have hbeq : (k == a.1) = true := by simpa using hk
      simp only [hbeq, Option.map_some']
      subst hk
      rfl
    · have hbeq : (k == a.1) = false := by simpa using hk
      simp only [hbeq]
      exact ih

theorem lookup_append_singleton (l : List (String × watchState)) (k id : String)
    (st : watchState) :
    (l ++ [(id, st)]).lookup k
      = match l.lookup k with
        | some s => some s
        | none => if k = id then some st else none := by
  induction l with
  | nil =>
    simp only [List.nil_append, List.lookup_cons, List.lookup_nil]
    by_cases hk : k = id
    · simp [hk]
    · have hbeq : (k == id) = false := by simpa using hk
      simp [hbeq, hk]
  | cons a l ih =>
    rw [List.cons_append, List.lookup_cons, List.lookup_cons]
    cases hbeq : (k == a.1) with
    | true => rfl
    | false => exact ih

/-- The table after a successful `Watch`, key by key. -/
theorem Watch_lookup (w : OperationWorker) (now : Int) (ref : OperationRef) (h : Handler)
    (hid : (watchedRef ref).ID ≠ "") (k : String) :
    (w.Watch now ref (some h)).2.watchers.lookup k
      = if k = (watchedRef ref).ID then
          match w.watchers.lookup k with
          | some st => some { st with handlers := st.handlers ++ [h] }
          | none =>
            some { ref := watchedRef ref, handlers := [h], interval := w.cfg.PollInterval,
                   nextPoll := now }
        else w.watchers.lookup k := by
  rw [Watch_some, if_neg hid]
  simp only
  have hfun : (fun (kv : String × watchState) =>
      if kv.1 = (watchedRef ref).ID then (kv.1, { kv.2 with handlers := kv.2.handlers ++ [h] })
      else kv)
      = fun kv => (kv.1, if kv.1 = (watchedRef ref).ID then
          { kv.2 with handlers := kv.2.handlers ++ [h] } else kv.2) := by
    funext kv
    split <;> rfl
  rw [hfun, lookup_map_keyed]
  cases hl : w.watchers.lookup (watchedRef ref).ID with
  | some st0 =>
    simp only
    by_cases hk : k = (watchedRef ref).ID
    · rw [if_pos hk, hk, hl]
      simp
    · rw [if_neg hk]
      cases w.watchers.lookup k <;> simp [hk]
  | none =>
    simp only
    rw [lookup_append_singleton]
    by_cases hk : k = (watchedRef ref).ID
    · rw [if_pos hk, hk, hl]
      simp
    · rw [if_neg hk]
      cases w.watchers.lookup k <;> simp [hk]

/-- The keys of the table after a successful `Watch`. -/
theorem Watch_keys (w : OperationWorker) (now : Int) (ref : OperationRef) (h : Handler)
    (hid : (watchedRef ref).ID ≠ "") :
    (w.Watch now ref (some h)).2.watchers.map (fun kv => kv.1)
      = match w.watchers.lookup (watchedRef ref).ID with
        | some _ => w.watchers.map fun kv => kv.1
        | none => w.watchers.map (fun kv => kv.1) ++ [(watchedRef ref).ID] := by
  rw [Watch_some, if_neg hid]
  simp only [List.map_map]
  have hfun : ((fun (kv : String × watchState) => kv.1) ∘ fun (kv : String × watchState) =>
      if kv.1 = (watchedRef ref).ID then (kv.1, { kv.2 with handlers := kv.2.handlers ++ [h] })
      else kv) = fun kv => kv.1 := by
    funext kv
    simp only [Function.comp]
    split <;> rfl
  rw [hfun]
  cases w.watchers.lookup (watchedRef ref).ID <;> simp

theorem Watch_frame (w : OperationWorker) (now : Int) (ref : OperationRef)
    (handler : Option Handler) :
    (w.Watch now ref handler).2.cfg = w.cfg ∧ (w.Watch now ref handler).2.started = w.started := by
  cases handler with
  | none => exact ⟨rfl, rfl⟩
  | some h =>
    rw [Watch_some]
    split <;> exact ⟨rfl, rfl⟩

theorem Watch_failed (w : OperationWorker) (now : Int) (ref : OperationRef)
    (handler : Option Handler) (h : handler = none ∨ (watchedRef ref).ID = "") :
    (w.Watch now ref handler).2 = w := by
  cases handler with
  | none => rfl
  | some hd =>
    rcases h with h | h
    · exact absurd h (by simp)
    · rw [Watch_some, if_pos h]

/-- C27: a call `Watch(ref, handler)` that returns nil has a handler `h` and a
non-empty id, the id of the ref or the one derived from its href. If the table
has an entry for that id, `h` is appended at the end of its handlers and its
ref, interval and next poll stay as they are; otherwise the entry
`{ref, handlers: [h], interval: PollInterval, nextPoll: now}` is created. The
entry of every other id stays as it is, and the keys of the table are the old
ones, followed by the id when it is new: the table gains at most one key. -/
theorem watch_success_effect (w : OperationWorker) (now : Int) (ref : OperationRef)
    (handler : Option Handler) (hok : (w.Watch now ref handler).1 = none) :
    ∃ h, handler = some h ∧ (watchedRef ref).ID ≠ "" ∧
      (∀ st, w.watchers.lookup (watchedRef ref).ID = some st →
        (w.Watch now ref handler).2.watchers.lookup (watchedRef ref).ID
          = some { ref := st.ref, handlers := st.handlers ++ [h], interval := st.interval,
                   nextPoll := st.nextPoll }) ∧
      (w.watchers.lookup (watchedRef ref).ID = none →
        (w.Watch now ref handler).2.watchers.lookup (watchedRef ref).ID
          = some { ref := watchedRef ref, handlers := [h], interval := w.cfg.PollInterval,
                   nextPoll := now }) ∧
      (∀ k, k ≠ (watchedRef ref).ID →
        (w.Watch now ref handler).2.watchers.lookup k = w.watchers.lookup k) ∧
      ((w.Watch now ref handler).2.watchers.map (fun kv => kv.1)
          = w.watchers.map (fun kv => kv.1) ∨
        (w.watchers.lookup (watchedRef ref).ID = none ∧
          (w.Watch now ref handler).2.watchers.map (fun kv => kv.1)
            = w.watchers.map (fun kv => kv.1) ++ [(watchedRef ref).ID])) ∧
      (w.Watch now ref handler).2.watchers.length ≤ w.watchers.length + 1 := by
  cases handler with
  | none => exact absurd hok (by simp [OperationWorker.Watch])
  | some h =>
    have hid : (watchedRef ref).ID ≠ "" := by
      intro hid
      rw [Watch_some, if_pos hid] at hok
      exact absurd hok (by simp)
    have hkeys := Watch_keys w now ref h hid
    refine ⟨h, rfl, hid, ?_, ?_, ?_, ?_, ?_⟩
    · intro st hst
      rw [Watch_lookup w now ref h hid, if_pos rfl, hst]
    · intro hnone
      rw [Watch_lookup w now ref h hid, if_pos rfl, hnone]
    · intro k hk
      rw [Watch_lookup w now ref h hid, if_neg hk]
    · cases hl : w.watchers.lookup (watchedRef ref).ID with
      | some st =>
        rw [hl] at hkeys
        exact Or.inl hkeys
      | none =>
        rw [hl] at hkeys
        exact Or.inr ⟨rfl, hkeys⟩
    · have hlen := congrArg List.length hkeys
      rw [List.length_map] at hlen
      rw [hlen]
      cases w.watchers.lookup (watchedRef ref).ID <;> simp

theorem watch_success_effect_witness :
    ∃ h, some 2 = some h ∧ (watchedRef { ID := "op-1" }).ID ≠ "" ∧
      (∀ st,
        (OperationWorker.Watch ⟨⟨500000000, 10000000000, 0, 256⟩, [], false⟩ 0 { ID := "op-1" }
          (some 1)).2.watchers.lookup (watchedRef { ID := "op-1" }).ID = some st →
        ((OperationWorker.Watch ⟨⟨500000000, 10000000000, 0, 256⟩, [], false⟩ 0 { ID := "op-1" }
          (some 1)).2.Watch 7 { ID := "op-1" } (some 2)).2.watchers.lookup
            (watchedRef { ID := "op-1" }).ID
          = some { ref := st.ref, handlers := st.handlers ++ [h], interval := st.interval,
                   nextPoll := st.nextPoll }) :=
  have hw := watch_success_effect
    (OperationWorker.Watch ⟨⟨500000000, 10000000000, 0, 256⟩, [], false⟩ 0 { ID := "op-1" }
      (some 1)).2 7 { ID := "op-1" } (some 2) (by decide)
  hw.elim fun h hh => ⟨h, hh.1, hh.2.1, hh.2.2.1⟩

theorem tableOK_new (cfg : WorkerConfig) : (newOperationWorker cfg).tableOK := by
  constructor
  · exact List.nodup_nil
  · intro kv hkv
    cases hkv

theorem tableOK_Watch (w : OperationWorker) (now : Int) (ref : OperationRef)
    (handler : Option Handler) (hok : w.tableOK) : (w.Watch now ref handler).2.tableOK := by
  cases handler with
  | none => exact hok
  | some h =>
    by_cases hid : (watchedRef ref).ID = ""
    · rw [Watch_failed w now ref (some h) (Or.inr hid)]
      exact hok
    · obtain ⟨hnd, hkey⟩ := hok
      constructor
      · rw [Watch_keys w now ref h hid]
        cases hl : w.watchers.lookup (watchedRef ref).ID with
        | some st => exact hnd
        | none =>
          simp only
          rw [List.nodup_append]
          refine ⟨hnd, List.nodup_singleton _, ?_⟩
          intro a ha hb
          rw [List.mem_singleton] at hb
          rw [hb] at ha
          obtain ⟨kv, hkv, hk⟩ := List.mem_map.mp ha
          have := List.lookup_eq_none_iff.mp hl kv hkv
          simp [hk] at this
      · intro kv hkv
        rw [Watch_some, if_neg hid] at hkv
        simp only [List.mem_map] at hkv
        obtain ⟨kv0, hkv0, heq⟩ := hkv
        have hkey0 : kv0.2.ref.ID = kv0.1 := by
          cases hl : w.watchers.lookup (watchedRef ref).ID with
          | some st =>
            rw [hl] at hkv0
            exact hkey kv0 hkv0
          | none =>
            rw [hl] at hkv0
            rcases List.mem_append.mp hkv0 with hm | hm
            · exact hkey kv0 hm
            · rw [List.mem_singleton] at hm
              rw [hm]
        rw [← heq]
        split <;> exact hkey0

theorem tableOK_tick (w : OperationWorker) (c : Client) (env : TickWorld) (hok : w.tableOK) :
    (w.tick c env).1.tableOK := by
  obtain ⟨-, -, hw, -⟩ := tick_spec w c env hok
  obtain ⟨hnd, hkey⟩ := hok
  constructor
  · rw [hw]
    refine (List.Sublist.nodup ?_ hnd)
    generalize w.watchers = l
    induction l with
    | nil => exact List.Sublist.refl _
    | cons a l ih =>
      rw [List.filterMap_cons]
      cases hφ : (if a.2.nextPoll ≤ env.now then polledState w.cfg env a.2 else some a.2) with
      | none =>
        simp only [Option.map_none', List.map_cons]
        exact List.Sublist.cons _ ih
      | some st =>
        simp only [Option.map_some', List.map_cons]
        exact List.Sublist.cons₂ _ ih
  · intro kv1 hkv1
    rw [hw, List.mem_filterMap] at hkv1
    obtain ⟨kv, hkv, hp⟩ := hkv1
    by_cases hdue : kv.2.nextPoll ≤ env.now
    · rw [if_pos hdue] at hp
      cases hps : polledState w.cfg env kv.2 with
      | none =>
        rw [hps] at hp
        exact absurd hp (by simp)
      | some st =>
        rw [hps] at hp
        simp only [Option.map_some', Option.some.injEq] at hp
        rw [← hp]
        simp only
        rw [(polledState_ref w.cfg env kv.2 st hps).1]
        exact hkey kv hkv
    · rw [if_neg hdue] at hp
      simp only [Option.map_some', Option.some.injEq] at hp
      rw [← hp]
      exact hkey kv hkv

theorem tableOK_step (c : Client) (w : OperationWorker) (s : WorkerStep) (hok : w.tableOK) :
    (w.step c s).1.tableOK := by
  cases s with
  | watch now ref handler => exact tableOK_Watch w now ref handler hok
  | tick env => exact tableOK_tick w c env hok

theorem tableOK_run (c : Client) : ∀ (steps : List WorkerStep) (w : OperationWorker),
    w.tableOK → (OperationWorker.run c steps w).1.tableOK := by
  intro steps
  induction steps with
  | nil =>
    intro w hok
    exact hok
  | cons s steps ih =>
    intro w hok
    exact ih _ (tableOK_step c w s hok)

/-- The entry of a key after a tick on a table that satisfies its invariant:
an entry that is due becomes what its poll makes of it, any other entry stays
as it is. -/
theorem tick_lookup (w : OperationWorker) (c : Client) (env : TickWorld) (hok : w.tableOK)
    (k : String) :
    (w.tick c env).1.watchers.lookup k
      = (w.watchers.lookup k).bind fun st =>
          if st.nextPoll ≤ env.now then polledState w.cfg env st else some st := by
  obtain ⟨-, -, hw, -⟩ := tick_spec w c env hok
  rw [hw]
  exact lookup_filterMap_keyed
    (fun kv => if kv.2.nextPoll ≤ env.now then polledState w.cfg env kv.2 else some kv.2)
    w.watchers k hok.1

theorem mem_polledIDs_tick (w : OperationWorker) (c : Client) (env : TickWorld)
    (hok : w.tableOK) (id : String) :
    id ∈ polledIDs (w.tick c env).2
      ↔ ∃ st, w.watchers.lookup id = some st ∧ st.nextPoll ≤ env.now := by
  obtain ⟨-, -, -, hp⟩ := tick_spec w c env hok
  rw [hp, List.mem_map]
  constructor
  · rintro ⟨kv, hkv, rfl⟩
    have hm := List.mem_filter.mp hkv
    exact ⟨kv.2, lookup_of_mem_nodup w.watchers kv hok.1 hm.1, by simpa using hm.2⟩
  · rintro ⟨st, hst, hdue⟩
    exact ⟨(id, st), List.mem_filter.mpr ⟨mem_keys_of_lookup _ _ _ hst, by simpa using hdue⟩, rfl⟩

theorem bump_lookup (w : OperationWorker) (now : Int) (fl : Int → Int) (id : String)
    (onError : Bool) (k : String) :
    (w.bump now fl id onError).watchers.lookup k
      = (w.watchers.lookup k).map fun st =>
          if k = id then bumpedState w.cfg now fl st onError else st := by
  rw [bump_watchers]
  simp only
  have hfun : (fun (kv : String × watchState) =>
      if kv.1 = id then (kv.1, bumpedState w.cfg now fl kv.2 onError) else kv)
      = fun kv => (kv.1, if kv.1 = id then bumpedState w.cfg now fl kv.2 onError else kv.2) := by
    funext kv
    split <;> rfl
  rw [hfun, lookup_map_keyed]

theorem bump_keys (w : OperationWorker) (now : Int) (fl : Int → Int) (id : String)
    (onError : Bool) :
    (w.bump now fl id onError).watchers.map (fun kv => kv.1)
      = w.watchers.map fun kv => kv.1 := by
  rw [bump_watchers]
  simp only [List.map_map]
  apply List.map_congr_left
  intro kv _
  simp only [Function.comp]
  split <;> rfl

theorem bumpedState_error (cfg : WorkerConfig) (now : Int) (fl : Int → Int) (st : watchState)
    (hlo : -2 ^ 62 ≤ st.interval) (hhi : st.interval < 2 ^ 62) :
    bumpedState cfg now fl st true
      = { ref := st.ref, handlers := st.handlers
          interval := min (2 * st.interval) cfg.MaxInterval
          nextPoll := now + Client.jitter fl (min (2 * st.interval) cfg.MaxInterval) cfg.Jitter } := by
  have hw : wrap64 (st.interval * 2) = 2 * st.interval := by
    rw [wrap64_of_range _ (by omega) (by omega)]
    ring
  have hmin : (if 2 * st.interval > cfg.MaxInterval then cfg.MaxInterval else 2 * st.interval)
      = min (2 * st.interval) cfg.MaxInterval := by
    rw [min_def]
    split <;> split <;> omega
  simp only [bumpedState, if_true, hw, hmin]

/-- What a tick does with an entry that is due, by the outcome of its poll. -/
theorem tick_lookup_due (w : OperationWorker) (c : Client) (env : TickWorld) (hok : w.tableOK)
    (x : String) (st : watchState) (hx : w.watchers.lookup x = some st)
    (hdue : st.nextPoll ≤ env.now) :
    (w.tick c env).1.watchers.lookup x
      = match OperationsService.GetStatus env.poll x with
        | .inl _ => some (bumpedState w.cfg (env.bumpNow x) (env.fl x) st true)
        | .inr status =>
          if status.IsTerminal then none
          else some (bumpedState w.cfg (env.bumpNow x) (env.fl x) st false) := by
  have hid : st.ref.ID = x := hok.2 (x, st) (mem_keys_of_lookup _ _ _ hx)
  rw [tick_lookup w c env hok x, hx]
  simp only [Option.some_bind, if_pos hdue, polledState, hid]

/-- A table in which an id has no entry, under calls none of which is a `Watch`
for that id: the id gets no entry and no tick polls it. -/
theorem run_absent (c : Client) (x : String) :
    ∀ (steps : List WorkerStep) (w : OperationWorker), w.tableOK →
      w.watchers.lookup x = none →
      (∀ now ref handler, WorkerStep.watch now ref handler ∈ steps →
        handler = none ∨ (watchedRef ref).ID ≠ x) →
      (OperationWorker.run c steps w).1.watchers.lookup x = none ∧
        x ∉ polledIDs (OperationWorker.run c steps w).2 := by
  intro steps
  induction steps with
  | nil =>
    intro w _ hx _
    exact ⟨hx, by simp [OperationWorker.run, polledIDs]⟩
  | cons s steps ih =>
    intro w hok hx hsteps
    have hrest : ∀ now ref handler, WorkerStep.watch now ref handler ∈ steps →
        handler = none ∨ (watchedRef ref).ID ≠ x :=
      fun now ref handler hm => hsteps now ref handler (List.mem_cons_of_mem _ hm)
    have hstep : (w.step c s).1.watchers.lookup x = none ∧ x ∉ polledIDs (w.step c s).2 := by
      cases s with
      | watch now ref handler =>
        refine ⟨?_, by simp [OperationWorker.step, polledIDs]⟩
        simp only [OperationWorker.step]
        cases handler with
        | none => exact hx
        | some h =>
          by_cases hid : (watchedRef ref).ID = ""
          · rw [Watch_failed w now ref (some h) (Or.inr hid)]
            exact hx
          · rcases hsteps now ref (some h) (List.mem_cons_self _ _) with hn | hne
            · exact absurd hn (by simp)
            · rw [Watch_lookup w now ref h hid, if_neg (Ne.symm hne)]
              exact hx
      | tick env =>
        simp only [OperationWorker.step]
        refine ⟨?_, ?_⟩
        · rw [tick_lookup w c env hok x, hx]
          rfl
        · intro hmem
          obtain ⟨st, hst, -⟩ := (mem_polledIDs_tick w c env hok x).mp hmem
          rw [hx] at hst
          exact absurd hst (by simp)
    obtain ⟨h1, h2⟩ := ih (w.step c s).1 (tableOK_step c w s hok) hstep.1 hrest
    refine ⟨h1, ?_⟩
    simp only [OperationWorker.run, polledIDs_append, List.mem_append, not_or]
    exact ⟨hstep.2, h2⟩

theorem tableOK_lifecycleWorker : lifecycleWorker.tableOK :=
  tableOK_Watch _ _ _ _ (tableOK_new _)

/-- C28: a tick at the instant `now` on a table that satisfies its invariant
calls `GetStatus` for the ids of the entries with `nextPoll ≤ now`, in the order
of the table and once each, and for no other id: an id is polled exactly when
it has an entry that is due, so none is polled before its `nextPoll`. An
operation that a successful `Watch` at the instant `now0` has just entered is
polled by a tick at any instant `now ≥ now0`. -/
theorem tick_polls_exactly_due (w : OperationWorker) (c : Client) (env : TickWorld)
    (hok : w.tableOK) :
    polledIDs (w.tick c env).2
        = (w.watchers.filter fun kv => kv.2.nextPoll ≤ env.now).map (fun kv => kv.1) ∧
      (polledIDs (w.tick c env).2).Nodup ∧
      (∀ id, id ∈ polledIDs (w.tick c env).2
        ↔ ∃ st, w.watchers.lookup id = some st ∧ st.nextPoll ≤ env.now) ∧
      (∀ now0 ref handler, (w.Watch now0 ref handler).1 = none →
        w.watchers.lookup (watchedRef ref).ID = none → now0 ≤ env.now →
        (watchedRef ref).ID ∈ polledIDs ((w.Watch now0 ref handler).2.tick c env).2) := by
  obtain ⟨-, -, -, hp⟩ := tick_spec w c env hok
  refine ⟨hp, ?_, mem_polledIDs_tick w c env hok, ?_⟩
  · rw [hp]
    exact (List.Sublist.map _ (List.filter_sublist _)).nodup hok.1
  · intro now0 ref handler hsucc hnew hnow
    cases handler with
    | none => exact absurd hsucc (by simp [OperationWorker.Watch])
    | some h =>
      have hid : (watchedRef ref).ID ≠ "" := by
        intro hid
        rw [Watch_some, if_pos hid] at hsucc
        exact absurd hsucc (by simp)
      rw [mem_polledIDs_tick _ c env (tableOK_Watch w now0 ref (some h) hok)]
      refine ⟨{ ref := watchedRef ref, handlers := [h], interval := w.cfg.PollInterval,
                nextPoll := now0 }, ?_, hnow⟩
      rw [Watch_lookup w now0 ref h hid, if_pos rfl, hnew]

theorem tick_polls_exactly_due_witness :
    polledIDs (lifecycleWorker.tick plainClient (statusTick 100000000 "in-progress")).2
        = (lifecycleWorker.watchers.filter fun kv => kv.2.nextPoll ≤ 100000000).map
            (fun kv => kv.1) ∧
      polledIDs (lifecycleWorker.tick plainClient (statusTick 100000000 "in-progress")).2
        = ["op-1"] :=
  ⟨(tick_polls_exactly_due lifecycleWorker plainClient (statusTick 100000000 "in-progress")
      tableOK_lifecycleWorker).1, by decide⟩

/-- C21: in the sequential model, on a table that satisfies its invariant, take
an operation `x` with an entry that is due. If its poll returns a terminal
status, the tick that polled it leaves no entry for `x`, and in no sequence of
later ticks and `Watch` calls for other ids is `GetStatus` called for `x`. If
its poll returns an error or a status that is not terminal, the tick leaves
the entry for `x` in the table, with its ref and handlers. -/
theorem terminal_poll_removes (w : OperationWorker) (c : Client) (env : TickWorld) (x : String)
    (st : watchState) (hok : w.tableOK) (hx : w.watchers.lookup x = some st)
    (hdue : st.nextPoll ≤ env.now) :
    x ∈ polledIDs (w.tick c env).2 ∧
      (∀ status, OperationsService.GetStatus env.poll x = .inr status →
        status.IsTerminal = true →
        (w.tick c env).1.watchers.lookup x = none ∧
        ∀ steps : List WorkerStep,
          (∀ now ref handler, WorkerStep.watch now ref handler ∈ steps →
            handler = none ∨ (watchedRef ref).ID ≠ x) →
          x ∉ polledIDs (OperationWorker.run c steps (w.tick c env).1).2) ∧
      (∀ err, OperationsService.GetStatus env.poll x = .inl err →
        ∃ st1, (w.tick c env).1.watchers.lookup x = some st1 ∧ st1.ref = st.ref ∧
          st1.handlers = st.handlers) ∧
      (∀ status, OperationsService.GetStatus env.poll x = .inr status →
        status.IsTerminal = false →
        ∃ st1, (w.tick c env).1.watchers.lookup x = some st1 ∧ st1.ref = st.ref ∧
          st1.handlers = st.handlers) := by
  have hl := tick_lookup_due w c env hok x st hx hdue
  refine ⟨(mem_polledIDs_tick w c env hok x).mpr ⟨st, hx, hdue⟩, ?_, ?_, ?_⟩
  · intro status hget hterm
    rw [hget] at hl
    simp only [hterm, if_true] at hl
    exact ⟨hl, fun steps hsteps =>
      (run_absent c x steps _ (tableOK_tick w c env hok) hl hsteps).2⟩
  · intro err hget
    rw [hget] at hl
    exact ⟨_, hl, rfl, rfl⟩
  · intro status hget hterm
    rw [hget] at hl
    simp only [hterm] at hl
    exact ⟨_, hl, rfl, rfl⟩

theorem terminal_poll_removes_witness :
    "op-1" ∈ polledIDs (lifecycleWorker.tick plainClient (statusTick 100000000 "success")).2 ∧
      (lifecycleWorker.tick plainClient (statusTick 100000000 "success")).1.watchers.lookup "op-1"
        = none ∧
      "op-1" ∉ polledIDs (OperationWorker.run plainClient
        [.tick (statusTick 200000000 "success"), .tick (failingTick 300000000)]
        (lifecycleWorker.tick plainClient (statusTick 100000000 "success")).1).2 :=
  have h := terminal_poll_removes lifecycleWorker plainClient (statusTick 100000000 "success")
    "op-1" ⟨{ ID := "op-1" }, [1], 20000000, 0⟩ tableOK_lifecycleWorker (by decide) (by decide)
  ⟨h.1, (h.2.1 ⟨"success"⟩ (by decide) (by decide)).1,
    (h.2.1 ⟨"success"⟩ (by decide) (by decide)).2 _ (by
      intro now ref handler hm
      simp at hm)⟩

/-- C22 (counterexample): `WithWorkerConfig` accepts a poll interval of `2^62` ns
with the maximal interval `2^63 - 1`, and `Watch` gives the entry the interval
`i = 2^62`. After one tick in which the poll fails the interval of the entry is
`-2^63`, the wrapped product, where `min(2 * i, max_interval)` is `2^63 - 1`. -/
theorem poll_doubling_wraps :
    WithWorkerConfig hugeConfig = none ∧
      (((newOperationWorker hugeConfig).Watch 0 { ID := "op-1" } (some 1)).2.watchers.lookup
          "op-1").map (fun st => (st.interval, st.nextPoll)) = some (2 ^ 62, 0) ∧
      ((((newOperationWorker hugeConfig).Watch 0 { ID := "op-1" } (some 1)).2.tick plainClient
          (failingTick 0)).1.watchers.lookup "op-1").map (fun st => st.interval)
        = some (-2 ^ 63) ∧
      min (2 * 2 ^ 62) hugeConfig.MaxInterval = 2 ^ 63 - 1 := by
  decide

/-- C22 (amended): on a table that satisfies its invariant, take an operation `x`
with an entry that is due and whose interval `i` can be doubled in 64 bits,
`-2^62 ≤ i < 2^62`. After a tick
in which its poll fails, the entry is still there with interval
`min (2 * i) MaxInterval`; after a tick in which its poll returns a status that
is not terminal, the interval is `i`. In both cases `nextPoll` is the instant
`bump` reads plus the jitter of the new interval under the worker's jitter
factor, and ref and handlers are kept. An entry that is not due is left as it
is by the tick, and `bump` for `x` changes the entry of no other id and the key
set not at all. -/
theorem poll_updates_interval (w : OperationWorker) (c : Client) (env : TickWorld) (x : String)
    (st : watchState) (hok : w.tableOK) (hx : w.watchers.lookup x = some st)
    (hdue : st.nextPoll ≤ env.now) (hlo : -2 ^ 62 ≤ st.interval) (hhi : st.interval < 2 ^ 62) :
    (∀ err, OperationsService.GetStatus env.poll x = .inl err →
      (w.tick c env).1.watchers.lookup x
        = some { ref := st.ref, handlers := st.handlers
                 interval := min (2 * st.interval) w.cfg.MaxInterval
                 nextPoll := env.bumpNow x + Client.jitter (env.fl x)
                   (min (2 * st.interval) w.cfg.MaxInterval) w.cfg.Jitter }) ∧
    (∀ status, OperationsService.GetStatus env.poll x = .inr status →
      status.IsTerminal = false →
      (w.tick c env).1.watchers.lookup x
        = some { ref := st.ref, handlers := st.handlers, interval := st.interval
                 nextPoll := env.bumpNow x
                   + Client.jitter (env.fl x) st.interval w.cfg.Jitter }) ∧
    (∀ k sk, w.watchers.lookup k = some sk → env.now < sk.nextPoll →
      (w.tick c env).1.watchers.lookup k = some sk) ∧
    (∀ now fl onError k, k ≠ x →
      (w.bump now fl x onError).watchers.lookup k = w.watchers.lookup k) ∧
    (∀ now fl onError,
      (w.bump now fl x onError).watchers.map (fun kv => kv.1)
        = w.watchers.map fun kv => kv.1) := by
  have hl := tick_lookup_due w c env hok x st hx hdue
  refine ⟨?_, ?_, ?_, ?_, ?_⟩
  · intro err hget
    rw [hget] at hl
    rw [hl, bumpedState_error w.cfg _ _ st hlo hhi]
  · intro status hget hterm
    rw [hget] at hl
    simp only [hterm] at hl
    rw [hl]
    rfl
  · intro k sk hk hnot
    rw [tick_lookup w c env hok k, hk]
    simp only [Option.some_bind]
    rw [if_neg (by omega)]
  · intro now fl onError k hk
    rw [bump_lookup]
    cases w.watchers.lookup k with
    | none => rfl
    | some sk => simp [hk]
  · intro now fl onError
    exact bump_keys w now fl x onError

theorem poll_updates_interval_witness :
    (lifecycleWorker.tick plainClient (failingTick 100000000)).1.watchers.lookup "op-1"
        = some { ref := { ID := "op-1" }, handlers := [1]
                 interval := min (2 * 20000000) lifecycleWorker.cfg.MaxInterval
                 nextPoll := 101000000 + Client.jitter (fun d => d)
                   (min (2 * 20000000) lifecycleWorker.cfg.MaxInterval)
                   lifecycleWorker.cfg.Jitter } ∧
      (lifecycleWorker.tick plainClient (statusTick 100000000 "in-progress")).1.watchers.lookup
          "op-1"
        = some { ref := { ID := "op-1" }, handlers := [1], interval := 20000000
                 nextPoll := 101000000 + Client.jitter (fun d => d) 20000000
                   lifecycleWorker.cfg.Jitter } :=
  ⟨(poll_updates_interval lifecycleWorker plainClient (failingTick 100000000) "op-1"
      ⟨{ ID := "op-1" }, [1], 20000000, 0⟩ tableOK_lifecycleWorker (by decide) (by decide)
      (by decide) (by decide)).1 (.other "connection refused") (by decide),
    (poll_updates_interval lifecycleWorker plainClient (statusTick 100000000 "in-progress") "op-1"
      ⟨{ ID := "op-1" }, [1], 20000000, 0⟩ tableOK_lifecycleWorker (by decide) (by decide)
      (by decide) (by decide)).2.1 ⟨"in-progress"⟩ (by decide) (by decide)⟩

/-- C23: `Start` with a context that is done returns the error of the context
and leaves the worker as it was, so a worker that was not started stays so.
`Start` with a live context marks a stopped worker started and returns nil, and
on a started worker it changes nothing and returns nil. `Stop` on a worker that
is not started returns nil and changes nothing. `Stop` with a live context on a
started worker returns nil and leaves it not started, so `Stop` after `Start`
returns nil and a second `Stop` returns nil as well. -/
theorem worker_lifecycle (w : OperationWorker) :
    (∀ err, w.Start (some err) = (some err, w)) ∧
      (w.started = false → w.Start none = (none, { w with started := true })) ∧
      (w.started = true → w.Start none = (none, w)) ∧
      (w.started = false → ∀ ctxErr, w.Stop ctxErr = (none, w)) ∧
      (w.started = true → w.Stop none = (none, { w with started := false })) ∧
      ((w.Start none).1 = none ∧ (w.Start none).2.started = true ∧
        ((w.Start none).2.Stop none).1 = none ∧
        ((w.Start none).2.Stop none).2.started = false ∧
        ∀ ctxErr, ((w.Start none).2.Stop none).2.Stop ctxErr
          = (none, ((w.Start none).2.Stop none).2)) := by
  refine ⟨fun err => rfl, ?_, ?_, ?_, ?_, ?_⟩
  · intro h
    simp [OperationWorker.Start, h]
  · intro h
    simp [OperationWorker.Start, h]
  · intro h ctxErr
    simp [OperationWorker.Stop, h]
  · intro h
    simp [OperationWorker.Stop, h]
  · cases hs : w.started <;> simp [OperationWorker.Start, OperationWorker.Stop, hs]

theorem worker_lifecycle_witness :
    (newOperationWorker DefaultWorkerConfig).Start none
        = (none, { newOperationWorker DefaultWorkerConfig with started := true }) ∧
      ∀ ctxErr, (newOperationWorker DefaultWorkerConfig).Stop ctxErr
        = (none, newOperationWorker DefaultWorkerConfig) :=
  ⟨(worker_lifecycle (newOperationWorker DefaultWorkerConfig)).2.1 rfl,
    (worker_lifecycle (newOperationWorker DefaultWorkerConfig)).2.2.2.1 rfl⟩

/-- C29 (counterexample): `WithWorkerConfig` accepts a poll interval of 10 s with
a maximal interval of 1 s. The entry `Watch` creates has the interval 10 s, above
the maximum, and after one failed poll it has 1 s: the interval has decreased,
below the poll interval. It also accepts a poll interval of `2^62` ns, whose
doubling overflows: after one failed poll the interval is `-2^63`. -/
theorem interval_bounds_counterexample :
    WithWorkerConfig invertedConfig = none ∧
      ((newOperationWorker invertedConfig).Watch 0 { ID := "op-1" } (some 1)).2.watchers.lookup
          "op-1"
        = some ⟨{ ID := "op-1" }, [1], 10000000000, 0⟩ ∧
      (OperationWorker.run plainClient
          [.watch 0 { ID := "op-1" } (some 1), .tick (failingTick 0)]
          (newOperationWorker invertedConfig)).1.watchers.lookup "op-1"
        = some ⟨{ ID := "op-1" }, [1], 1000000000, 1001000000⟩ ∧
      WithWorkerConfig hugeConfig = none ∧
      (OperationWorker.run plainClient
          [.watch 0 { ID := "op-1" } (some 1), .tick (failingTick 0)]
          (newOperationWorker hugeConfig)).1.watchers.lookup "op-1"
        = some ⟨{ ID := "op-1" }, [1], -2 ^ 63, 1000000 - 2 ^ 63⟩ := by
  decide

theorem WithWorkerConfig_accepts (cfg : WorkerConfig) (h : WithWorkerConfig cfg = none) :
    0 < cfg.PollInterval ∧ 0 < cfg.MaxInterval ∧ 0 < cfg.QueueSize ∧ ¬ cfg.Jitter < 0 := by
  unfold WithWorkerConfig at h
  split_ifs at h with h1 h2 h3
  exact ⟨by omega, by omega, by omega, h3⟩

/-- One call on a worker whose intervals lie between the poll interval and the
maximal interval keeps them there and lets none decrease. -/
theorem step_intervals (c : Client) (w : OperationWorker) (s : WorkerStep) (hok : w.tableOK)
    (hpos : 0 < w.cfg.PollInterval) (hle : w.cfg.PollInterval ≤ w.cfg.MaxInterval)
    (hmax : w.cfg.MaxInterval < 2 ^ 62)
    (hinv : ∀ k st, w.watchers.lookup k = some st →
      w.cfg.PollInterval ≤ st.interval ∧ st.interval ≤ w.cfg.MaxInterval) :
    (w.step c s).1.cfg = w.cfg ∧
      ∀ k st1, (w.step c s).1.watchers.lookup k = some st1 →
        (w.cfg.PollInterval ≤ st1.interval ∧ st1.interval ≤ w.cfg.MaxInterval) ∧
        ∀ st, w.watchers.lookup k = some st → st.interval ≤ st1.interval := by
  cases s with
  | watch now ref handler =>
    refine ⟨(Watch_frame w now ref handler).1, ?_⟩
    intro k st1 hk
    simp only [OperationWorker.step] at hk
    cases handler with
    | none =>
      refine ⟨hinv k st1 hk, ?_⟩
      intro st hst
      have : (w.Watch now ref none).2 = w := rfl
      rw [this, hst] at hk
      rw [Option.some.inj hk]
    | some h =>
      by_cases hid : (watchedRef ref).ID = ""
      · rw [Watch_failed w now ref (some h) (Or.inr hid)] at hk
        refine ⟨hinv k st1 hk, ?_⟩
        intro st hst
        rw [hst] at hk
        rw [Option.some.inj hk]
      · rw [Watch_lookup w now ref h hid] at hk
        by_cases hkid : k = (watchedRef ref).ID
        · rw [if_pos hkid] at hk
          cases hl : w.watchers.lookup k with
          | none =>
            rw [hl] at hk
            simp only [Option.some.injEq] at hk
            rw [← hk]
            exact ⟨⟨le_refl _, hle⟩, fun st hst => absurd hst (by simp)⟩
          | some st0 =>
            rw [hl] at hk
            simp only [Option.some.injEq] at hk
            rw [← hk]
            refine ⟨hinv k st0 hl, ?_⟩
            intro st hst
            rw [Option.some.inj hst]
        · rw [if_neg hkid] at hk
          refine ⟨hinv k st1 hk, ?_⟩
          intro st hst
          rw [hst] at hk
          rw [Option.some.inj hk]
  | tick env =>
    refine ⟨(tick_spec w c env hok).1, ?_⟩
    intro k st1 hk
    simp only [OperationWorker.step] at hk
    rw [tick_lookup w c env hok k] at hk
    cases hl : w.watchers.lookup k with
    | none =>
      rw [hl] at hk
      exact absurd hk (by simp)
    | some st0 =>
      rw [hl] at hk
      simp only [Option.some_bind] at hk
      obtain ⟨h1, h2⟩ := hinv k st0 hl
      have hgoal : (w.cfg.PollInterval ≤ st1.interval ∧ st1.interval ≤ w.cfg.MaxInterval) ∧
          st0.interval ≤ st1.interval := by
        by_cases hdue : st0.nextPoll ≤ env.now
        · rw [if_pos hdue] at hk
          unfold polledState at hk
          split at hk
          · rw [← Option.some.inj hk, bumpedState_error w.cfg _ _ st0 (by omega) (by omega)]
            simp only
            rw [min_def]
            split <;> omega
          · split at hk
            · exact absurd hk (by simp)
            · rw [← Option.some.inj hk]
              simp only [bumpedState]
              exact ⟨⟨h1, h2⟩, le_refl _⟩
        · rw [if_neg hdue] at hk
          rw [← Option.some.inj hk]
          exact ⟨⟨h1, h2⟩, le_refl _⟩
      refine ⟨hgoal.1, ?_⟩
      intro st hst
      rw [← Option.some.inj hst]
      exact hgoal.2

/-- A worker made with a configuration whose poll interval is positive and at
most the maximal interval, after any sequence of calls: the table satisfies its
invariant and every interval lies between the two. -/
theorem run_intervals (c : Client) (cfg : WorkerConfig) (hpos : 0 < cfg.PollInterval)
    (hle : cfg.PollInterval ≤ cfg.MaxInterval) (hmax : cfg.MaxInterval < 2 ^ 62) :
    ∀ (steps : List WorkerStep) (w : OperationWorker), w.tableOK → w.cfg = cfg →
      (∀ k st, w.watchers.lookup k = some st →
        cfg.PollInterval ≤ st.interval ∧ st.interval ≤ cfg.MaxInterval) →
      (OperationWorker.run c steps w).1.tableOK ∧ (OperationWorker.run c steps w).1.cfg = cfg ∧
        ∀ k st, (OperationWorker.run c steps w).1.watchers.lookup k = some st →
          cfg.PollInterval ≤ st.interval ∧ st.interval ≤ cfg.MaxInterval := by
  intro steps
  induction steps with
  | nil =>
    intro w hok hcfg hinv
    exact ⟨hok, hcfg, hinv⟩
  | cons s steps ih =>
    intro w hok hcfg hinv
    subst hcfg
    obtain ⟨h1, h2⟩ := step_intervals c w s hok hpos hle hmax hinv
    exact ih (w.step c s).1 (tableOK_step c w s hok) h1 (fun k st hk => (h2 k st hk).1)

/-- C29 (amended): for a worker configuration that `WithWorkerConfig` accepts,
with the poll interval at most the maximal interval and the maximal interval
below `2^62` ns, and every sequence of `Watch` calls and ticks on a new worker:
every entry of the table has its interval between the poll interval and the
maximal interval, and no further call lowers the interval of an entry. -/
theorem interval_bounds (c : Client) (cfg : WorkerConfig) (steps : List WorkerStep)
    (hcfg : WithWorkerConfig cfg = none) (hle : cfg.PollInterval ≤ cfg.MaxInterval)
    (hmax : cfg.MaxInterval < 2 ^ 62) :
    (∀ k st, (OperationWorker.run c steps (newOperationWorker cfg)).1.watchers.lookup k = some st →
      cfg.PollInterval ≤ st.interval ∧ st.interval ≤ cfg.MaxInterval) ∧
    (∀ s k st st1,
      (OperationWorker.run c steps (newOperationWorker cfg)).1.watchers.lookup k = some st →
      ((OperationWorker.run c steps (newOperationWorker cfg)).1.step c s).1.watchers.lookup k
        = some st1 →
      st.interval ≤ st1.interval) := by
  have hpos := (WithWorkerConfig_accepts cfg hcfg).1
  obtain ⟨h1, h2, h3⟩ := run_intervals c cfg hpos hle hmax steps (newOperationWorker cfg)
    (tableOK_new cfg) rfl (fun k st hk => absurd hk (by simp [newOperationWorker]))
  refine ⟨h3, ?_⟩
  intro s k st st1 hk hk1
  have hstep := step_intervals c _ s h1 (by rw [h2]; exact hpos) (by rw [h2]; exact hle)
    (by rw [h2]; exact hmax) (by rw [h2]; exact h3)
  exact (hstep.2 k st1 hk1).2 st hk

theorem interval_bounds_witness :
    (OperationWorker.run plainClient
        [.watch 0 { ID := "op-1" } (some 1), .tick (failingTick 0), .tick (failingTick 50000000),
          .tick (failingTick 200000000)]
        (newOperationWorker ⟨20000000, 60000000, 0, 256⟩)).1.watchers.lookup "op-1"
      = some ⟨{ ID := "op-1" }, [1], 60000000, 261000000⟩ ∧
    (20000000 : Int) ≤ (⟨{ ID := "op-1" }, [1], 60000000, 261000000⟩ : watchState).interval ∧
    (⟨{ ID := "op-1" }, [1], 60000000, 261000000⟩ : watchState).interval ≤ 60000000 :=
  ⟨by decide,
    (interval_bounds plainClient ⟨20000000, 60000000, 0, 256⟩
      [.watch 0 { ID := "op-1" } (some 1), .tick (failingTick 0), .tick (failingTick 50000000),
        .tick (failingTick 200000000)] (by decide) (by decide) (by decide)).1 "op-1"
      ⟨{ ID := "op-1" }, [1], 60000000, 261000000⟩ (by decide)⟩

/-! ### Client construction -/

theorem WithRetryPolicy_default : WithRetryPolicy DefaultRetryPolicy = none := by
  have h : ¬ (Float64.num (1 / 4) < 0) := by
    show ¬ (Float64.lt (Float64.num (1 / 4)) (Float64.num ((0 : Nat) : ℚ)) = true)
    simp only [Float64.lt, decide_eq_true_eq]
    norm_num
  simp only [WithRetryPolicy, DefaultRetryPolicy]
  rw [if_neg (by norm_num), if_neg (by norm_num), if_neg h]

theorem WithWorkerConfig_default : WithWorkerConfig DefaultWorkerConfig = none := by
  have h : ¬ (Float64.num (3 / 20) < 0) := by
    show ¬ (Float64.lt (Float64.num (3 / 20)) (Float64.num ((0 : Nat) : ℚ)) = true)
    simp only [Float64.lt, decide_eq_true_eq]
    norm_num
  simp only [WithWorkerConfig, DefaultWorkerConfig]
  rw [if_neg (by norm_num), if_neg (by norm_num), if_neg h]

theorem WithRetryPolicy_accepts (policy : RetryPolicy) (h : WithRetryPolicy policy = none) :
    0 ≤ policy.MaxRetries ∧ 0 < policy.BaseDelay ∧ 0 < policy.MaxDelay ∧ ¬ policy.Jitter < 0 := by
  unfold WithRetryPolicy at h
  split_ifs at h with h1 h2 h3
  exact ⟨by omega, by omega, by omega, h3⟩

/-- A `float64` that is not below zero is at least zero, unless it is a NaN. -/
theorem Float64.nonneg_of_not_lt (x : Float64) (h : ¬ x < 0) (hnan : x ≠ .nan) : 0 ≤ x := by
  cases x with
  | nan => exact absurd rfl hnan
  | inf negative =>
    cases negative with
    | true => exact absurd rfl h
    | false => rfl
  | num q =>
    have h1 : ¬ (Float64.lt (Float64.num q) (Float64.num ((0 : Nat) : ℚ)) = true) := h
    show Float64.le (Float64.num ((0 : Nat) : ℚ)) (Float64.num q) = true
    simp only [Float64.lt, Float64.le, decide_eq_true_eq, not_lt] at h1 ⊢
    exact h1

theorem defaultConfig_eq : ∃ c, defaultConfig = .inr c ∧ c.validated ∧ c.token = "" := by
  refine ⟨_, rfl, ⟨WithRetryPolicy_default, WithWorkerConfig_default⟩, rfl⟩

theorem apply_validated (o : ClientOption) (c c1 : config) (hc : c.validated)
    (h : o.apply c = .inr c1) : c1.validated := by
  cases o with
  | WithOAuthToken token =>
    simp only [ClientOption.apply, Sum.inr.injEq] at h
    rw [← h]
    exact hc
  | WithHTTPClient client =>
    cases client with
    | none => simp [ClientOption.apply] at h
    | some cl =>
      simp only [ClientOption.apply, Sum.inr.injEq] at h
      rw [← h]
      exact hc
  | WithBaseURL rawURL =>
    simp only [ClientOption.apply] at h
    split at h
    · simp at h
    · simp only [Sum.inr.injEq] at h
      rw [← h]
      exact hc
  | WithUserAgent userAgent =>
    simp only [ClientOption.apply, Sum.inr.injEq] at h
    rw [← h]
    exact hc
  | WithRetryPolicy policy =>
    simp only [ClientOption.apply] at h
    split at h
    · simp at h
    · next hp =>
      simp only [Sum.inr.injEq] at h
      rw [← h]
      exact ⟨hp, hc.2⟩
  | WithHooks hooks =>
    simp only [ClientOption.apply, Sum.inr.injEq] at h
    rw [← h]
    exact hc
  | WithWorkerConfig cfg =>
    simp only [ClientOption.apply] at h
    split at h
    · simp at h
    · next hp =>
      simp only [Sum.inr.injEq] at h
      rw [← h]
      exact ⟨hc.1, hp⟩

/-- Whether an option returns an error does not depend on the configuration it
is applied to. -/
theorem apply_rejects_everywhere (o : ClientOption) (c c0 : config) (err : GoError)
    (h : o.apply c0 = .inl err) : o.apply c = .inl err := by
  cases o with
  | WithOAuthToken token => simp [ClientOption.apply] at h
  | WithHTTPClient client =>
    cases client with
    | none => simpa [ClientOption.apply] using h
    | some cl => simp [ClientOption.apply] at h
  | WithBaseURL rawURL =>
    simp only [ClientOption.apply] at h ⊢
    split at h
    · exact h
    · simp at h
  | WithUserAgent userAgent => simp [ClientOption.apply] at h
  | WithRetryPolicy policy =>
    simp only [ClientOption.apply] at h ⊢
    split at h
    · exact h
    · simp at h
  | WithHooks hooks => simp [ClientOption.apply] at h
  | WithWorkerConfig cfg =>
    simp only [ClientOption.apply] at h ⊢
    split at h
    · exact h
    · simp at h

theorem applyOptions_spec : ∀ (opts : List ClientOption) (c : config),
    (∀ c1, applyOptions opts c = .inr c1 →
      (c.validated → c1.validated) ∧ ∀ o ∈ opts, ∀ c0 err, o.apply c0 ≠ .inl err) ∧
    ((∃ o ∈ opts, ∃ c0 err, o.apply c0 = .inl err) → ∃ err, applyOptions opts c = .inl err) := by
  intro opts
  induction opts with
  | nil =>
    intro c
    refine ⟨?_, ?_⟩
    · intro c1 h
      simp only [applyOptions, Sum.inr.injEq] at h
      rw [← h]
      exact ⟨id, fun o ho => absurd ho (List.not_mem_nil o)⟩
    · rintro ⟨o, ho, -⟩
      exact absurd ho (List.not_mem_nil o)
  | cons opt opts ih =>
    intro c
    cases hap : opt.apply c with
    | inl err =>
      refine ⟨?_, fun _ => ⟨err, by simp only [applyOptions, hap]⟩⟩
      intro c1 h
      simp [applyOptions, hap] at h
    | inr c2 =>
      obtain ⟨ih1, ih2⟩ := ih c2
      refine ⟨?_, ?_⟩
      · intro c1 h
        simp only [applyOptions, hap] at h
        obtain ⟨hv, hall⟩ := ih1 c1 h
        refine ⟨fun hc => hv (apply_validated opt c c2 hc hap), ?_⟩
        intro o ho c0 err hrej
        rcases List.mem_cons.mp ho with rfl | ho
        · rw [apply_rejects_everywhere o c c0 err hrej] at hap
          exact absurd hap (by simp)
        · exact hall o ho c0 err hrej
      · rintro ⟨o, ho, c0, err, hrej⟩
        simp only [applyOptions, hap]
        rcases List.mem_cons.mp ho with rfl | ho
        · rw [apply_rejects_everywhere o c c0 err hrej] at hap
          exact absurd hap (by simp)
        · exact ih2 ⟨o, ho, c0, err, hrej⟩

/-- What `NewClient` enforces. It returns an error when an option returns one
and when the token is empty after the options. When it succeeds, no option
returned an error, the token is not empty, the retry policy has
`MaxRetries ≥ 0`, positive delays and a jitter that is not below zero, the
worker configuration has positive intervals, a positive queue size and a jitter
that is not below zero, and the worker is new with that configuration. A jitter
that is not below zero is at least zero unless it is a NaN. -/
theorem NewClient_validated (opts : List ClientOption) :
    ((∃ o ∈ opts, ∃ c0 err, o.apply c0 = .inl err) → ∃ err, NewClient opts = .inl err) ∧
    (∀ c0 c, defaultConfig = .inr c0 → applyOptions opts c0 = .inr c → c.token = "" →
      NewClient opts = .inl errEmptyToken) ∧
    (∀ cl, NewClient opts = .inr cl →
      (∀ o ∈ opts, ∀ c0 err, o.apply c0 ≠ .inl err) ∧ cl.transport.token ≠ "" ∧
      0 ≤ cl.client.retry.MaxRetries ∧ 0 < cl.client.retry.BaseDelay ∧
      0 < cl.client.retry.MaxDelay ∧ ¬ cl.client.retry.Jitter < 0 ∧
      (cl.client.retry.Jitter ≠ .nan → 0 ≤ cl.client.retry.Jitter) ∧
      0 < cl.workerCfg.PollInterval ∧ 0 < cl.workerCfg.MaxInterval ∧
      0 < cl.workerCfg.QueueSize ∧ ¬ cl.workerCfg.Jitter < 0 ∧
      (cl.workerCfg.Jitter ≠ .nan → 0 ≤ cl.workerCfg.Jitter) ∧
      cl.Worker = newOperationWorker cl.workerCfg) ∧
    WithRetryPolicy DefaultRetryPolicy = none ∧ WithWorkerConfig DefaultWorkerConfig = none := by
  obtain ⟨d, hd, hdv, -⟩ := defaultConfig_eq
  obtain ⟨hs1, hs2⟩ := applyOptions_spec opts d
  refine ⟨?_, ?_, ?_, WithRetryPolicy_default, WithWorkerConfig_default⟩
  · intro hrej
    obtain ⟨err, herr⟩ := hs2 hrej
    exact ⟨err, by simp only [NewClient, hd, herr]⟩
  · intro c0 c hc0 hc htoken
    simp only [NewClient, hc0, hc, if_pos htoken]
  · intro cl hcl
    simp only [NewClient, hd] at hcl
    cases hap : applyOptions opts d with
    | inl err =>
      rw [hap] at hcl
      simp at hcl
    | inr c =>
      rw [hap] at hcl
      simp only at hcl
      obtain ⟨hv, hall⟩ := hs1 c hap
      obtain ⟨hr, hw⟩ := hv hdv
      by_cases htoken : c.token = ""
      · rw [if_pos htoken] at hcl
        simp at hcl
      · rw [if_neg htoken] at hcl
        cases hhc : c.httpClient with
        | none =>
          rw [hhc] at hcl
          simp at hcl
        | some httpClient =>
          rw [hhc] at hcl
          simp only [Sum.inr.injEq] at hcl
          rw [← hcl]
          obtain ⟨r1, r2, r3, r4⟩ := WithRetryPolicy_accepts c.retryPolicy hr
          obtain ⟨w1, w2, w3, w4⟩ := WithWorkerConfig_accepts c.worker hw
          exact ⟨hall, htoken, r1, r2, r3, r4, Float64.nonneg_of_not_lt _ r4, w1, w2, w3, w4,
            Float64.nonneg_of_not_lt _ w4, rfl⟩

/-- C24 (failing input): the options `WithOAuthToken("x")` and
`WithRetryPolicy(RetryPolicy{MaxRetries: 0, BaseDelay: 1ms, MaxDelay: 1ms,
Jitter: NaN})`. The validator rejects a jitter only when `Jitter < 0`, which is
false of a NaN, so `NewClient` succeeds with a retry policy whose jitter is a
NaN, and `jitter >= 0` is false of it. The same holds of the jitter of a worker
configuration. -/
theorem NewClient_accepts_nan_jitter :
    (∃ cl, NewClient [.WithOAuthToken "x", .WithRetryPolicy ⟨0, 1000000, 1000000, .nan⟩]
        = .inr cl ∧ cl.client.retry.Jitter = .nan) ∧
      (∃ cl, NewClient [.WithOAuthToken "x", .WithWorkerConfig ⟨1000000, 1000000000, .nan, 10⟩]
        = .inr cl ∧ cl.workerCfg.Jitter = .nan) ∧
      ¬ ((0 : Float64) ≤ Float64.nan) :=
  ⟨⟨_, rfl, rfl⟩, ⟨_, rfl, rfl⟩, by decide⟩

/-! ### The retry loop: bounds on the attempts -/

theorem retryAttempts_append (a b : List Event) :
    retryAttempts (a ++ b) = retryAttempts a ++ retryAttempts b := by
  induction a with
  | nil => rfl
  | cons e a ih => cases e <;> simp [retryAttempts, ih]

/-- One iteration of the loop of `doJSON` at an attempt within the bound: either
it returns, after one more round trip and without a completed sleep, or with
the error of a sleep that was cut short; or the attempt is below the bound and
the loop goes on after one more round trip, one call of `OnRetry` for this
attempt if the hook is set, and one sleep. -/
theorem doJSONLoop_iteration (c : Client) (w : World) (method : String)
    (out : Option (String → Option String)) (expected : List Int) (attempts : Int)
    (fuel : Nat) (attempt : Int) (lastErr : Option GoError) (tr : List Event) (url : String)
    (hurl : w.newRequest = .inr url) (hle : attempt ≤ attempts) :
    (∃ res, doJSONLoop c w method out expected attempts (fuel + 1) attempt lastErr tr = some res ∧
      attemptCount res.trace = attemptCount tr + 1 ∧
      ((sleepCount res.trace = sleepCount tr ∧ retryAttempts res.trace = retryAttempts tr) ∨
        (sleepCount res.trace = sleepCount tr + 1 ∧
          retryAttempts res.trace
            = retryAttempts tr ++ (if c.hooks.OnRetry = true then [attempt] else []) ∧
          ∃ e, w.sleep attempt = some e ∧ res.err = some e ∧ res.resp = none))) ∨
    (attempt < attempts ∧ ∃ lastErr1 tr1,
      doJSONLoop c w method out expected attempts (fuel + 1) attempt lastErr tr
        = doJSONLoop c w method out expected attempts fuel (wrap64 (attempt + 1)) lastErr1 tr1 ∧
      attemptCount tr1 = attemptCount tr + 1 ∧ sleepCount tr1 = sleepCount tr + 1 ∧
      retryAttempts tr1
        = retryAttempts tr ++ (if c.hooks.OnRetry = true then [attempt] else [])) := by
  simp only [doJSONLoop, if_pos hle, hurl]
  cases hdo : w.httpDo attempt with
  | fail err resp =>
    simp only
    by_cases hretry : attempt < attempts ∧ isIdempotentMethod method = true
    · simp only [if_pos hretry]
      cases hsl : w.sleep attempt with
      | some ctxErr =>
        refine Or.inl ⟨_, rfl, ?_, Or.inr ⟨?_, ?_, ctxErr, rfl, rfl, rfl⟩⟩ <;>
          cases resp <;> by_cases h1 : c.hooks.OnRequest = true <;>
          by_cases h2 : c.hooks.OnResponse = true <;> by_cases h3 : c.hooks.OnRetry = true <;>
          simp [h1, h2, h3, attemptCount_append, attemptCount, sleepCount_append, sleepCount,
            retryAttempts_append, retryAttempts]
      | none =>
        refine Or.inr ⟨hretry.1, _, _, rfl, ?_, ?_, ?_⟩ <;>
          cases resp <;> by_cases h1 : c.hooks.OnRequest = true <;>
          by_cases h2 : c.hooks.OnResponse = true <;> by_cases h3 : c.hooks.OnRetry = true <;>
          simp [h1, h2, h3, attemptCount_append, attemptCount, sleepCount_append, sleepCount,
            retryAttempts_append, retryAttempts]
    · simp only [if_neg hretry]
      refine Or.inl ⟨_, rfl, ?_, Or.inl ⟨?_, ?_⟩⟩ <;>
        cases resp <;> by_cases h1 : c.hooks.OnRequest = true <;>
        by_cases h2 : c.hooks.OnResponse = true <;>
        simp [h1, h2, attemptCount_append, attemptCount, sleepCount_append, sleepCount,
          retryAttempts_append, retryAttempts]
  | ok resp =>
    simp only
    by_cases hretry : retryableStatus resp.StatusCode = true ∧ attempt < attempts ∧
        isIdempotentMethod method = true
    · simp only [if_pos hretry]
      cases hread : resp.readErr with
      | some err =>
        cases hclose : resp.closeErr <;>
        · refine Or.inl ⟨_, rfl, ?_, Or.inl ⟨?_, ?_⟩⟩ <;>
            by_cases h1 : c.hooks.OnRequest = true <;>
            by_cases h2 : c.hooks.OnResponse = true <;>
            simp [h1, h2, attemptCount_append, attemptCount, sleepCount_append, sleepCount,
              retryAttempts_append, retryAttempts]
      | none =>
        cases hclose : resp.closeErr with
        | some err =>
          refine Or.inl ⟨_, rfl, ?_, Or.inl ⟨?_, ?_⟩⟩ <;>
            by_cases h1 : c.hooks.OnRequest = true <;>
            by_cases h2 : c.hooks.OnResponse = true <;>
            simp [h1, h2, attemptCount_append, attemptCount, sleepCount_append, sleepCount,
              retryAttempts_append, retryAttempts]
        | none =>
          simp only
          cases hsl : w.sleep attempt with
          | some ctxErr =>
            refine Or.inl ⟨_, rfl, ?_, Or.inr ⟨?_, ?_, ctxErr, rfl, rfl, rfl⟩⟩ <;>
              by_cases h1 : c.hooks.OnRequest = true <;>
              by_cases h2 : c.hooks.OnResponse = true <;>
              by_cases h3 : c.hooks.OnRetry = true <;>
              simp [h1, h2, h3, attemptCount_append, attemptCount, sleepCount_append, sleepCount,
                retryAttempts_append, retryAttempts]
          | none =>
            refine Or.inr ⟨hretry.2.1, _, _, rfl, ?_, ?_, ?_⟩ <;>
              by_cases h1 : c.hooks.OnRequest = true <;>
              by_cases h2 : c.hooks.OnResponse = true <;>
              by_cases h3 : c.hooks.OnRetry = true <;>
              simp [h1, h2, h3, attemptCount_append, attemptCount, sleepCount_append, sleepCount,
                retryAttempts_append, retryAttempts]
    · simp only [if_neg hretry]
      cases hdec : decodeResponse resp out expected <;>
      · refine Or.inl ⟨_, rfl, ?_, Or.inl ⟨?_, ?_⟩⟩ <;>
          by_cases h1 : c.hooks.OnRequest = true <;>
          by_cases h2 : c.hooks.OnResponse = true <;>
          simp [h1, h2, attemptCount_append, attemptCount, sleepCount_append, sleepCount,
            retryAttempts_append, retryAttempts]

/-- The loop of `doJSON` started at an attempt within the bound returns, at some
attempt within the bound: it has made one round trip for each attempt up to
that one and completed one sleep after each attempt but the last, and `OnRetry`
has been called once for each attempt that was followed by a sleep. -/
theorem doJSONLoop_bounds (c : Client) (w : World) (method : String)
    (out : Option (String → Option String)) (expected : List Int) (attempts : Int)
    (url : String) (hurl : w.newRequest = .inr url) (hatt : attempts < 2 ^ 63) :
    ∀ (k fuel : Nat) (attempt : Int) (lastErr : Option GoError) (tr : List Event),
      1 ≤ attempt → attempt + k = attempts → k < fuel →
      ∃ res, ∃ m : Nat,
        doJSONLoop c w method out expected attempts fuel attempt lastErr tr = some res ∧
        attempt + m ≤ attempts ∧
        attemptCount res.trace = attemptCount tr + m + 1 ∧
        (sleepCount res.trace = sleepCount tr + m ∨
          (sleepCount res.trace = sleepCount tr + m + 1 ∧
            ∃ e, w.sleep (attempt + m) = some e ∧ res.err = some e ∧ res.resp = none)) ∧
        retryAttempts res.trace
          = retryAttempts tr ++
            (if c.hooks.OnRetry = true then
              (List.range (sleepCount res.trace - sleepCount tr)).map fun (i : Nat) => attempt + (i : Int)
            else []) := by
  intro k
  induction k with
  | zero =>
    intro fuel attempt lastErr tr h1 hk hfuel
    obtain ⟨f, rfl⟩ : ∃ f, fuel = f + 1 := ⟨fuel - 1, by omega⟩
    rcases doJSONLoop_iteration c w method out expected attempts f attempt lastErr tr url hurl
      (by omega) with ⟨res, hres, ha, hs⟩ | ⟨hlt, -⟩
    · refine ⟨res, 0, hres, by omega, by omega, ?_, ?_⟩
      · rcases hs with ⟨hs, -⟩ | ⟨hs, -, e, he⟩
        · exact Or.inl (by omega)
        · exact Or.inr ⟨by omega, e, by simpa using he⟩
      · rcases hs with ⟨hs, hr⟩ | ⟨hs, hr, -⟩
        · rw [hr, hs]
          simp
        · rw [hr, hs]
          by_cases h3 : c.hooks.OnRetry = true <;> simp [h3, List.range_succ]
    · omega
  | succ k ih =>
    intro fuel attempt lastErr tr h1 hk hfuel
    obtain ⟨f, rfl⟩ : ∃ f, fuel = f + 1 := ⟨fuel - 1, by omega⟩
    rcases doJSONLoop_iteration c w method out expected attempts f attempt lastErr tr url hurl
      (by omega) with ⟨res, hres, ha, hs⟩ | ⟨hlt, lastErr1, tr1, hstep, ha1, hs1, hr1⟩
    · refine ⟨res, 0, hres, by omega, by omega, ?_, ?_⟩
      · rcases hs with ⟨hs, -⟩ | ⟨hs, -, e, he⟩
        · exact Or.inl (by omega)
        · exact Or.inr ⟨by omega, e, by simpa using he⟩
      · rcases hs with ⟨hs, hr⟩ | ⟨hs, hr, -⟩
        · rw [hr, hs]
          simp
        · rw [hr, hs]
          by_cases h3 : c.hooks.OnRetry = true <;> simp [h3, List.range_succ]
    · have hw : wrap64 (attempt + 1) = attempt + 1 := wrap64_of_range _ (by omega) (by omega)
      rw [hw] at hstep
      obtain ⟨res, m, hres, hm, ha, hs, hr⟩ := ih f (attempt + 1) lastErr1 tr1 (by omega)
        (by push_cast at hk; omega) (by omega)
      refine ⟨res, m + 1, hstep.trans hres, by push_cast; omega, by omega, ?_, ?_⟩
      · rcases hs with hs | ⟨hs, e, he⟩
        · exact Or.inl (by omega)
        · refine Or.inr ⟨by omega, e, ?_⟩
          have : attempt + ((m + 1 : Nat) : Int) = attempt + 1 + (m : Int) := by push_cast; ring
          rw [this]
          exact he
      · rw [hr, hr1, List.append_assoc]
        congr 1
        by_cases h3 : c.hooks.OnRetry = true
        · simp only [h3, if_true]
          have hcount : sleepCount res.trace - sleepCount tr
              = (sleepCount res.trace - sleepCount tr1) + 1 := by
            rcases hs with hs | ⟨hs, -⟩ <;> omega
          rw [hcount, List.range_succ_eq_map, List.map_cons, List.map_map]
          simp only [List.singleton_append, Nat.cast_zero, add_zero, List.cons.injEq, true_and]
          apply List.map_congr_left
          intro i _
          simp only [Function.comp, Nat.succ_eq_add_one]
          push_cast
          ring
        · simp [h3]

theorem wrap64_bounds (x : Int) : -2 ^ 63 ≤ wrap64 x ∧ wrap64 x < 2 ^ 63 := by
  unfold wrap64
  have h1 : (2 : Int) ^ 63 = 9223372036854775808 := by norm_num
  have h2 : (2 : Int) ^ 64 = 18446744073709551616 := by norm_num
  rw [h1, h2]
  omega

/-- C30 (counterexample): with `OnRetry` set and four retries allowed, the first
attempt is answered with `500` and the context ends during the back-off that
follows. `doJSON` returns the error of the context after that single attempt,
and `OnRetry` has been called once, for attempt 1, which no attempt follows. -/
theorem doJSON_onRetry_without_next_attempt :
    (doJSON retryHookClient cancelledBackoffWorld "GET" none none [200]).map
        (fun res => (attemptCount res.trace, retryAttempts res.trace, res.resp, res.err))
      = some (1, [1], none, some (.other "context canceled")) := by
  decide

/-- C30 (amended): for every method, every retry policy (its `MaxRetries` any `int`,
negative ones included) and every behaviour of the server and the context, with
a payload that marshals and a request that can be built, `doJSON` returns, and
it has then called `httpClient.Do` at least once and at most
`max(1, 1 + MaxRetries)` times, exactly once when `MaxRetries` is negative. It
returns from inside the loop: it has completed a sleep after each attempt but
the last, or the sleep after the last attempt was cut short by the context and
its error is what is returned; a run that left the loop through its condition
would have completed a sleep after the last attempt too. `OnRetry`, if set, is
called once for each attempt that was followed by a sleep, with the numbers
1, 2, ... of those attempts in order, and not at all if it is not set; when no
sleep is cut short these are the attempts that were followed by another
attempt. -/
theorem doJSON_attempt_bounds (c : Client) (w : World) (method : String)
    (payload : Option (GoError ⊕ String)) (out : Option (String → Option String))
    (expected : List Int) (url : String)
    (hpayload : ∀ err, payload ≠ some (.inl err)) (hurl : w.newRequest = .inr url)
    (hlo : -2 ^ 63 ≤ c.retry.MaxRetries) (hhi : c.retry.MaxRetries < 2 ^ 63) :
    ∃ res, doJSON c w method payload out expected = some res ∧
      1 ≤ attemptCount res.trace ∧
      (attemptCount res.trace : Int) ≤ max 1 (1 + c.retry.MaxRetries) ∧
      (c.retry.MaxRetries < 0 → attemptCount res.trace = 1) ∧
      (sleepCount res.trace + 1 = attemptCount res.trace ∨
        (sleepCount res.trace = attemptCount res.trace ∧
          ∃ e, w.sleep (attemptCount res.trace) = some e ∧ res.err = some e ∧
            res.resp = none)) ∧
      retryAttempts res.trace
        = (if c.hooks.OnRetry = true then
            (List.range (sleepCount res.trace)).map fun (i : Nat) => 1 + (i : Int)
          else []) ∧
      ((∀ i, w.sleep i = none) →
        retryAttempts res.trace
          = if c.hooks.OnRetry = true then
              (List.range (attemptCount res.trace - 1)).map fun (i : Nat) => 1 + (i : Int)
            else []) := by
  obtain ⟨hb1, hb2⟩ := wrap64_bounds (c.retry.MaxRetries + 1)
  have hloop : doJSON c w method payload out expected
      = doJSONLoop c w method out expected
          (if wrap64 (c.retry.MaxRetries + 1) < 1 then 1 else wrap64 (c.retry.MaxRetries + 1))
          ((if wrap64 (c.retry.MaxRetries + 1) < 1 then 1
            else wrap64 (c.retry.MaxRetries + 1)).toNat + 1) 1 none [] := by
    unfold doJSON
    cases payload with
    | none => rfl
    | some p =>
      cases p with
      | inl err => exact absurd rfl (hpayload err)
      | inr b => rfl
  have hatt : (1 : Int) ≤ (if wrap64 (c.retry.MaxRetries + 1) < 1 then 1
        else wrap64 (c.retry.MaxRetries + 1)) ∧
      (if wrap64 (c.retry.MaxRetries + 1) < 1 then 1 else wrap64 (c.retry.MaxRetries + 1))
        < 2 ^ 63 ∧
      (if wrap64 (c.retry.MaxRetries + 1) < 1 then 1 else wrap64 (c.retry.MaxRetries + 1))
        ≤ max 1 (1 + c.retry.MaxRetries) ∧
      (c.retry.MaxRetries < 0 →
        (if wrap64 (c.retry.MaxRetries + 1) < 1 then 1 else wrap64 (c.retry.MaxRetries + 1))
          = 1) := by
    by_cases hmax : c.retry.MaxRetries + 1 < 2 ^ 63
    · rw [wrap64_of_range _ (by omega) hmax]
      refine ⟨by split <;> omega, by split <;> omega, ?_, ?_⟩
      · rw [max_def]
        split <;> split <;> omega
      · intro hneg
        rw [if_pos (by omega)]
    · have hM : c.retry.MaxRetries = 2 ^ 63 - 1 := by omega
      have hw : wrap64 (c.retry.MaxRetries + 1) = -2 ^ 63 := by
        rw [hM]
        decide
      rw [hw]
      refine ⟨by norm_num, by norm_num, ?_, ?_⟩
      · rw [if_pos (by norm_num)]
        exact le_max_left _ _
      · intro _
        rw [if_pos (by norm_num)]
  generalize (if wrap64 (c.retry.MaxRetries + 1) < 1 then 1
    else wrap64 (c.retry.MaxRetries + 1)) = attempts at hloop hatt
  obtain ⟨ha1, ha2, ha3, ha4⟩ := hatt
  obtain ⟨res, m, hres, hm, hcount, hsleep, hretry⟩ :=
    doJSONLoop_bounds c w method out expected attempts url hurl ha2 (attempts - 1).toNat
      (attempts.toNat + 1) 1 none [] le_rfl (by omega) (by omega)
  simp only [attemptCount, sleepCount, retryAttempts, Nat.zero_add, List.nil_append,
    Nat.sub_zero] at hcount hsleep hretry
  refine ⟨res, hloop.trans hres, by omega, by omega, ?_, ?_, hretry, ?_⟩
  · intro hneg
    have := ha4 hneg
    omega
  · rcases hsleep with hs | ⟨hs, e, he⟩
    · exact Or.inl (by omega)
    · refine Or.inr ⟨by omega, e, ?_⟩
      have hcast : ((attemptCount res.trace : Nat) : Int) = 1 + (m : Int) := by
        rw [hcount]
        push_cast
        ring
      rw [hcast]
      exact he
  · intro hnone
    rcases hsleep with hs | ⟨hs, e, he, -⟩
    · rw [hretry, hs, hcount]
      simp
    · rw [hnone] at he
      exact absurd he (by simp)

theorem doJSON_attempt_bounds_witness :
    ∃ res, doJSON retryHookClient retryOnGetWorld "GET" none none [200] = some res ∧
      1 ≤ attemptCount res.trace ∧
      (attemptCount res.trace : Int) ≤ max 1 (1 + retryHookClient.retry.MaxRetries) ∧
      (sleepCount res.trace + 1 = attemptCount res.trace ∨
        (sleepCount res.trace = attemptCount res.trace ∧
          ∃ e, retryOnGetWorld.sleep (attemptCount res.trace) = some e ∧ res.err = some e ∧
            res.resp = none)) ∧
      retryAttempts res.trace = (if retryHookClient.hooks.OnRetry = true then
        (List.range (sleepCount res.trace)).map fun (i : Nat) => 1 + (i : Int) else []) :=
  have h := doJSON_attempt_bounds retryHookClient retryOnGetWorld "GET" none none [200]
    "https://cloud-api.yandex.net/v1/disk" (fun err hx => Option.noConfusion hx) rfl
    (by decide) (by decide)
  h.elim fun res hr => ⟨res, hr.1, hr.2.1, hr.2.2.1, hr.2.2.2.2.1, hr.2.2.2.2.2.1⟩

end Yadisk
